import Mathlib

/-!
Verification development for a Chinese Chess (Xiangqi) engine.

The definitions below are a shallow embedding of `chess_game.py` and
`game_tree.py`:
  * a board is a 10 x 9 grid of optional pieces (row 0 is Black's back
    rank, row 9 is Red's back rank);
  * moves are WXF notation strings, modelled as `List Char`;
  * the Python `while` loops of the move scanner are modelled as
    fuel-indexed recursions (the fuel is chosen far larger than any
    possible iteration count of the source loops);
  * Python exceptions (`ValueError` in the notation converters) are
    modelled as `Option`/default results, as noted at each definition.
-/

namespace Xiangqi

/-- Embeds `_Piece`: a kind character and a colour flag.  Python `==` on
pieces compares both fields, which is definitional equality here. -/
structure Piece where
  kind : Char
  is_red : Bool
deriving DecidableEq, Repr

/-- Embeds the `_board` attribute: a 10-row by 9-column grid of optional
pieces, row 0 at the top (Black's side). -/
def Board : Type := Fin 10 → Fin 9 → Option Piece

instance : DecidableEq Board := by unfold Board; infer_instance

/-- Bounds-checked cell access `board[y][x]`.  The Python source always
guards its accesses so that indices are in range; out-of-range access here
returns `none`. -/
def cell (b : Board) (y x : Int) : Option Piece :=
  if h : 0 ≤ y ∧ y < 10 ∧ 0 ≤ x ∧ x < 9 then
    b ⟨y.toNat, by omega⟩ ⟨x.toNat, by omega⟩
  else none

/-- The rows-then-columns iteration order `[(y, x) for y in range(0, 10)
for x in range(0, 9)]` used throughout the source. -/
def allPositions : List (Int × Int) :=
  (List.range 10).flatMap fun (y : Nat) =>
    (List.range 9).map fun (x : Nat) => ((y : Int), (x : Int))

/-- Embeds Python `str` on a natural number. -/
def natStr (n : Nat) : List Char := Nat.toDigits 10 n

/-- Embeds Python `int` on a single digit character (`c.toNat - 48`). -/
def digitVal (c : Char) : Nat := c.toNat - 48

/-- The column scan of `_index_to_wxf`: all `(y, x)` with
`board[y][x] == piece` for `y` in `0..9`, in increasing `y` order. -/
def colPieces (b : Board) (x : Int) (p : Piece) : List (Int × Int) :=
  (List.range 10).filterMap fun (y : Nat) =>
    if cell b (y : Int) x = some p then some ((y : Int), x) else none

/-- The whole-board scan of `_wxf_to_index_two_aligned` and
`_wxf_to_index_more_than_three_aligned`: all positions holding `p`,
in row-major order (x inner, y outer), exactly the source's scan order. -/
def allPieceLocations (b : Board) (p : Piece) : List (Int × Int) :=
  allPositions.filter fun q => cell b q.1 q.2 = some p

/-- Embeds `_index_to_wxf`.  The source raises `ValueError` when the cell
is empty or holds the opponent's piece; that case is modelled as the empty
token `[]` (no caller of the move generator ever reaches it). -/
def indexToWxf (b : Board) (pos : Int × Int) (is_red : Bool) : List Char :=
  match cell b pos.1 pos.2 with
  | none => []
  | some piece =>
    if piece.is_red ≠ is_red then []
    else
      let pieces := colPieces b pos.2 ⟨piece.kind, is_red⟩
      if pieces.length = 1 then
        piece.kind :: (if is_red then natStr (9 - pos.2).toNat else natStr (pos.2 + 1).toNat)
      else if pieces.length = 2 then
        if (is_red ∧ pieces.indexOf pos = 1) ∨ (is_red = false ∧ pieces.indexOf pos = 0) then
          [piece.kind, '-']
        else
          [piece.kind, '+']
      else
        if is_red then
          natStr (pieces.indexOf pos + 1) ++ natStr (9 - pos.2).toNat
        else
          natStr (pieces.length - pieces.indexOf pos) ++ natStr (pos.2 + 1).toNat

/-- Embeds the nested pair search of `_wxf_to_index_two_aligned`: the first
pair `(first_piece, second_piece)` in nested-iteration order with distinct
members in the same column, sorted so the smaller row comes first
(Python's `sorted` on `(y, x)` tuples compares `y` first). -/
def findAlignedPair (l : List (Int × Int)) : Option ((Int × Int) × (Int × Int)) :=
  l.findSome? fun a =>
    l.findSome? fun c =>
      if a ≠ c ∧ a.2 = c.2 then
        some (if a.1 ≤ c.1 then (a, c) else (c, a))
      else none

/-- Embeds `_wxf_to_index_two_aligned` (`ValueError` modelled as `none`). -/
def wxfToIndexTwoAligned (b : Board) (piece : List Char) (is_red : Bool) :
    Option (Int × Int) :=
  match piece.map Char.toLower with
  | t0 :: t1 :: _ =>
    let locs := allPieceLocations b ⟨t0, is_red⟩
    match findAlignedPair locs with
    | none => none
    | some (c1, c2) =>
      if (is_red ∧ t1 = '+') ∨ (is_red = false ∧ t1 = '-') then some c1 else some c2
  | _ => none

/-- Embeds Python 3.8+ `statistics.mode`: the most common value, ties
broken by first appearance (the empty-list error case never arises at the
single call site, which guards on a non-empty piece list). -/
def pyMode (l : List Int) : Int :=
  match l with
  | [] => 0
  | x :: _ => l.foldl (fun best v => if l.count v > l.count best then v else best) x

/-- Embeds `_wxf_to_index_more_than_three_aligned`.  The source hardcodes
pawn pieces in its scan, takes the mode of the x-values, and indexes the
aligned pieces (which the row-major scan already yields sorted, so the
source's `sort()` is a no-op).  `ValueError`/`IndexError` are modelled as
`none`; Python's negative indexing (`lst[-n]`, and `lst[0-1]` = last) is
reproduced explicitly. -/
def wxfToIndexMoreThanThree (b : Board) (piece : List Char) (is_red : Bool) :
    Option (Int × Int) :=
  match piece.map Char.toLower with
  | t0 :: _ :: _ =>
    let locs := allPieceLocations b ⟨'p', is_red⟩
    match locs with
    | [] => none
    | _ :: _ =>
      let m := pyMode (locs.map Prod.snd)
      let aligned := locs.filter fun q => q.2 = m
      if aligned.length < 3 then none
      else
        let n := digitVal t0
        if is_red then
          if n = 0 then aligned.get? (aligned.length - 1) else aligned.get? (n - 1)
        else
          if n = 0 then aligned.get? 0
          else if n ≤ aligned.length then aligned.get? (aligned.length - n) else none
  | _ => none

/-- Embeds `_wxf_to_index` (`ValueError` modelled as `none`). -/
def wxfToIndex (b : Board) (piece : List Char) (is_red : Bool) : Option (Int × Int) :=
  match piece.map Char.toLower with
  | t0 :: t1 :: _ =>
    if t0.isDigit then wxfToIndexMoreThanThree b [t0, t1] is_red
    else if t1 = '+' ∨ t1 = '-' then wxfToIndexTwoAligned b [t0, t1] is_red
    else
      let x : Int := if is_red then 9 - (digitVal t1 : Int) else (digitVal t1 : Int) - 1
      match (List.range 10).find? (fun (y : Nat) => cell b (y : Int) x = some ⟨t0, is_red⟩) with
      | some y => some ((y : Int), x)
      | none => none
  | _ => none

/-- Embeds `_get_wxf_movement`: the WXF string for a move from `start` to
`dest` by a piece of colour `is_red`. -/
def getWxfMovement (b : Board) (start dest : Int × Int) (is_red : Bool) : List Char :=
  let move_start := indexToWxf b start is_red
  if start.1 = dest.1 then
    move_start ++ '.' :: (if is_red then natStr (9 - dest.2).toNat else natStr (dest.2 + 1).toNat)
  else if start.2 = dest.2 then
    if (is_red ∧ dest.1 < start.1) ∨ (is_red = false ∧ dest.1 > start.1) then
      move_start ++ '+' :: natStr (dest.1 - start.1).natAbs
    else
      move_start ++ '-' :: natStr (dest.1 - start.1).natAbs
  else
    let move_end := if is_red then natStr (9 - dest.2).toNat else natStr (dest.2 + 1).toNat
    if (is_red ∧ dest.1 < start.1) ∨ (is_red = false ∧ dest.1 > start.1) then
      move_start ++ '+' :: move_end
    else
      move_start ++ '-' :: move_end

/-- Embeds `_get_index_movement`: decode a WXF move string to its
destination square.  The source reads `move[0:2]`, `move[2]`, `move[3]`;
failure of the embedded `_wxf_to_index` is modelled as `none`. -/
def getIndexMovement (b : Board) (move : List Char) (is_red : Bool) : Option (Int × Int) :=
  match move with
  | t0 :: t1 :: s :: v :: _ =>
    match wxfToIndex b [t0, t1] is_red with
    | none => none
    | some (y, x) =>
      let value : Int := (digitVal v : Int)
      if s = '.' ∧ is_red then some (y, 9 - value)
      else if s = '.' ∧ is_red = false then some (y, value - 1)
      else
        match cell b y x with
        | none => none
        | some piece =>
          if piece.kind = 'r' ∨ piece.kind = 'k' ∨ piece.kind = 'c' ∨ piece.kind = 'p' then
            if (is_red ∧ s = '+') ∨ (is_red = false ∧ s = '-') then some (y - value, x)
            else some (y + value, x)
          else if piece.kind = 'h' ∧ is_red then
            let vert : Int := 3 - ((x - (9 - value)).natAbs : Int)
            if s = '+' then some (y - vert, 9 - value) else some (y + vert, 9 - value)
          else if piece.kind = 'h' ∧ is_red = false then
            let vert : Int := 3 - ((x - (value - 1)).natAbs : Int)
            if s = '+' then some (y + vert, value - 1) else some (y - vert, value - 1)
          else
            let vert : Int := if piece.kind = 'e' then 2 else 1
            if s = '+' ∧ is_red then some (y - vert, 9 - value)
            else if s = '-' ∧ is_red then some (y + vert, 9 - value)
            else if s = '+' ∧ is_red = false then some (y + vert, value - 1)
            else some (y - vert, value - 1)
  | _ => none

/-- The piece at a position; the callers of the per-piece move helpers
guarantee the cell is occupied (source precondition), so the default is
never relevant there. -/
def pieceAt (b : Board) (pos : Int × Int) : Piece :=
  (cell b pos.1 pos.2).getD ⟨' ', true⟩

/-- Embeds the inner cannon-firing `while` loop of
`_find_moves_in_direction` (the scan past the first blocking piece),
returning destination squares.  `i` is the loop counter of the source;
`fuel` bounds the iteration count (the source loop runs at most 10 times
before leaving the board). -/
def cannonFire (b : Board) (py px : Int) (is_red : Bool) (dy dx : Int) :
    Nat → Nat → List (Int × Int)
  | _, 0 => []
  | i, fuel + 1 =>
    let y := py + dy * i
    let x := px + dx * i
    if 0 ≤ x ∧ x ≤ 8 ∧ 0 ≤ y ∧ y ≤ 9 then
      match cell b y x with
      | some p => if p.is_red = is_red then [] else [(y, x)]
      | none => cannonFire b py px is_red dy dx (i + 1) fuel
    else []

/-- The `limit is not None and i > limit` stop test of
`_find_moves_in_direction`. -/
def limitReached (limit : Option Nat) (i : Nat) : Bool :=
  limit.elim false fun l => i > l

/-- Embeds the outer `while` loop of `_find_moves_in_direction`, returning
the destination squares in the order their moves are appended (when the
scan hits a piece: cannon-fire destinations first, then the blocked square
itself if capturable).  `kind` is `board[pos].kind` read once at entry, as
in the source. -/
def findDestsAux (b : Board) (py px : Int) (is_red : Bool) (dy dx : Int)
    (limit : Option Nat) (capture : Option Bool) (kind : Char) :
    Nat → Nat → List (Int × Int)
  | _, 0 => []
  | i, fuel + 1 =>
    let y := py + dy * i
    let x := px + dx * i
    if x < 0 ∨ y < 0 ∨ x > 8 ∨ y > 9 then []
    else
      match cell b y x with
      | some contents =>
        (if kind = 'c' then cannonFire b py px is_red dy dx (i + 1) fuel else [])
          ++ (if contents.is_red ≠ is_red ∧ capture ≠ some false then [(y, x)] else [])
      | none =>
        (y, x) :: (match limit with
          | some l =>
            if i + 1 > l then []
            else findDestsAux b py px is_red dy dx limit capture kind (i + 1) fuel
          | none => findDestsAux b py px is_red dy dx limit capture kind (i + 1) fuel)

/-- Fuel passed to the direction scan: the source loops leave the board
after at most 10 steps in any nonzero direction, so 20 is ample. -/
def scanFuel : Nat := 20

/-- The destination squares found by `_find_moves_in_direction`. -/
def destsInDirection (b : Board) (pos : Int × Int) (is_red : Bool) (dir : Int × Int)
    (limit : Option Nat := none) (capture : Option Bool := none) : List (Int × Int) :=
  findDestsAux b pos.1 pos.2 is_red dir.1 dir.2 limit capture (pieceAt b pos).kind 1 scanFuel

/-- Embeds `_find_moves_in_direction` itself: each found destination is
rendered through `_get_wxf_movement` exactly as in the source loop. -/
def findMovesInDirection (b : Board) (pos : Int × Int) (is_red : Bool) (dir : Int × Int)
    (limit : Option Nat := none) (capture : Option Bool := none) : List (List Char) :=
  (destsInDirection b pos is_red dir limit capture).map fun d =>
    getWxfMovement b pos d is_red

/-- Destination squares of `_calculate_moves_for_chariot` (four direction
scans in the source's order). -/
def chariotDests (b : Board) (pos : Int × Int) : List (Int × Int) :=
  let is_red := (pieceAt b pos).is_red
  destsInDirection b pos is_red (1, 0) ++ destsInDirection b pos is_red (-1, 0)
    ++ destsInDirection b pos is_red (0, 1) ++ destsInDirection b pos is_red (0, -1)

/-- Embeds `_calculate_moves_for_chariot`. -/
def calculateMovesForChariot (b : Board) (pos : Int × Int) : List (List Char) :=
  (chariotDests b pos).map fun d => getWxfMovement b pos d (pieceAt b pos).is_red

/-- Destination squares of `_calculate_moves_for_horse`, with the four
horse-leg guard checks of the source. -/
def horseDests (b : Board) (pos : Int × Int) : List (Int × Int) :=
  let is_red := (pieceAt b pos).is_red
  (if pos.1 ≠ 0 ∧ cell b (pos.1 - 1) pos.2 = none then
    destsInDirection b pos is_red (-2, 1) (some 1) ++ destsInDirection b pos is_red (-2, -1) (some 1)
  else [])
  ++ (if pos.1 ≠ 9 ∧ cell b (pos.1 + 1) pos.2 = none then
    destsInDirection b pos is_red (2, 1) (some 1) ++ destsInDirection b pos is_red (2, -1) (some 1)
  else [])
  ++ (if pos.2 ≠ 0 ∧ cell b pos.1 (pos.2 - 1) = none then
    destsInDirection b pos is_red (1, -2) (some 1) ++ destsInDirection b pos is_red (-1, -2) (some 1)
  else [])
  ++ (if pos.2 ≠ 8 ∧ cell b pos.1 (pos.2 + 1) = none then
    destsInDirection b pos is_red (1, 2) (some 1) ++ destsInDirection b pos is_red (-1, 2) (some 1)
  else [])

/-- Embeds `_calculate_moves_for_horse`. -/
def calculateMovesForHorse (b : Board) (pos : Int × Int) : List (List Char) :=
  (horseDests b pos).map fun d => getWxfMovement b pos d (pieceAt b pos).is_red

/-- Destination squares of `_calculate_moves_for_elephant`, with the
river-bound row checks and elephant-eye guard checks of the source. -/
def elephantDests (b : Board) (pos : Int × Int) : List (Int × Int) :=
  let is_red := (pieceAt b pos).is_red
  (if pos.1 ≠ 0 ∧ pos.1 ≠ 5 then
    (if pos.2 ≠ 0 ∧ cell b (pos.1 - 1) (pos.2 - 1) = none then
      destsInDirection b pos is_red (-2, -2) (some 1) else [])
    ++ (if pos.2 ≠ 8 ∧ cell b (pos.1 - 1) (pos.2 + 1) = none then
      destsInDirection b pos is_red (-2, 2) (some 1) else [])
  else [])
  ++ (if pos.1 ≠ 4 ∧ pos.1 ≠ 9 then
    (if pos.2 ≠ 0 ∧ cell b (pos.1 + 1) (pos.2 - 1) = none then
      destsInDirection b pos is_red (2, -2) (some 1) else [])
    ++ (if pos.2 ≠ 8 ∧ cell b (pos.1 + 1) (pos.2 + 1) = none then
      destsInDirection b pos is_red (2, 2) (some 1) else [])
  else [])

/-- Embeds `_calculate_moves_for_elephant`. -/
def calculateMovesForElephant (b : Board) (pos : Int × Int) : List (List Char) :=
  (elephantDests b pos).map fun d => getWxfMovement b pos d (pieceAt b pos).is_red

/-- Destination squares of `_calculate_moves_for_assistant` (the advisor),
with the palace row/column restrictions of the source. -/
def assistantDests (b : Board) (pos : Int × Int) : List (Int × Int) :=
  let is_red := (pieceAt b pos).is_red
  (if pos.1 ≠ 2 ∧ pos.1 ≠ 9 then
    (if pos.2 ≠ 3 then destsInDirection b pos is_red (1, -1) (some 1) else [])
    ++ (if pos.2 ≠ 5 then destsInDirection b pos is_red (1, 1) (some 1) else [])
  else [])
  ++ (if pos.1 ≠ 0 ∧ pos.1 ≠ 7 then
    (if pos.2 ≠ 3 then destsInDirection b pos is_red (-1, -1) (some 1) else [])
    ++ (if pos.2 ≠ 5 then destsInDirection b pos is_red (-1, 1) (some 1) else [])
  else [])

/-- Embeds `_calculate_moves_for_assistant`. -/
def calculateMovesForAssistant (b : Board) (pos : Int × Int) : List (List Char) :=
  (assistantDests b pos).map fun d => getWxfMovement b pos d (pieceAt b pos).is_red

/-- Embeds the red king's confrontation `while` loop: scan upward
(decreasing row index) from row `r`; on a piece of kind `k` record its
square and keep scanning, on any other piece stop. -/
def kingScanUp (b : Board) (x : Int) : Int → Nat → List (Int × Int)
  | _, 0 => []
  | r, fuel + 1 =>
    if 0 ≤ r then
      match cell b r x with
      | some p =>
        if p.kind = 'k' then (r, x) :: kingScanUp b x (r - 1) fuel
        else []
      | none => kingScanUp b x (r - 1) fuel
    else []

/-- Embeds the black king's confrontation `while` loop: scan downward
(increasing row index). -/
def kingScanDown (b : Board) (x : Int) : Int → Nat → List (Int × Int)
  | _, 0 => []
  | r, fuel + 1 =>
    if r ≤ 9 then
      match cell b r x with
      | some p =>
        if p.kind = 'k' then (r, x) :: kingScanDown b x (r + 1) fuel
        else []
      | none => kingScanDown b x (r + 1) fuel
    else []

/-- The squares recorded by the king-confrontation part of
`_calculate_moves_for_king`. -/
def kingConfrontDests (b : Board) (pos : Int × Int) : List (Int × Int) :=
  if (pieceAt b pos).is_red then kingScanUp b pos.2 (pos.1 - 1) 11
  else kingScanDown b pos.2 (pos.1 + 1) 11

/-- Destination squares of the palace-step part of
`_calculate_moves_for_king`. -/
def kingStepDests (b : Board) (pos : Int × Int) : List (Int × Int) :=
  let is_red := (pieceAt b pos).is_red
  (if pos.1 ≠ 2 ∧ pos.1 ≠ 9 then destsInDirection b pos is_red (1, 0) (some 1) else [])
  ++ (if pos.1 ≠ 0 ∧ pos.1 ≠ 7 then destsInDirection b pos is_red (-1, 0) (some 1) else [])
  ++ (if pos.2 ≠ 3 then destsInDirection b pos is_red (0, -1) (some 1) else [])
  ++ (if pos.2 ≠ 5 then destsInDirection b pos is_red (0, 1) (some 1) else [])

/-- The palace-step moves of the king (the part of
`_calculate_moves_for_king` before the confrontation check). -/
def kingStepMoves (b : Board) (pos : Int × Int) : List (List Char) :=
  (kingStepDests b pos).map fun d => getWxfMovement b pos d (pieceAt b pos).is_red

/-- Embeds `_calculate_moves_for_king`: palace-step moves followed by the
confrontation (flying-general) moves. -/
def calculateMovesForKing (b : Board) (pos : Int × Int) : List (List Char) :=
  kingStepMoves b pos
    ++ (kingConfrontDests b pos).map fun d => getWxfMovement b pos d (pieceAt b pos).is_red

/-- Destination squares of `_calculate_moves_for_cannon` (four direction
scans with `capture=False`, in the source's order). -/
def cannonDests (b : Board) (pos : Int × Int) : List (Int × Int) :=
  let is_red := (pieceAt b pos).is_red
  destsInDirection b pos is_red (1, 0) none (some false)
    ++ destsInDirection b pos is_red (-1, 0) none (some false)
    ++ destsInDirection b pos is_red (0, 1) none (some false)
    ++ destsInDirection b pos is_red (0, -1) none (some false)

/-- Embeds `_calculate_moves_for_cannon`. -/
def calculateMovesForCannon (b : Board) (pos : Int × Int) : List (List Char) :=
  (cannonDests b pos).map fun d => getWxfMovement b pos d (pieceAt b pos).is_red

/-- Destination squares of `_calculate_moves_for_pawn` (forward step, plus
sideways steps after crossing the river). -/
def pawnDests (b : Board) (pos : Int × Int) : List (Int × Int) :=
  let is_red := (pieceAt b pos).is_red
  if is_red then
    destsInDirection b pos is_red (-1, 0) (some 1)
      ++ (if pos.1 ≤ 4 then
        destsInDirection b pos is_red (0, 1) (some 1)
          ++ destsInDirection b pos is_red (0, -1) (some 1)
      else [])
  else
    destsInDirection b pos is_red (1, 0) (some 1)
      ++ (if pos.1 ≥ 5 then
        destsInDirection b pos is_red (0, 1) (some 1)
          ++ destsInDirection b pos is_red (0, -1) (some 1)
      else [])

/-- Embeds `_calculate_moves_for_pawn`. -/
def calculateMovesForPawn (b : Board) (pos : Int × Int) : List (List Char) :=
  (pawnDests b pos).map fun d => getWxfMovement b pos d (pieceAt b pos).is_red

/-- Embeds the per-kind dispatch loop body of
`_calculate_moves_for_board` for one occupied square. -/
def movesForPieceAt (b : Board) (pos : Int × Int) (piece : Piece) : List (List Char) :=
  if piece.kind = 'r' then calculateMovesForChariot b pos
  else if piece.kind = 'h' then calculateMovesForHorse b pos
  else if piece.kind = 'e' then calculateMovesForElephant b pos
  else if piece.kind = 'a' then calculateMovesForAssistant b pos
  else if piece.kind = 'k' then calculateMovesForKing b pos
  else if piece.kind = 'c' then calculateMovesForCannon b pos
  else calculateMovesForPawn b pos

/-- Embeds `_calculate_moves_for_board`: scan the whole board in row-major
order, skipping empty squares and the opponent's pieces. -/
def calculateMovesForBoard (b : Board) (is_red_active : Bool) : List (List Char) :=
  allPositions.flatMap fun pos =>
    match cell b pos.1 pos.2 with
    | none => []
    | some piece =>
      if piece.is_red ≠ is_red_active then []
      else movesForPieceAt b pos piece

/-- Embeds `_MAX_MOVES`. -/
def maxMoves : Nat := 200

/-- The `all(self._board[y][x] != _Piece('k', side) ...)` scan of
`get_winner`: `true` when no king of the given colour remains. -/
def kingMissing (b : Board) (is_red : Bool) : Bool :=
  allPositions.all fun q => !(cell b q.1 q.2 == some ⟨'k', is_red⟩)

/-- Embeds `ChessGame.get_winner` (`None` is `none`, the strings are the
source's result strings). -/
def getWinner (b : Board) (move_count : Nat) : Option String :=
  if move_count ≥ maxMoves then some "Draw"
  else if kingMissing b true then some "Black"
  else if kingMissing b false then some "Red"
  else none

/-- Writes a cell of the board. -/
def setCell (b : Board) (pos : Int × Int) (v : Option Piece) : Board :=
  fun y x => if ((y : Int), (x : Int)) = pos then v else b y x

/-- Embeds `ChessGame._board_after_move`: relocate the moving piece onto
its destination (the source assigns the destination first, then empties
the start square, so a degenerate move with equal endpoints empties the
square).  The notation-resolution failures that would raise in Python are
modelled by returning the board unchanged; every call site has already
checked the move against the valid-move list. -/
def boardAfterMove (b : Board) (move : List Char) (is_red : Bool) : Board :=
  match wxfToIndex b (move.take 2) is_red, getIndexMovement b move is_red with
  | some start_pos, some end_pos =>
    setCell (setCell b end_pos (cell b start_pos.1 start_pos.2)) start_pos none
  | _, _ => b

/-- The rows of the standard initial board, exactly as laid out in
`ChessGame.__init__`. -/
def initialRows : List (List (Option Piece)) :=
  [[some ⟨'r', false⟩, some ⟨'h', false⟩, some ⟨'e', false⟩, some ⟨'a', false⟩,
    some ⟨'k', false⟩, some ⟨'a', false⟩, some ⟨'e', false⟩, some ⟨'h', false⟩,
    some ⟨'r', false⟩],
   List.replicate 9 none,
   [none, some ⟨'c', false⟩, none, none, none, none, none, some ⟨'c', false⟩, none],
   [some ⟨'p', false⟩, none, some ⟨'p', false⟩, none, some ⟨'p', false⟩, none,
    some ⟨'p', false⟩, none, some ⟨'p', false⟩],
   List.replicate 9 none,
   List.replicate 9 none,
   [some ⟨'p', true⟩, none, some ⟨'p', true⟩, none, some ⟨'p', true⟩, none,
    some ⟨'p', true⟩, none, some ⟨'p', true⟩],
   [none, some ⟨'c', true⟩, none, none, none, none, none, some ⟨'c', true⟩, none],
   List.replicate 9 none,
   [some ⟨'r', true⟩, some ⟨'h', true⟩, some ⟨'e', true⟩, some ⟨'a', true⟩,
    some ⟨'k', true⟩, some ⟨'a', true⟩, some ⟨'e', true⟩, some ⟨'h', true⟩,
    some ⟨'r', true⟩]]

/-- The standard initial board as a `Board`. -/
def initialBoard : Board := fun y x =>
  (((initialRows.get? y.val).bind fun row => row.get? x.val).getD none)

/-- The empty board. -/
def emptyBoard : Board := fun _ _ => none

/-- A board with the listed pieces at the listed squares. -/
def placeAll (l : List ((Int × Int) × Piece)) : Board :=
  l.foldl (fun b q => setCell b q.1 (some q.2)) emptyBoard

/-- Counterexample board for claim C1: three red pawns share column 0 and
two further red pawns share column 2, which makes the `p+` piece token
ambiguous between the two columns. -/
def c1Board : Board := placeAll
  [((3, 0), ⟨'p', true⟩), ((4, 0), ⟨'p', true⟩), ((5, 0), ⟨'p', true⟩),
   ((5, 2), ⟨'p', true⟩), ((6, 2), ⟨'p', true⟩),
   ((9, 4), ⟨'k', true⟩), ((0, 4), ⟨'k', false⟩)]

/-- The round trip of claim C1: decode a move to its start and destination
squares and re-encode the pair with `_get_wxf_movement`. -/
def roundTrip (b : Board) (m : List Char) (is_red : Bool) : Option (List Char) :=
  match wxfToIndex b (m.take 2) is_red, getIndexMovement b m is_red with
  | some s, some d => some (getWxfMovement b s d is_red)
  | _, _ => none

/-- Counterexample board for claim C4: two red chariots aligned in
column 0, at rows 5 and 6 (row 9 is Red's own back rank, so the chariot at
row 6 is the one nearer Red's back rank). -/
def c4Board : Board := placeAll
  [((5, 0), ⟨'r', true⟩), ((6, 0), ⟨'r', true⟩),
   ((9, 4), ⟨'k', true⟩), ((0, 3), ⟨'k', false⟩)]

/-- Board for claim C10: Red king on (9,4), Black king on (0,3), Black
chariot on (1,5).  Moving the red king to (9,5) walks into the chariot's
file. -/
def c10Board : Board := placeAll
  [((9, 4), ⟨'k', true⟩), ((0, 3), ⟨'k', false⟩), ((1, 5), ⟨'r', false⟩)]

/-- The square reached after `k` steps of `(dy, dx)` from `(py, px)` —
the `y, x` computed by the scan loops at loop counter `k`. -/
def rayStep (py px dy dx : Int) (k : Nat) : Int × Int :=
  (py + dy * (k : Int), px + dx * (k : Int))

/-- The squares strictly between two squares of one orthogonal line (used
to state the cannon-screen and flying-general conditions). -/
def betweenSquares (pos dest : Int × Int) : List (Int × Int) :=
  (List.range (((dest.1 - pos.1).natAbs + (dest.2 - pos.2).natAbs) - 1)).map
    fun (j : Nat) => rayStep pos.1 pos.2 (dest.1 - pos.1).sign (dest.2 - pos.2).sign (j + 1)

/-- How many of the squares strictly between `pos` and `dest` are
occupied. -/
def occupiedBetween (b : Board) (pos dest : Int × Int) : Nat :=
  (betweenSquares pos dest).countP fun q => (cell b q.1 q.2).isSome

/-- Two distinct squares on one row or one column. -/
def sameOrthLine (pos dest : Int × Int) : Prop :=
  pos ≠ dest ∧ (pos.1 = dest.1 ∨ pos.2 = dest.2)

/-- The geometric footprint of a single generated move, per piece kind:
the chariot, king, cannon and pawn move on their row or column; the horse
moves by (±2,±1)/(±1,±2); the elephant by (±2,±2); the advisor by
(±1,±1). -/
def pieceShape (k : Char) (pos dest : Int × Int) : Prop :=
  if k = 'h' then
    ((dest.1 - pos.1).natAbs = 2 ∧ (dest.2 - pos.2).natAbs = 1)
    ∨ ((dest.1 - pos.1).natAbs = 1 ∧ (dest.2 - pos.2).natAbs = 2)
  else if k = 'e' then (dest.1 - pos.1).natAbs = 2 ∧ (dest.2 - pos.2).natAbs = 2
  else if k = 'a' then (dest.1 - pos.1).natAbs = 1 ∧ (dest.2 - pos.2).natAbs = 1
  else sameOrthLine pos dest

/-! ### Game tree (`game_tree.py`)

Python floats are modelled as exact rationals; the decimal-string
round trip of the xml serialization is modelled as the identity on the
stored scalar values. -/

/-- Embeds the `GameTree` class: `move`, `is_red_move`, `relative_points`,
`red_win_probability`, `black_win_probability`, `_subtrees`. -/
inductive GameTree : Type where
  | mk : List Char → Bool → Int → ℚ → ℚ → List GameTree → GameTree

mutual

/-- Decidable equality of game trees. -/
def GameTree.deq : (a b : GameTree) → Decidable (a = b)
  | .mk m1 i1 p1 r1 b1 s1, .mk m2 i2 p2 r2 b2 s2 =>
    have ds : Decidable (s1 = s2) := GameTree.deqList s1 s2
    decidable_of_iff (m1 = m2 ∧ i1 = i2 ∧ p1 = p2 ∧ r1 = r2 ∧ b1 = b2 ∧ s1 = s2)
      (by constructor
          · rintro ⟨rfl, rfl, rfl, rfl, rfl, rfl⟩; rfl
          · intro h
            injection h with h1 h2 h3 h4 h5 h6
            exact ⟨h1, h2, h3, h4, h5, h6⟩)

/-- Decidable equality of game tree lists. -/
def GameTree.deqList : (a b : List GameTree) → Decidable (a = b)
  | [], [] => isTrue rfl
  | [], _ :: _ => isFalse (by simp)
  | _ :: _, [] => isFalse (by simp)
  | a :: as, b :: bs =>
    have h1 : Decidable (a = b) := GameTree.deq a b
    have h2 : Decidable (as = bs) := GameTree.deqList as bs
    decidable_of_iff (a = b ∧ as = bs)
      (by constructor
          · rintro ⟨rfl, rfl⟩; rfl
          · intro h
            injection h with h1 h2
            exact ⟨h1, h2⟩)

end

instance : DecidableEq GameTree := GameTree.deq

/-- `GameTree.move`. -/
def GameTree.move : GameTree → List Char
  | .mk m _ _ _ _ _ => m

/-- `GameTree.is_red_move`. -/
def GameTree.is_red_move : GameTree → Bool
  | .mk _ i _ _ _ _ => i

/-- `GameTree.relative_points`. -/
def GameTree.relative_points : GameTree → Int
  | .mk _ _ p _ _ _ => p

/-- `GameTree.red_win_probability`. -/
def GameTree.red_win_probability : GameTree → ℚ
  | .mk _ _ _ r _ _ => r

/-- `GameTree.black_win_probability`. -/
def GameTree.black_win_probability : GameTree → ℚ
  | .mk _ _ _ _ b _ => b

/-- `GameTree._subtrees` (also `get_subtrees`). -/
def GameTree.subtrees : GameTree → List GameTree
  | .mk _ _ _ _ _ s => s

/-- Replace the subtree list, keeping the scalar fields. -/
def GameTree.withSubtrees : GameTree → List GameTree → GameTree
  | .mk m i p r b _, subs => .mk m i p r b subs

/-- Replace the relative points, keeping the other fields. -/
def GameTree.withPoints : GameTree → Int → GameTree
  | .mk m i _ r b subs, p => .mk m i p r b subs

/-- Embeds `ESTIMATION = 0.8`. -/
def ESTIMATION : ℚ := 8/10

/-- Embeds Python `max` on a list of floats (callers guarantee the list is
nonempty; the empty case is never reached). -/
def listMax : List ℚ → ℚ
  | [] => 0
  | x :: xs => xs.foldl max x

/-- Embeds Python `max` on a nonempty list of ints. -/
def listMaxInt : List Int → Int
  | [] => 0
  | x :: xs => xs.foldl max x

/-- Embeds Python `min` on a nonempty list of ints. -/
def listMinInt : List Int → Int
  | [] => 0
  | x :: xs => xs.foldl min x

/-- Embeds `GameTree._update_win_probabilities`: on a leaf do nothing; on
an internal node set the mover's probability to the maximum of the
children's and the opponent's probability to the mean of the top
`ceil(k * ESTIMATION)` children's values sorted descending. -/
def updateWinProbabilities : GameTree → GameTree
  | .mk m i p r b [] => .mk m i p r b []
  | .mk m i p _r _b (s0 :: rest) =>
    let subs := s0 :: rest
    let subtrees_win_prob_red := subs.map GameTree.red_win_probability
    let subtrees_win_prob_black := subs.map GameTree.black_win_probability
    if i then
      let half_len : Nat := ⌈(subtrees_win_prob_black.length : ℚ) * ESTIMATION⌉.toNat
      let top_chances :=
        (subtrees_win_prob_black.mergeSort fun a b => decide (b ≤ a)).take half_len
      .mk m i p (listMax subtrees_win_prob_red) (top_chances.sum / (half_len : ℚ)) subs
    else
      let half_len : Nat := ⌈(subtrees_win_prob_red.length : ℚ) * ESTIMATION⌉.toNat
      let top_chances :=
        (subtrees_win_prob_red.mergeSort fun a b => decide (b ≤ a)).take half_len
      .mk m i p (top_chances.sum / (half_len : ℚ)) (listMax subtrees_win_prob_black) subs

/-- Embeds `GameTree.add_subtree`: append the subtree, then update the win
probabilities of the parent. -/
def addSubtree : GameTree → GameTree → GameTree
  | .mk m i p r b subs, s => updateWinProbabilities (.mk m i p r b (subs ++ [s]))

/-- Embeds the xml element produced for one `GameTree` node by
`tree_to_xml`: the five scalar attributes and the child elements, with the
decimal-string encoding of the numbers modelled as the values
themselves. -/
inductive Elem : Type where
  | mk : List Char → Bool → Int → ℚ → ℚ → List Elem → Elem

mutual

/-- Decidable equality of elements. -/
def Elem.deq : (a b : Elem) → Decidable (a = b)
  | .mk m1 i1 p1 r1 b1 s1, .mk m2 i2 p2 r2 b2 s2 =>
    have ds : Decidable (s1 = s2) := Elem.deqList s1 s2
    decidable_of_iff (m1 = m2 ∧ i1 = i2 ∧ p1 = p2 ∧ r1 = r2 ∧ b1 = b2 ∧ s1 = s2)
      (by constructor
          · rintro ⟨rfl, rfl, rfl, rfl, rfl, rfl⟩; rfl
          · intro h
            injection h with h1 h2 h3 h4 h5 h6
            exact ⟨h1, h2, h3, h4, h5, h6⟩)

/-- Decidable equality of element lists. -/
def Elem.deqList : (a b : List Elem) → Decidable (a = b)
  | [], [] => isTrue rfl
  | [], _ :: _ => isFalse (by simp)
  | _ :: _, [] => isFalse (by simp)
  | a :: as, b :: bs =>
    have h1 : Decidable (a = b) := Elem.deq a b
    have h2 : Decidable (as = bs) := Elem.deqList as bs
    decidable_of_iff (a = b ∧ as = bs)
      (by constructor
          · rintro ⟨rfl, rfl⟩; rfl
          · intro h
            injection h with h1 h2
            exact ⟨h1, h2⟩)

end

instance : DecidableEq Elem := Elem.deq

mutual

/-- Embeds the element built for one node by `tree_to_xml` /
`_build_e_tree`: the same scalar attributes and one child element per
subtree. -/
def treeToXml : GameTree → Elem
  | .mk m i p r b subs => .mk m i p r b (treesToElems subs)

/-- The children loop of `_build_e_tree`. -/
def treesToElems : List GameTree → List Elem
  | [] => []
  | t :: ts => treeToXml t :: treesToElems ts

end

mutual

/-- Embeds `xml_to_tree` / `_build_game_tree`: set the scalar fields from
the element's attributes, then `add_subtree` each recursively built child
in order (each call re-updating the parent's win probabilities). -/
def xmlToTree : Elem → GameTree
  | .mk m i p r b children => (buildSubtrees children).foldl addSubtree (.mk m i p r b [])

/-- The recursive construction of the children in `_build_game_tree`. -/
def buildSubtrees : List Elem → List GameTree
  | [] => []
  | e :: es => xmlToTree e :: buildSubtrees es

end

mutual

/-- Whether every node's children carry pairwise distinct moves. -/
def nodupTree : GameTree → Bool
  | .mk _ _ _ _ _ subs => decide ((subs.map GameTree.move).Nodup) && nodupForest subs

/-- `nodupTree` on every tree of a list. -/
def nodupForest : List GameTree → Bool
  | [] => true
  | t :: ts => nodupTree t && nodupForest ts

end

mutual

/-- Whether every internal node's stored win probabilities equal the ones
`_update_win_probabilities` computes from its children. -/
def probsConsistent : GameTree → Bool
  | .mk m i p r b subs =>
    (updateWinProbabilities (.mk m i p r b subs) == .mk m i p r b subs)
      && probsAllConsistent subs

/-- `probsConsistent` on every tree of a list. -/
def probsAllConsistent : List GameTree → Bool
  | [] => true
  | t :: ts => probsConsistent t && probsAllConsistent ts

end

/-- The per-child body of the `reevaluate` loop after the recursive call:
a leaf child is left alone; an internal child gets its win probabilities
updated and its relative points set to the max (Red to move) or min (Black
to move) of its children's. -/
def revalNode (c : GameTree) : GameTree :=
  match c.subtrees with
  | [] => c
  | _ :: _ =>
    let c1 := updateWinProbabilities c
    if c1.is_red_move then
      c1.withPoints (listMaxInt (c1.subtrees.map GameTree.relative_points))
    else
      c1.withPoints (listMinInt (c1.subtrees.map GameTree.relative_points))

mutual

/-- Embeds `GameTree.merge_with` (fuel-indexed; `none` models
nontermination or an assertion failure, neither of which occurs on real
inputs): assert equal root moves, fold the other tree's subtrees into this
tree against the stale pre-loop move list, then `reevaluate`. -/
def mergeWith : Nat → GameTree → GameTree → Option GameTree
  | 0, _, _ => none
  | fuel + 1, t, o =>
    if t.move = o.move then
      match mergeLoop fuel (t.subtrees.map GameTree.move) o.subtrees t with
      | some t1 => reevaluate fuel t1
      | none => none
    else none

/-- The subtree loop of `merge_with`: `moves` is the move list computed
once before the loop (it is not maintained as subtrees are appended). -/
def mergeLoop : Nat → List (List Char) → List GameTree → GameTree → Option GameTree
  | 0, _, _, _ => none
  | fuel + 1, moves, os, t =>
    match os with
    | [] => some t
    | o :: rest =>
      if o.move ∈ moves then
        match t.subtrees[moves.indexOf o.move]? with
        | none => none
        | some child =>
          match mergeWith fuel child o with
          | none => none
          | some merged =>
            mergeLoop fuel moves rest
              (t.withSubtrees (t.subtrees.set (moves.indexOf o.move) merged))
      else
        mergeLoop fuel moves rest (addSubtree t o)

/-- Embeds `GameTree.reevaluate`: purge, then recurse into the children
and recompute each internal child's probabilities and relative points. -/
def reevaluate : Nat → GameTree → Option GameTree
  | 0, _ => none
  | fuel + 1, t =>
    match purge fuel t with
    | none => none
    | some t1 =>
      match t1.subtrees with
      | [] => some t1
      | _ :: _ =>
        match revalChildren fuel t1.subtrees with
        | none => none
        | some subs => some (t1.withSubtrees subs)

/-- The children loop of `reevaluate`. -/
def revalChildren : Nat → List GameTree → Option (List GameTree)
  | 0, _ => none
  | _ + 1, [] => some []
  | fuel + 1, c :: cs =>
    match reevaluate fuel c with
    | none => none
    | some c1 =>
      match revalChildren fuel cs with
      | none => none
      | some rest => some (revalNode c1 :: rest)

/-- Embeds `GameTree.purge` on a node: run the remove-while-iterating loop
over its subtree list. -/
def purge : Nat → GameTree → Option GameTree
  | 0, _ => none
  | fuel + 1, t =>
    match purgeLoop fuel 0 [] t.subtrees with
    | none => none
    | some subs => some (t.withSubtrees subs)

/-- The `for subtree in self._subtrees` loop of `purge`, with Python's
index-based iterator semantics: `i` is the iterator position and `acc` is
`moves_so_far`.  On a duplicate, the element at `i` is removed
(`list.remove` removes the first occurrence identical to the iterated
element, i.e. the element itself), the first earlier subtree with the same
move is merged with it in place, and the iterator's next fetch at `i + 1`
skips the element that slid into position `i`. -/
def purgeLoop : Nat → Nat → List (List Char) → List GameTree → Option (List GameTree)
  | 0, _, _, _ => none
  | fuel + 1, i, acc, subs =>
    match subs[i]? with
    | none => some subs
    | some st =>
      if st.move ∈ acc then
        let subs1 := subs.eraseIdx i
        match subs1.findIdx? (fun s => s.move == st.move) with
        | none => none
        | some j =>
          match subs1[j]? with
          | none => none
          | some target =>
            match mergeWith fuel target st with
            | none => none
            | some merged => purgeLoop fuel (i + 1) acc (subs1.set j merged)
      else
        purgeLoop fuel (i + 1) (acc ++ [st.move]) subs

end

/-- Spec-side characterization of Python `max(l)`: a member that bounds
every member. -/
def isPyMax (q : ℚ) (l : List ℚ) : Prop := q ∈ l ∧ ∀ x ∈ l, x ≤ q

/-- Spec-side characterization of the opponent-probability rule: the mean
of the first `ceil(k * ESTIMATION)` entries of the values sorted in
descending order. -/
def isTopMean (q : ℚ) (l : List ℚ) : Prop :=
  ∃ sorted : List ℚ, sorted.Perm l ∧ sorted.Pairwise (fun a b => b ≤ a)
    ∧ q = (sorted.take ⌈(l.length : ℚ) * ESTIMATION⌉.toNat).sum
        / (⌈(l.length : ℚ) * ESTIMATION⌉.toNat : ℚ)

mutual

/-- A tree every one of whose nodes below the root has already been
through the per-child reevaluation step: each child is a fixpoint of
`revalNode`, recursively.  `reevaluate` leaves such trees unchanged. -/
def stableTree : GameTree → Prop
  | .mk _ _ _ _ _ subs => stableForest subs

/-- `stableTree`-with-fixpoint over a list of children. -/
def stableForest : List GameTree → Prop
  | [] => True
  | c :: cs => (stableTree c ∧ revalNode c = c) ∧ stableForest cs

end

mutual

/-- The other tree `o` has been absorbed into `t`: every child move of
`o` appears among `t`'s children, recursively.  After one `merge_with`
this holds of the result, and a second merge with the same tree then
appends nothing. -/
def absorbedIn : GameTree → GameTree → Prop
  | .mk _ _ _ _ _ osubs, t => absorbedForest osubs t

/-- `absorbedIn` for every tree of a list. -/
def absorbedForest : List GameTree → GameTree → Prop
  | [], _ => True
  | oc :: ocs, t => (∃ tc ∈ t.subtrees, tc.move = oc.move ∧ absorbedIn oc tc)
      ∧ absorbedForest ocs t

end

/-! ### Theorems -/

/-- Claim C5: for every game state, `get_winner` returns `None` when both
kings are present and the move count is below the 200-move maximum,
`'Draw'` whenever the count has reached the maximum, `'Black'` when no Red
king remains (maximum not reached), `'Red'` when no Black king remains
(maximum not reached); exactly one of the four outcomes holds (the
hypothesis that at least one king remains reflects the claim's own
proviso that kings cannot both vanish). -/
theorem C5_get_winner (b : Board) (c : Nat)
    (hk : kingMissing b true = false ∨ kingMissing b false = false) :
    (getWinner b c = none ↔
      (c < maxMoves ∧ kingMissing b true = false ∧ kingMissing b false = false))
    ∧ (getWinner b c = some "Draw" ↔ maxMoves ≤ c)
    ∧ (getWinner b c = some "Black" ↔ (c < maxMoves ∧ kingMissing b true = true))
    ∧ (getWinner b c = some "Red" ↔ (c < maxMoves ∧ kingMissing b false = true)) := by
  unfold getWinner
  rcases Nat.lt_or_ge c maxMoves with hc | hc
  · rcases h1 : kingMissing b true with _ | _ <;>
      rcases h2 : kingMissing b false with _ | _ <;>
      simp_all [Nat.not_le.mpr hc]
  · simp [Nat.not_lt.mpr hc, hc]

/-- Witness for C5 at the concrete initial position. -/
theorem C5_get_winner_witness :
    getWinner initialBoard 0 = none ↔
      (0 < maxMoves ∧ kingMissing initialBoard true = false
        ∧ kingMissing initialBoard false = false) :=
  (C5_get_winner initialBoard 0 (Or.inl (by decide))).1

/-- Claim C10: move generation performs no king-safety filtering: on the
concrete board `c10Board`, Red's generated list contains `k5.4`, and after
applying it Black's generated list contains `r6+8`, whose decoded
destination is the square now occupied by the Red king. -/
theorem C10_no_check_filtering :
    ['k','5','.','4'] ∈ calculateMovesForBoard c10Board true
    ∧ cell (boardAfterMove c10Board ['k','5','.','4'] true) 9 5 = some ⟨'k', true⟩
    ∧ ['r','6','+','8'] ∈
        calculateMovesForBoard (boardAfterMove c10Board ['k','5','.','4'] true) false
    ∧ getIndexMovement (boardAfterMove c10Board ['k','5','.','4'] true)
        ['r','6','+','8'] false = some (9, 5) := by
  refine ⟨by decide, by decide, by decide, by decide⟩

/-- Counterexample to claim C4 as stated: on `c4Board` the two red
chariots share column 0 at rows 5 and 6; row 9 is Red's back rank, so the
chariot nearer Red's own back rank is the one at row 6 — but the `r+`
token resolves to the chariot at row 5, and `_index_to_wxf` assigns `-`
(not `+`) to the nearer-own-back-rank chariot at row 6. -/
theorem C4_counterexample :
    wxfToIndexTwoAligned c4Board ['r', '+'] true = some (5, 0)
    ∧ wxfToIndexTwoAligned c4Board ['r', '+'] true ≠ some (6, 0)
    ∧ indexToWxf c4Board (6, 0) true = ['r', '-']
    ∧ indexToWxf c4Board (5, 0) true = ['r', '+'] := by
  refine ⟨by decide, by decide, by decide, by decide⟩

/-- A `findSome?` over a list where every element yields `none` finds
nothing. -/
theorem findSome?_eq_none_of {α β : Type} (l : List α) (f : α → Option β)
    (h : ∀ a ∈ l, f a = none) : l.findSome? f = none := by
  induction l with
  | nil => rfl
  | cons a as ih =>
    rw [List.findSome?_cons, h a (by simp)]
    exact ih fun a ha => h a (by simp [ha])

/-- A `findSome?` over a list whose elements yield either `none` or one
fixed result, with at least one success, finds that result. -/
theorem findSome?_eq_some_of {α β : Type} (l : List α) (f : α → Option β) (r : β)
    (h : ∀ a ∈ l, f a = none ∨ f a = some r)
    (hex : ∃ a ∈ l, f a ≠ none) : l.findSome? f = some r := by
  induction l with
  | nil => simp at hex
  | cons a as ih =>
    rw [List.findSome?_cons]
    rcases h a (by simp) with ha | ha
    · rw [ha]
      obtain ⟨a', ha', hfa'⟩ := hex
      rcases (by simpa using ha' : a' = a ∨ a' ∈ as) with rfl | hmem
      · exact absurd ha hfa'
      · exact ih (fun x hx => h x (by simp [hx])) ⟨a', hmem, hfa'⟩
    · rw [ha]

/-- Cell contents force in-bounds coordinates. -/
theorem cell_isSome_bounds {b : Board} {y x : Int} {p : Piece}
    (h : cell b y x = some p) : 0 ≤ y ∧ y < 10 ∧ 0 ≤ x ∧ x < 9 := by
  by_contra hb
  rw [cell, dif_neg hb] at h
  exact Option.noConfusion h

/-- Membership in the row-major scan list. -/
theorem mem_allPositions {q : Int × Int} :
    q ∈ allPositions ↔ 0 ≤ q.1 ∧ q.1 < 10 ∧ 0 ≤ q.2 ∧ q.2 < 9 := by
  rcases q with ⟨y, x⟩
  simp only [allPositions, List.mem_flatMap, List.mem_map, List.mem_range, Prod.mk.injEq]
  constructor
  · rintro ⟨a, ha, c, hc, h1, h2⟩
    omega
  · rintro ⟨h1, h2, h3, h4⟩
    exact ⟨y.toNat, by omega, x.toNat, by omega, by omega, by omega⟩

/-- Membership in the whole-board piece scan. -/
theorem mem_allPieceLocations {b : Board} {p : Piece} {q : Int × Int} :
    q ∈ allPieceLocations b p ↔ cell b q.1 q.2 = some p := by
  simp only [allPieceLocations, List.mem_filter, decide_eq_true_eq]
  constructor
  · exact fun h => h.2
  · exact fun h => ⟨mem_allPositions.mpr (cell_isSome_bounds h), h⟩

/-- Membership in the single-column piece scan. -/
theorem mem_colPieces {b : Board} {p : Piece} {x : Int} {q : Int × Int} :
    q ∈ colPieces b x p ↔ q.2 = x ∧ cell b q.1 q.2 = some p := by
  rcases q with ⟨y, x'⟩
  simp only [colPieces, List.mem_filterMap, List.mem_range]
  constructor
  · rintro ⟨a, ha, h⟩
    split at h
    · rename_i hcell
      injection h with h
      injection h with h1 h2
      subst h1; subst h2
      exact ⟨rfl, hcell⟩
    · exact Option.noConfusion h
  · rintro ⟨rfl, hcell⟩
    have hb := cell_isSome_bounds hcell
    refine ⟨y.toNat, by omega, ?_⟩
    rw [show ((y.toNat : Nat) : Int) = y by omega, if_pos hcell]

/-- On a board whose aligned pair of same-kind, same-side pieces is unique,
the nested pair search of `_wxf_to_index_two_aligned` finds exactly that
pair, smaller row first. -/
theorem findAlignedPair_eq {b : Board} {k : Char} {side : Bool} {x y1 y2 : Int}
    (hlt : y1 < y2)
    (h1 : cell b y1 x = some ⟨k, side⟩) (h2 : cell b y2 x = some ⟨k, side⟩)
    (huniq : ∀ u ∈ allPieceLocations b ⟨k, side⟩,
      ∀ v ∈ allPieceLocations b ⟨k, side⟩, u ≠ v → u.2 = v.2 →
        (u = (y1, x) ∧ v = (y2, x)) ∨ (u = (y2, x) ∧ v = (y1, x))) :
    findAlignedPair (allPieceLocations b ⟨k, side⟩) = some ((y1, x), (y2, x)) := by
  set locs := allPieceLocations b ⟨k, side⟩ with hlocs
  have hm1 : (y1, x) ∈ locs := mem_allPieceLocations.mpr h1
  have hm2 : (y2, x) ∈ locs := mem_allPieceLocations.mpr h2
  have hne : ((y1, x) : Int × Int) ≠ (y2, x) := by
    intro h; injection h with hy; omega
  unfold findAlignedPair
  apply findSome?_eq_some_of
  · intro a ha
    by_cases hcase : a = (y1, x) ∨ a = (y2, x)
    · right
      apply findSome?_eq_some_of
      · intro c hc
        by_cases hpair : a ≠ c ∧ a.2 = c.2
        · right
          rcases huniq a ha c hc hpair.1 hpair.2 with ⟨ha', hc'⟩ | ⟨ha', hc'⟩ <;>
            subst ha' <;> subst hc' <;> simp [hpair, hlt.le, Int.not_le.mpr hlt]
        · left; simp only [if_neg hpair]
      · rcases hcase with rfl | rfl
        · exact ⟨(y2, x), hm2, by simp [hne]⟩
        · exact ⟨(y1, x), hm1, by simp [hne.symm]⟩
    · left
      push_neg at hcase
      apply findSome?_eq_none_of
      intro c hc
      by_cases hpair : a ≠ c ∧ a.2 = c.2
      · rcases huniq a ha c hc hpair.1 hpair.2 with ⟨ha', -⟩ | ⟨ha', -⟩ <;>
          exact absurd ha' (by simp [hcase])
      · simp only [if_neg hpair]
  · refine ⟨(y1, x), hm1, ?_⟩
    rw [findSome?_eq_some_of _ _ ((y1, x), (y2, x))]
    · simp
    · intro c hc
      by_cases hpair : ((y1, x) : Int × Int) ≠ c ∧ ((y1, x) : Int × Int).2 = c.2
      · right
        rcases huniq (y1, x) hm1 c hc hpair.1 hpair.2 with ⟨-, hc'⟩ | ⟨ha', -⟩
        · subst hc'; simp [hpair, hlt.le]
        · exact absurd ha' (by simp; omega)
      · left; simp only [if_neg hpair]
    · exact ⟨(y2, x), hm2, by simp [hne]⟩

/-- Claim C4 (amended): when exactly two pieces of the same kind and side
share a column (and no other aligned same-kind pair exists), the token
`<kind>+` resolves via `_wxf_to_index_two_aligned` to the piece of the
pair *farther* from the side's own back rank (the front piece: smaller row
for Red, larger row for Black), `<kind>-` to the nearer one, and
`_index_to_wxf` assigns `+` to the farther-from-own-back-rank piece and
`-` to the nearer one — the opposite orientation from the one the claim
states. -/
theorem C4_two_aligned_amended (b : Board) (k : Char) (side : Bool) (x y1 y2 : Int)
    (hklow : k.toLower = k) (hlt : y1 < y2)
    (hcol : colPieces b x ⟨k, side⟩ = [(y1, x), (y2, x)])
    (huniq : ∀ u ∈ allPieceLocations b ⟨k, side⟩,
      ∀ v ∈ allPieceLocations b ⟨k, side⟩, u ≠ v → u.2 = v.2 →
        (u = (y1, x) ∧ v = (y2, x)) ∨ (u = (y2, x) ∧ v = (y1, x))) :
    wxfToIndexTwoAligned b [k, '+'] side = some (if side then (y1, x) else (y2, x))
    ∧ wxfToIndexTwoAligned b [k, '-'] side = some (if side then (y2, x) else (y1, x))
    ∧ indexToWxf b (if side then (y1, x) else (y2, x)) side = [k, '+']
    ∧ indexToWxf b (if side then (y2, x) else (y1, x)) side = [k, '-'] := by
  have h1 : cell b y1 x = some ⟨k, side⟩ := by
    have : ((y1, x) : Int × Int) ∈ colPieces b x ⟨k, side⟩ := by rw [hcol]; simp
    exact (mem_colPieces.mp this).2
  have h2 : cell b y2 x = some ⟨k, side⟩ := by
    have : ((y2, x) : Int × Int) ∈ colPieces b x ⟨k, side⟩ := by rw [hcol]; simp
    exact (mem_colPieces.mp this).2
  have hpair := findAlignedPair_eq hlt h1 h2 huniq
  have hne : ((y1, x) : Int × Int) ≠ (y2, x) := by
    intro h; injection h with hy; omega
  constructor
  · rw [wxfToIndexTwoAligned]
    simp only [List.map_cons, List.map_nil, hklow]
    rw [show '+'.toLower = '+' from rfl, hpair]
    cases side <;> simp
  constructor
  · rw [wxfToIndexTwoAligned]
    simp only [List.map_cons, List.map_nil, hklow]
    rw [show '-'.toLower = '-' from rfl, hpair]
    cases side <;> simp
  · have hbeq : (((y1, x) : Int × Int) == (y2, x)) = false := beq_eq_false_iff_ne.mpr hne
    have hidx1 : List.indexOf ((y1, x) : Int × Int) (colPieces b x ⟨k, side⟩) = 0 := by
      rw [hcol]; simp [List.indexOf_cons]
    have hidx2 : List.indexOf ((y2, x) : Int × Int) (colPieces b x ⟨k, side⟩) = 1 := by
      rw [hcol]; simp [List.indexOf_cons, hbeq]
    have hlen : (colPieces b x ⟨k, side⟩).length = 2 := by rw [hcol]; rfl
    have hw1 : indexToWxf b (y1, x) side = if side then [k, '+'] else [k, '-'] := by
      simp only [indexToWxf, h1]
      simp only [ne_eq, not_true_eq_false, if_false, hlen, hidx1]
      cases side <;> simp
    have hw2 : indexToWxf b (y2, x) side = if side then [k, '-'] else [k, '+'] := by
      simp only [indexToWxf, h2]
      simp only [ne_eq, not_true_eq_false, if_false, hlen, hidx2]
      cases side <;> simp
    cases side <;> simp_all

/-- Witness for the amended C4 at a concrete board: two red chariots on
column 0 at rows 5 and 6. -/
theorem C4_two_aligned_amended_witness :
    wxfToIndexTwoAligned c4Board ['r', '+'] true = some (5, 0)
    ∧ wxfToIndexTwoAligned c4Board ['r', '-'] true = some (6, 0)
    ∧ indexToWxf c4Board (5, 0) true = ['r', '+']
    ∧ indexToWxf c4Board (6, 0) true = ['r', '-'] :=
  C4_two_aligned_amended c4Board 'r' true 0 5 6 (by decide) (by decide)
    (by decide) (by decide)

/-- Reading the piece from an occupied cell. -/
theorem pieceAt_eq {b : Board} {pos : Int × Int} {p : Piece}
    (h : cell b pos.1 pos.2 = some p) : pieceAt b pos = p := by
  rw [pieceAt, h]; rfl

/-- Soundness of the cannon-firing scan: everything it returns lies on the
ray, with only empty squares since the scan start, and holds an enemy
piece. -/
theorem cannonFire_sound {b : Board} {py px dy dx : Int} {red : Bool} :
    ∀ {fuel i : Nat} {d : Int × Int}, d ∈ cannonFire b py px red dy dx i fuel →
    ∃ k, i ≤ k ∧ d = rayStep py px dy dx k
      ∧ (∀ j, i ≤ j → j < k →
          cell b (rayStep py px dy dx j).1 (rayStep py px dy dx j).2 = none)
      ∧ ∃ q, cell b d.1 d.2 = some q ∧ q.is_red ≠ red := by
  intro fuel
  induction fuel with
  | zero => intro i d h; simp [cannonFire] at h
  | succ n ih =>
    intro i d h
    rw [cannonFire] at h
    split at h
    · split at h
      · rename_i hbnd p hcell
        split at h
        · simp at h
        · rename_i hally
          simp only [List.mem_singleton] at h
          subst h
          exact ⟨i, le_refl i, rfl,
            fun j h1 h2 => absurd (lt_of_le_of_lt h1 h2) (lt_irrefl i),
            p, hcell, fun he => hally (by rw [he])⟩
      · rename_i hbnd hcell
        obtain ⟨k, hk, hd, hemp, hq⟩ := ih h
        refine ⟨k, by omega, hd, fun j h1 h2 => ?_, hq⟩
        rcases eq_or_lt_of_le h1 with rfl | h1'
        · exact hcell
        · exact hemp j (by omega) h2
    · simp at h

/-- Soundness of the cannon's direction scan (`capture=False`, cannon
kind): every returned square is on the ray; an occupied returned square is
an enemy square with exactly one occupied square (the screen) strictly
after the scan start and strictly before it. -/
theorem findDestsAux_cannon_sound {b : Board} {py px dy dx : Int} {red : Bool} :
    ∀ {fuel i : Nat} {d : Int × Int},
    d ∈ findDestsAux b py px red dy dx none (some false) 'c' i fuel →
    ∃ k, i ≤ k ∧ d = rayStep py px dy dx k ∧
      (cell b d.1 d.2 = none
       ∨ (∃ i0, i ≤ i0 ∧ i0 < k
           ∧ (cell b (rayStep py px dy dx i0).1 (rayStep py px dy dx i0).2).isSome = true
           ∧ (∀ j, i ≤ j → j < k → j ≠ i0 →
               cell b (rayStep py px dy dx j).1 (rayStep py px dy dx j).2 = none)
           ∧ ∃ q, cell b d.1 d.2 = some q ∧ q.is_red ≠ red)) := by
  intro fuel
  induction fuel with
  | zero => intro i d h; simp [findDestsAux] at h
  | succ n ih =>
    intro i d h
    rw [findDestsAux] at h
    split at h
    · simp at h
    · split at h
      · -- occupied square: cannon fire then (here empty) capture part
        rename_i hbnd p hcell
        rw [if_pos rfl] at h
        have hcap : ¬(p.is_red ≠ red ∧ (some false : Option Bool) ≠ some false) := by
          rintro ⟨-, hcon⟩; exact hcon rfl
        rw [if_neg hcap, List.append_nil] at h
        obtain ⟨k, hk, hd, hemp, q, hq, hqr⟩ := cannonFire_sound h
        refine ⟨k, by omega, hd, Or.inr ⟨i, le_refl i, by omega,
          by simp only [rayStep]; rw [hcell]; rfl,
          fun j h1 h2 h3 => hemp j (by omega) h2, q, hq, hqr⟩⟩
      · -- empty square: this square plus the rest of the scan
        rename_i hbnd hcell
        rcases List.mem_cons.mp h with rfl | htail
        · exact ⟨i, le_refl i, rfl, Or.inl hcell⟩
        · obtain ⟨k, hk, hd, hrest⟩ := ih htail
          refine ⟨k, by omega, hd, ?_⟩
          rcases hrest with hnone | ⟨i0, hi0, hik, hbl, hemp, hq⟩
          · exact Or.inl hnone
          · refine Or.inr ⟨i0, by omega, hik, hbl, fun j h1 h2 h3 => ?_, hq⟩
            rcases eq_or_lt_of_le h1 with rfl | h1'
            · exact hcell
            · exact hemp j (by omega) h2 h3

/-- Completeness of the cannon-firing scan: if the ray holds an enemy
piece at step `k` with nothing in between, the fire scan started inside
the gap reaches it. -/
theorem cannonFire_complete {b : Board} {py px dy dx : Int} {red : Bool} {k : Nat}
    {q : Piece}
    (hq : cell b (rayStep py px dy dx k).1 (rayStep py px dy dx k).2 = some q)
    (hqr : q.is_red ≠ red)
    (hbnd : ∀ j, j ≤ k → 0 ≤ (rayStep py px dy dx j).2 ∧ (rayStep py px dy dx j).2 ≤ 8
      ∧ 0 ≤ (rayStep py px dy dx j).1 ∧ (rayStep py px dy dx j).1 ≤ 9) :
    ∀ fuel i, k + 1 ≤ fuel + i → i ≤ k →
    (∀ j, i ≤ j → j < k →
      cell b (rayStep py px dy dx j).1 (rayStep py px dy dx j).2 = none) →
    rayStep py px dy dx k ∈ cannonFire b py px red dy dx i fuel := by
  intro fuel
  induction fuel with
  | zero => intro i hf hik hemp; omega
  | succ n ih =>
    intro i hf hik hemp
    rw [cannonFire]
    rw [if_pos (by
      have := hbnd i hik
      simp only [rayStep] at this
      exact ⟨this.1, this.2.1, this.2.2.1, this.2.2.2⟩)]
    rcases eq_or_lt_of_le hik with rfl | hik'
    · have hcl : cell b (py + dy * (i : Int)) (px + dx * (i : Int)) = some q := by
        simpa [rayStep] using hq
      simp only [hcl]
      rw [if_neg hqr]
      simp [rayStep]
    · have hcl : cell b (py + dy * (i : Int)) (px + dx * (i : Int)) = none := by
        simpa [rayStep] using hemp i (le_refl i) hik'
      simp only [hcl]
      exact ih (i + 1) (by omega) (by omega) fun j h1 h2 => hemp j (by omega) h2

/-- Completeness of the cannon's direction scan: with exactly one screen
at step `i0` and an enemy piece at step `k` beyond it (nothing else on the
segment, all of it on the board), the scan returns the enemy square. -/
theorem findDestsAux_cannon_complete {b : Board} {py px dy dx : Int} {red : Bool}
    {i0 k : Nat} {q : Piece}
    (hi0 : 1 ≤ i0) (hik : i0 < k)
    (hblock : (cell b (rayStep py px dy dx i0).1 (rayStep py px dy dx i0).2).isSome = true)
    (hq : cell b (rayStep py px dy dx k).1 (rayStep py px dy dx k).2 = some q)
    (hqr : q.is_red ≠ red)
    (hmid : ∀ j, i0 < j → j < k →
      cell b (rayStep py px dy dx j).1 (rayStep py px dy dx j).2 = none)
    (hbnd : ∀ j, j ≤ k → 0 ≤ (rayStep py px dy dx j).2 ∧ (rayStep py px dy dx j).2 ≤ 8
      ∧ 0 ≤ (rayStep py px dy dx j).1 ∧ (rayStep py px dy dx j).1 ≤ 9) :
    ∀ fuel i, k + 1 ≤ fuel + i → 1 ≤ i → i ≤ i0 →
    (∀ j, i ≤ j → j < i0 →
      cell b (rayStep py px dy dx j).1 (rayStep py px dy dx j).2 = none) →
    rayStep py px dy dx k ∈ findDestsAux b py px red dy dx none (some false) 'c' i fuel := by
  intro fuel
  induction fuel with
  | zero => intro i hf h1 h2 hemp; omega
  | succ n ih =>
    intro i hf h1 h2 hemp
    rw [findDestsAux]
    rw [if_neg (by
      have := hbnd i (by omega)
      simp only [rayStep] at this
      omega)]
    rcases eq_or_lt_of_le h2 with rfl | hlt
    · -- at the screen: the fire scan finds the enemy square
      obtain ⟨p, hp⟩ := Option.isSome_iff_exists.mp hblock
      have hp' : cell b (py + dy * (i : Int)) (px + dx * (i : Int)) = some p := by
        simpa [rayStep] using hp
      simp only [hp']
      rw [if_pos trivial]
      refine List.mem_append_left _ ?_
      exact cannonFire_complete hq hqr hbnd n (i + 1) (by omega) (by omega)
        fun j hj1 hj2 => hmid j (by omega) hj2
    · have hcl : cell b (py + dy * (i : Int)) (px + dx * (i : Int)) = none := by
        simpa [rayStep] using hemp i (le_refl i) hlt
      simp only [hcl]
      exact List.mem_cons_of_mem _
        (ih (i + 1) (by omega) (by omega) (by omega) fun j hj1 hj2 => hemp j (by omega) hj2)

/-- A `countP` over `range n` of a predicate that holds exactly at one
index below `n` is one. -/
theorem countP_range_unique {n i : Nat} {p : Nat → Bool} (hi : i < n) (hp : p i = true)
    (ho : ∀ j, j < n → j ≠ i → p j = false) : (List.range n).countP p = 1 := by
  induction n with
  | zero => omega
  | succ m ih =>
    rw [List.range_succ, List.countP_append]
    rcases Nat.lt_or_ge i m with him | him
    · rw [ih him (fun j h1 h2 => ho j (by omega) h2)]
      have hm : p m = false := ho m (by omega) (by omega)
      simp [hm]
    · have hiem : i = m := by omega
      subst hiem
      have hz : (List.range i).countP p = 0 := by
        rw [List.countP_eq_zero]
        intro a ha
        have haa : a < i := List.mem_range.mp ha
        simp [ho a (by omega) (by omega)]
      rw [hz]
      simp [hp]

theorem countP_range_eq_one {n : Nat} {p : Nat → Bool}
    (h : (List.range n).countP p = 1) :
    ∃ i, i < n ∧ p i = true ∧ ∀ j, j < n → j ≠ i → p j = false := by
  induction n with
  | zero => simp at h
  | succ m ih =>
    rw [List.range_succ, List.countP_append] at h
    rcases hm : p m with _ | _
    · rw [show (List.countP p [m]) = 0 by simp [hm]] at h
      rw [Nat.add_zero] at h
      obtain ⟨i, hi, hp, ho⟩ := ih h
      refine ⟨i, by omega, hp, fun j h1 h2 => ?_⟩
      rcases Nat.lt_or_ge j m with hj | hj
      · exact ho j hj h2
      · have hjm : j = m := by omega
        subst hjm
        exact hm
    · rw [show (List.countP p [m]) = 1 by simp [hm]] at h
      have hz : (List.range m).countP p = 0 := by omega
      rw [List.countP_eq_zero] at hz
      refine ⟨m, by omega, hm, fun j h1 h2 => ?_⟩
      have hj : j < m := by omega
      have := hz j (List.mem_range.mpr hj)
      simpa using this

/-- An option whose `isSome` is false is `none`. -/
theorem isSome_false_eq_none {α : Type} {o : Option α} (h : o.isSome = false) :
    o = none := by
  cases o with
  | none => rfl
  | some v => simp at h

/-- Sign of a unit direction scaled by a positive step count. -/
theorem sign_mul_unit {d : Int} (hd : d = 0 ∨ d = 1 ∨ d = -1) {k : Nat} (hk : 1 ≤ k) :
    (d * (k : Int)).sign = d := by
  have hkpos : (0 : Int) < (k : Int) := by exact_mod_cast hk
  rcases hd with rfl | rfl | rfl
  · simp
  · rw [one_mul, Int.sign_eq_one_iff_pos.mpr hkpos]
  · rw [neg_one_mul, Int.sign_eq_neg_one_iff_neg.mpr (by omega)]

/-- For a unit direction, the squares strictly between the origin and the
`k`-th ray step are exactly ray steps `1` to `k - 1`. -/
theorem betweenSquares_ray {py px dy dx : Int}
    (hd : (dy = 0 ∧ (dx = 1 ∨ dx = -1)) ∨ ((dy = 1 ∨ dy = -1) ∧ dx = 0))
    {k : Nat} (hk : 1 ≤ k) :
    betweenSquares (py, px) (rayStep py px dy dx k)
      = (List.range (k - 1)).map fun j => rayStep py px dy dx (j + 1) := by
  have hdy : dy = 0 ∨ dy = 1 ∨ dy = -1 := by rcases hd with ⟨h, -⟩ | ⟨h, -⟩ <;> omega
  have hdx : dx = 0 ∨ dx = 1 ∨ dx = -1 := by rcases hd with ⟨-, h⟩ | ⟨-, h⟩ <;> omega
  have e1 : (rayStep py px dy dx k).1 - (py, px).1 = dy * (k : Int) := by
    simp [rayStep]
  have e2 : (rayStep py px dy dx k).2 - (py, px).2 = dx * (k : Int) := by
    simp [rayStep]
  have e3 : (dy * (k : Int)).natAbs + (dx * (k : Int)).natAbs = k := by
    rw [Int.natAbs_mul, Int.natAbs_mul]
    rcases hd with ⟨h1, h2 | h2⟩ | ⟨h1 | h1, h2⟩ <;> subst h1 <;> subst h2 <;> simp
  rw [betweenSquares, e1, e2, e3, sign_mul_unit hdy hk, sign_mul_unit hdx hk]

/-- Occupied destinations of the cannon scan in one unit direction satisfy
the screen condition. -/
theorem cannon_dir_capture_sound {b : Board} {pos : Int × Int} {dy dx : Int} {red : Bool}
    (hd : (dy = 0 ∧ (dx = 1 ∨ dx = -1)) ∨ ((dy = 1 ∨ dy = -1) ∧ dx = 0))
    {dest : Int × Int}
    (h : dest ∈ findDestsAux b pos.1 pos.2 red dy dx none (some false) 'c' 1 scanFuel)
    (hocc : (cell b dest.1 dest.2).isSome = true) :
    sameOrthLine pos dest ∧ occupiedBetween b pos dest = 1
      ∧ ∃ q, cell b dest.1 dest.2 = some q ∧ q.is_red ≠ red := by
  obtain ⟨k, hk1, hdd, hcase⟩ := findDestsAux_cannon_sound h
  rcases hcase with hnone | ⟨i0, hi0, hik, hbl, hemp, hq⟩
  · rw [hnone] at hocc; simp at hocc
  · subst hdd
    have hk2 : 2 ≤ k := by omega
    refine ⟨⟨?_, ?_⟩, ?_, hq⟩
    · intro heq
      have h1 := congrArg Prod.fst heq
      have h2 := congrArg Prod.snd heq
      simp only [rayStep] at h1 h2
      rcases hd with ⟨ha, hb | hb⟩ | ⟨ha | ha, hb⟩ <;> subst ha <;> subst hb <;> omega
    · simp only [rayStep]
      rcases hd with ⟨ha, -⟩ | ⟨-, hb⟩
      · subst ha; left; simp
      · subst hb; right; simp
    · rw [occupiedBetween, show pos = (pos.1, pos.2) from rfl, betweenSquares_ray hd (by omega),
        List.countP_map]
      apply countP_range_unique (i := i0 - 1) (by omega)
      · show ((cell b (rayStep pos.1 pos.2 dy dx (i0 - 1 + 1)).1
          (rayStep pos.1 pos.2 dy dx (i0 - 1 + 1)).2).isSome) = true
        rw [show i0 - 1 + 1 = i0 by omega]
        exact hbl
      · intro j hj hji
        show ((cell b (rayStep pos.1 pos.2 dy dx (j + 1)).1
          (rayStep pos.1 pos.2 dy dx (j + 1)).2).isSome) = false
        rw [hemp (j + 1) (by omega) (by omega) (by omega)]
        rfl

/-- Claim C2: for every board and every cannon of the active side, a
generated cannon destination is occupied iff exactly one piece lies
strictly between the cannon and that square along the orthogonal line and
the square holds an enemy piece (so with zero — including the adjacent
case — or two-or-more intervening pieces no capturing cannon move is
generated). -/
theorem C2_cannon_capture (b : Board) (pos : Int × Int) (p : Piece)
    (hc : cell b pos.1 pos.2 = some p) (hk : p.kind = 'c') (dest : Int × Int) :
    (dest ∈ cannonDests b pos ∧ (cell b dest.1 dest.2).isSome = true)
    ↔ (sameOrthLine pos dest ∧ occupiedBetween b pos dest = 1
        ∧ ∃ q, cell b dest.1 dest.2 = some q ∧ q.is_red ≠ p.is_red) := by
  have hpa : pieceAt b pos = p := pieceAt_eq hc
  have hboundsp := cell_isSome_bounds hc
  constructor
  · rintro ⟨hmem, hocc⟩
    rw [cannonDests, hpa] at hmem
    simp only [destsInDirection, hpa, hk, List.mem_append] at hmem
    rcases hmem with ((h | h) | h) | h
    · exact cannon_dir_capture_sound (by omega) h hocc
    · exact cannon_dir_capture_sound (by omega) h hocc
    · exact cannon_dir_capture_sound (by omega) h hocc
    · exact cannon_dir_capture_sound (by omega) h hocc
  · rintro ⟨⟨hne, hline⟩, hbet, q, hq, hqr⟩
    have hboundsq := cell_isSome_bounds hq
    have hocc : (cell b dest.1 dest.2).isSome = true := by rw [hq]; rfl
    set dy := (dest.1 - pos.1).sign with hdy
    set dx := (dest.2 - pos.2).sign with hdx
    set k := (dest.1 - pos.1).natAbs + (dest.2 - pos.2).natAbs with hkk
    have hd : (dy = 0 ∧ (dx = 1 ∨ dx = -1)) ∨ ((dy = 1 ∨ dy = -1) ∧ dx = 0) := by
      rcases hline with h | h
      · left
        constructor
        · rw [hdy, h]; simp
        · rw [hdx]
          rcases Int.lt_trichotomy (dest.2 - pos.2) 0 with hlt | heq | hgt
          · right; exact Int.sign_eq_neg_one_iff_neg.mpr hlt
          · exfalso; apply hne; ext <;> omega
          · left; exact Int.sign_eq_one_iff_pos.mpr hgt
      · right
        constructor
        · rw [hdy]
          rcases Int.lt_trichotomy (dest.1 - pos.1) 0 with hlt | heq | hgt
          · right; exact Int.sign_eq_neg_one_iff_neg.mpr hlt
          · exfalso; apply hne; ext <;> omega
          · left; exact Int.sign_eq_one_iff_pos.mpr hgt
        · rw [hdx, h]; simp
    have hk1 : 1 ≤ k := by
      rw [hkk]
      by_contra hcon
      apply hne
      ext <;> omega
    have hray : dest = rayStep pos.1 pos.2 dy dx k := by
      rcases hline with h | h
      · have h0 : dest.1 - pos.1 = 0 := by omega
        have hkx : ((k : Nat) : Int) = (((dest.2 - pos.2).natAbs : Nat) : Int) := by
          rw [hkk]; push_cast; rw [h0]; simp
        have hx := Int.sign_mul_natAbs (dest.2 - pos.2)
        ext
        · show dest.1 = pos.1 + dy * (k : Int)
          rw [hdy, h0]
          simp only [Int.sign_zero, zero_mul, add_zero]
          omega
        · show dest.2 = pos.2 + dx * (k : Int)
          rw [hdx, hkx, hx]
          omega
      · have h0 : dest.2 - pos.2 = 0 := by omega
        have hky : ((k : Nat) : Int) = (((dest.1 - pos.1).natAbs : Nat) : Int) := by
          rw [hkk]; push_cast; rw [h0]; simp
        have hy := Int.sign_mul_natAbs (dest.1 - pos.1)
        ext
        · show dest.1 = pos.1 + dy * (k : Int)
          rw [hdy, hky, hy]
          omega
        · show dest.2 = pos.2 + dx * (k : Int)
          rw [hdx, h0]
          simp only [Int.sign_zero, zero_mul, add_zero]
          omega
    have hdest1 : dest.1 = pos.1 + dy * (k : Int) := by
      rw [hray]; rfl
    have hdest2 : dest.2 = pos.2 + dx * (k : Int) := by
      rw [hray]; rfl
    rw [occupiedBetween, show pos = (pos.1, pos.2) from rfl, hray,
      betweenSquares_ray hd hk1, List.countP_map] at hbet
    obtain ⟨j0, hj0, hpj, hoj⟩ := countP_range_eq_one hbet
    have hbl : (cell b (rayStep pos.1 pos.2 dy dx (j0 + 1)).1
        (rayStep pos.1 pos.2 dy dx (j0 + 1)).2).isSome = true := hpj
    have hnone_at : ∀ j, 1 ≤ j → j < k → j ≠ j0 + 1 →
        cell b (rayStep pos.1 pos.2 dy dx j).1 (rayStep pos.1 pos.2 dy dx j).2 = none := by
      intro j hj1 hj2 hj3
      have hfalse : (cell b (rayStep pos.1 pos.2 dy dx (j - 1 + 1)).1
          (rayStep pos.1 pos.2 dy dx (j - 1 + 1)).2).isSome = false :=
        hoj (j - 1) (by omega) (by omega)
      rw [show j - 1 + 1 = j by omega] at hfalse
      exact isSome_false_eq_none hfalse
    have hmid : ∀ j, j0 + 1 < j → j < k →
        cell b (rayStep pos.1 pos.2 dy dx j).1 (rayStep pos.1 pos.2 dy dx j).2 = none :=
      fun j h1 h2 => hnone_at j (by omega) h2 (by omega)
    have hpre : ∀ j, 1 ≤ j → j < j0 + 1 →
        cell b (rayStep pos.1 pos.2 dy dx j).1 (rayStep pos.1 pos.2 dy dx j).2 = none :=
      fun j h1 h2 => hnone_at j h1 (by omega) (by omega)
    have hbnd : ∀ j, j ≤ k → 0 ≤ (rayStep pos.1 pos.2 dy dx j).2
        ∧ (rayStep pos.1 pos.2 dy dx j).2 ≤ 8 ∧ 0 ≤ (rayStep pos.1 pos.2 dy dx j).1
        ∧ (rayStep pos.1 pos.2 dy dx j).1 ≤ 9 := by
      intro j hj
      have hr1 : (rayStep pos.1 pos.2 dy dx j).1 = pos.1 + dy * (j : Int) := rfl
      have hr2 : (rayStep pos.1 pos.2 dy dx j).2 = pos.2 + dx * (j : Int) := rfl
      rw [hr1, hr2]
      rcases hd with ⟨ha, hb | hb⟩ | ⟨ha | ha, hb⟩ <;>
        simp only [ha, hb] at hdest1 hdest2 ⊢ <;> omega
    have hq' : cell b (rayStep pos.1 pos.2 dy dx k).1
        (rayStep pos.1 pos.2 dy dx k).2 = some q := by
      rw [← hray]; exact hq
    have hk20 : k + 1 ≤ scanFuel + 1 := by
      rw [scanFuel]
      rcases hd with ⟨ha, hb | hb⟩ | ⟨ha | ha, hb⟩ <;>
        simp only [ha, hb] at hdest1 hdest2 <;> omega
    have hqmem := findDestsAux_cannon_complete (by omega) (by omega : j0 + 1 < k)
      hbl hq' hqr hmid hbnd scanFuel 1 hk20 (by omega) (by omega) hpre
    refine ⟨?_, hocc⟩
    rw [cannonDests, hpa]
    simp only [destsInDirection, hpa, hk, List.mem_append]
    rcases hd with ⟨ha, hb | hb⟩ | ⟨ha | ha, hb⟩ <;> rw [ha, hb] at hqmem <;>
      rw [hray, ha, hb]
    · exact Or.inl (Or.inr hqmem)
    · exact Or.inr hqmem
    · exact Or.inl (Or.inl (Or.inl hqmem))
    · exact Or.inl (Or.inl (Or.inr hqmem))

/-- Witness for C2 on the initial board: the red cannon on (7,1) can
capture the black horse on (0,1) over the single screen on (2,1). -/
theorem C2_cannon_capture_witness :
    ((0 : Int), (1 : Int)) ∈ cannonDests initialBoard (7, 1)
    ∧ (cell initialBoard 0 1).isSome = true :=
  (C2_cannon_capture initialBoard (7, 1) ⟨'c', true⟩ (by decide) rfl (0, 1)).mpr
    ⟨⟨by decide, by decide⟩, by decide, ⟨'h', false⟩, by decide, by decide⟩

/-- Membership in the between-squares of a vertical pair. -/
theorem mem_betweenSquares_vert {pos dest : Int × Int} (hcol : pos.2 = dest.2)
    (hlt : pos.1 < dest.1) {q : Int × Int} :
    q ∈ betweenSquares pos dest ↔ q.2 = pos.2 ∧ pos.1 < q.1 ∧ q.1 < dest.1 := by
  rw [betweenSquares]
  have hs1 : (dest.1 - pos.1).sign = 1 := Int.sign_eq_one_iff_pos.mpr (by omega)
  have h0 : dest.2 - pos.2 = 0 := by omega
  rw [hs1, h0]
  constructor
  · intro hm
    obtain ⟨j, hj, rfl⟩ := List.mem_map.mp hm
    rw [List.mem_range] at hj
    refine ⟨by simp [rayStep], ?_, ?_⟩ <;> simp only [rayStep, Int.sign_zero] <;> omega
  · rintro ⟨hq2, hq1a, hq1b⟩
    refine List.mem_map.mpr ⟨(q.1 - pos.1 - 1).toNat, List.mem_range.mpr (by omega), ?_⟩
    ext
    · simp only [rayStep]; omega
    · simp only [rayStep, Int.sign_zero]; omega

/-- For a vertical pair, `occupiedBetween = 0` says every strictly
intermediate square of the column is empty. -/
theorem occupiedBetween_vert_zero {b : Board} {pos dest : Int × Int}
    (hcol : pos.2 = dest.2) (hlt : pos.1 < dest.1) :
    occupiedBetween b pos dest = 0
      ↔ ∀ rr : Int, pos.1 < rr → rr < dest.1 → cell b rr pos.2 = none := by
  rw [occupiedBetween, List.countP_eq_zero]
  constructor
  · intro h rr h1 h2
    apply isSome_false_eq_none
    have := h (rr, pos.2) ((mem_betweenSquares_vert hcol hlt).mpr ⟨rfl, h1, h2⟩)
    simpa using this
  · intro h q hq
    obtain ⟨h2, ha, hb⟩ := (mem_betweenSquares_vert hcol hlt).mp hq
    have : cell b q.1 q.2 = none := by rw [h2]; exact h q.1 ha hb
    simp [this]

/-- The upward king scan returns nothing when no king stands at or below
the scan start in that column. -/
theorem kingScanUp_nil_of_no_king {b : Board} {x : Int} :
    ∀ (fuel : Nat) (r : Int),
    (∀ rr : Int, 0 ≤ rr → rr ≤ r → ∀ p, cell b rr x = some p → p.kind ≠ 'k') →
    kingScanUp b x r fuel = [] := by
  intro fuel
  induction fuel with
  | zero => intro r h; rfl
  | succ n ih =>
    intro r h
    rw [kingScanUp]
    by_cases h0 : 0 ≤ r
    · rw [if_pos h0]
      rcases hc : cell b r x with _ | p
      · simp only []
        exact ih (r - 1) fun rr h1 h2 p hp => h rr h1 (by omega) p hp
      · simp only []
        rw [if_neg (h r h0 le_rfl p hc)]
    · rw [if_neg h0]

/-- The upward king scan returns nothing when some square above `floor`
and at or below the scan start is occupied and no king stands in that
range. -/
theorem kingScanUp_nil_of_blocked {b : Board} {x floor : Int} :
    ∀ (fuel : Nat) (r : Int), r < floor + fuel →
    (∃ rr : Int, floor < rr ∧ rr ≤ r ∧ (cell b rr x).isSome = true) →
    (∀ rr : Int, ∀ p, floor < rr → rr ≤ r → cell b rr x = some p → p.kind ≠ 'k') →
    kingScanUp b x r fuel = [] := by
  intro fuel
  induction fuel with
  | zero =>
    intro r hf hex hnk
    obtain ⟨rr, h1, h2, -⟩ := hex
    omega
  | succ n ih =>
    intro r hf hex hnk
    obtain ⟨rr, h1, h2, hocc⟩ := hex
    have hrr0 : 0 ≤ rr := by
      obtain ⟨p, hp⟩ := Option.isSome_iff_exists.mp hocc
      exact (cell_isSome_bounds hp).1
    rw [kingScanUp, if_pos (by omega : (0 : Int) ≤ r)]
    rcases hc : cell b r x with _ | p
    · simp only []
      refine ih (r - 1) (by push_cast at hf ⊢; omega) ⟨rr, h1, ?_, hocc⟩
        fun rr' p h1' h2' hp => hnk rr' p h1' (by omega) hp
      rcases eq_or_lt_of_le h2 with rfl | hlt
      · rw [hc] at hocc; simp at hocc
      · omega
    · simp only []
      rw [if_neg (hnk r p (by omega) le_rfl hc)]

/-- The upward king scan finds exactly the king at `target` when the
squares in between are empty and no king stands below `target`. -/
theorem kingScanUp_finds {b : Board} {x target : Int} {tp : Piece}
    (htar : cell b target x = some tp) (htk : tp.kind = 'k') :
    ∀ (fuel : Nat) (r : Int), target ≤ r → r < target + fuel →
    (∀ rr : Int, target < rr → rr ≤ r → cell b rr x = none) →
    (∀ rr : Int, ∀ p, 0 ≤ rr → rr < target → cell b rr x = some p → p.kind ≠ 'k') →
    kingScanUp b x r fuel = [(target, x)] := by
  intro fuel
  induction fuel with
  | zero => intro r h1 h2 hmt hnk; omega
  | succ n ih =>
    intro r h1 h2 hmt hnk
    have h0 : 0 ≤ target := (cell_isSome_bounds htar).1
    rcases eq_or_lt_of_le h1 with heq | hlt
    · rw [← heq, kingScanUp, if_pos (by omega : (0 : Int) ≤ target), htar]
      simp only []
      rw [if_pos htk, kingScanUp_nil_of_no_king n (target - 1)
        fun rr hr1 hr2 p hp => hnk rr p hr1 (by omega) hp]
    · rw [kingScanUp, if_pos (by omega : (0 : Int) ≤ r), hmt r hlt le_rfl]
      simp only []
      exact ih (r - 1) (by omega) (by push_cast at h2 ⊢; omega)
        (fun rr hr1 hr2 => hmt rr hr1 (by omega)) hnk

/-- Downward-scan analogue of `kingScanUp_nil_of_no_king`. -/
theorem kingScanDown_nil_of_no_king {b : Board} {x : Int} :
    ∀ (fuel : Nat) (r : Int),
    (∀ rr : Int, r ≤ rr → rr ≤ 9 → ∀ p, cell b rr x = some p → p.kind ≠ 'k') →
    kingScanDown b x r fuel = [] := by
  intro fuel
  induction fuel with
  | zero => intro r h; rfl
  | succ n ih =>
    intro r h
    rw [kingScanDown]
    by_cases h0 : r ≤ 9
    · rw [if_pos h0]
      rcases hc : cell b r x with _ | p
      · simp only []
        exact ih (r + 1) fun rr h1 h2 p hp => h rr (by omega) h2 p hp
      · simp only []
        rw [if_neg (h r le_rfl h0 p hc)]
    · rw [if_neg h0]

/-- Downward-scan analogue of `kingScanUp_nil_of_blocked`. -/
theorem kingScanDown_nil_of_blocked {b : Board} {x ceil : Int} :
    ∀ (fuel : Nat) (r : Int), ceil < r + fuel →
    (∃ rr : Int, r ≤ rr ∧ rr < ceil ∧ (cell b rr x).isSome = true) →
    (∀ rr : Int, ∀ p, r ≤ rr → rr < ceil → cell b rr x = some p → p.kind ≠ 'k') →
    kingScanDown b x r fuel = [] := by
  intro fuel
  induction fuel with
  | zero =>
    intro r hf hex hnk
    obtain ⟨rr, h1, h2, -⟩ := hex
    omega
  | succ n ih =>
    intro r hf hex hnk
    obtain ⟨rr, h1, h2, hocc⟩ := hex
    have hrr9 : rr ≤ 9 := by
      obtain ⟨p, hp⟩ := Option.isSome_iff_exists.mp hocc
      have := cell_isSome_bounds hp
      omega
    rw [kingScanDown, if_pos (by omega : r ≤ (9 : Int))]
    rcases hc : cell b r x with _ | p
    · simp only []
      refine ih (r + 1) (by push_cast at hf ⊢; omega) ⟨rr, ?_, h2, hocc⟩
        fun rr' p h1' h2' hp => hnk rr' p (by omega) h2' hp
      rcases eq_or_lt_of_le h1 with rfl | hlt
      · rw [hc] at hocc; simp at hocc
      · omega
    · simp only []
      rw [if_neg (hnk r p le_rfl (by omega) hc)]

/-- Downward-scan analogue of `kingScanUp_finds`. -/
theorem kingScanDown_finds {b : Board} {x target : Int} {tp : Piece}
    (htar : cell b target x = some tp) (htk : tp.kind = 'k') :
    ∀ (fuel : Nat) (r : Int), r ≤ target → target < r + fuel →
    (∀ rr : Int, r ≤ rr → rr < target → cell b rr x = none) →
    (∀ rr : Int, ∀ p, target < rr → rr ≤ 9 → cell b rr x = some p → p.kind ≠ 'k') →
    kingScanDown b x r fuel = [(target, x)] := by
  intro fuel
  induction fuel with
  | zero => intro r h1 h2 hmt hnk; omega
  | succ n ih =>
    intro r h1 h2 hmt hnk
    have h9 : target ≤ 9 := by
      have := cell_isSome_bounds htar
      omega
    rcases eq_or_lt_of_le h1 with heq | hlt
    · rw [heq, kingScanDown, if_pos (by omega : target ≤ (9 : Int)), htar]
      simp only []
      rw [if_pos htk, kingScanDown_nil_of_no_king n (target + 1)
        fun rr hr1 hr2 p hp => hnk rr p (by omega) hr2 hp]
    · rw [kingScanDown, if_pos (by omega : r ≤ (9 : Int)), hmt r le_rfl hlt]
      simp only []
      exact ih (r + 1) (by omega) (by push_cast at h2 ⊢; omega)
        (fun rr hr1 hr2 => hmt rr (by omega) hr2) hnk

/-- Claim C3: when the two kings stand on one column with every square
between them empty, each side's king-move list is exactly its palace-step
moves plus the single flying-general capture of the opposing king; with a
piece in between, or the kings on different columns, no extra king move is
generated.  (Hypotheses: one king per side, the black king on the smaller
row index, as on any legal board.) -/
theorem C3_flying_general (b : Board) (rk bk : Int × Int)
    (hrk : cell b rk.1 rk.2 = some ⟨'k', true⟩)
    (hbk : cell b bk.1 bk.2 = some ⟨'k', false⟩)
    (horder : bk.1 < rk.1)
    (huniq : ∀ q ∈ allPositions, q ≠ rk → q ≠ bk →
      ∀ c : Bool, cell b q.1 q.2 ≠ some ⟨'k', c⟩) :
    ((rk.2 = bk.2 ∧ occupiedBetween b bk rk = 0) →
      calculateMovesForKing b rk = kingStepMoves b rk ++ [getWxfMovement b rk bk true]
      ∧ calculateMovesForKing b bk = kingStepMoves b bk ++ [getWxfMovement b bk rk false])
    ∧ (¬(rk.2 = bk.2 ∧ occupiedBetween b bk rk = 0) →
      calculateMovesForKing b rk = kingStepMoves b rk
      ∧ calculateMovesForKing b bk = kingStepMoves b bk) := by
  have hnk : ∀ (q : Int × Int) (p : Piece), cell b q.1 q.2 = some p → p.kind = 'k' →
      q = rk ∨ q = bk := by
    intro q p hq hpk
    by_contra hcon
    push_neg at hcon
    apply huniq q (mem_allPositions.mpr (cell_isSome_bounds hq)) hcon.1 hcon.2 p.is_red
    rw [hq, show p = ⟨'k', p.is_red⟩ from by rcases p with ⟨pk, pr⟩; simp_all]
  have hpared : pieceAt b rk = ⟨'k', true⟩ := pieceAt_eq hrk
  have hpbk : pieceAt b bk = ⟨'k', false⟩ := pieceAt_eq hbk
  have hbr := cell_isSome_bounds hrk
  have hbb := cell_isSome_bounds hbk
  constructor
  · rintro ⟨hcol, hemp⟩
    have hempty := (occupiedBetween_vert_zero (by omega) horder).mp hemp
    constructor
    · rw [calculateMovesForKing, kingConfrontDests, hpared, if_pos (by simp)]
      have htar : cell b bk.1 rk.2 = some ⟨'k', false⟩ := by rw [hcol]; exact hbk
      rw [kingScanUp_finds htar rfl 11 (rk.1 - 1) (by omega) (by push_cast; omega)
        (fun rr h1 h2 => by rw [hcol]; exact hempty rr h1 (by omega))
        (fun rr p h0 hlt hp hk => by
          rcases hnk (rr, rk.2) p hp hk with he | he
          · have := congrArg Prod.fst he; simp at this; omega
          · have := congrArg Prod.fst he; simp at this; omega)]
      have hpair : ((bk.1 : Int), rk.2) = bk := by rw [hcol]
      rw [hpair]
      simp [hpared]
    · rw [calculateMovesForKing, kingConfrontDests, hpbk, if_neg (by simp)]
      have htar : cell b rk.1 bk.2 = some ⟨'k', true⟩ := by rw [← hcol]; exact hrk
      rw [kingScanDown_finds htar rfl 11 (bk.1 + 1) (by omega) (by push_cast; omega)
        (fun rr h1 h2 => hempty rr (by omega) h2)
        (fun rr p hgt h9 hp hk => by
          rcases hnk (rr, bk.2) p hp hk with he | he
          · have := congrArg Prod.fst he; simp at this; omega
          · have := congrArg Prod.fst he; simp at this; omega)]
      have hpair : ((rk.1 : Int), bk.2) = rk := by rw [← hcol]
      rw [hpair]
      simp [hpbk]
  · intro hcon
    constructor
    · rw [calculateMovesForKing, kingConfrontDests, hpared, if_pos (by simp)]
      suffices hnil : kingScanUp b rk.2 (rk.1 - 1) 11 = [] by
        rw [hnil]; simp
      by_cases hcol : rk.2 = bk.2
      · have hnz : occupiedBetween b bk rk ≠ 0 := fun hz => hcon ⟨hcol, hz⟩
        have hex : ∃ rr : Int, bk.1 < rr ∧ rr < rk.1 ∧ (cell b rr bk.2).isSome = true := by
          by_contra hno
          push_neg at hno
          apply hnz
          rw [occupiedBetween_vert_zero (by omega) horder]
          intro rr h1 h2
          apply isSome_false_eq_none
          have := hno rr h1 h2
          simpa using this
        obtain ⟨rr, h1, h2, hocc⟩ := hex
        rw [hcol]
        exact @kingScanUp_nil_of_blocked b bk.2 bk.1 11 (rk.1 - 1)
          (by push_cast; omega) ⟨rr, h1, by omega, hocc⟩
          (fun rr' p h1' h2' hp hk => by
            rcases hnk (rr', bk.2) p hp hk with he | he
            · have := congrArg Prod.fst he; simp at this; omega
            · have := congrArg Prod.fst he; simp at this; omega)
      · exact kingScanUp_nil_of_no_king 11 (rk.1 - 1)
          (fun rr hr0 hr1 p hp hk => by
            rcases hnk (rr, rk.2) p hp hk with he | he
            · have := congrArg Prod.fst he; simp at this; omega
            · have h2 := congrArg Prod.snd he; simp at h2; exact hcol h2)
    · rw [calculateMovesForKing, kingConfrontDests, hpbk, if_neg (by simp)]
      suffices hnil : kingScanDown b bk.2 (bk.1 + 1) 11 = [] by
        rw [hnil]; simp
      by_cases hcol : rk.2 = bk.2
      · have hnz : occupiedBetween b bk rk ≠ 0 := fun hz => hcon ⟨hcol, hz⟩
        have hex : ∃ rr : Int, bk.1 < rr ∧ rr < rk.1 ∧ (cell b rr bk.2).isSome = true := by
          by_contra hno
          push_neg at hno
          apply hnz
          rw [occupiedBetween_vert_zero (by omega) horder]
          intro rr h1 h2
          apply isSome_false_eq_none
          have := hno rr h1 h2
          simpa using this
        obtain ⟨rr, h1, h2, hocc⟩ := hex
        exact @kingScanDown_nil_of_blocked b bk.2 rk.1 11 (bk.1 + 1)
          (by push_cast; omega) ⟨rr, by omega, h2, hocc⟩
          (fun rr' p h1' h2' hp hk => by
            rcases hnk (rr', bk.2) p hp hk with he | he
            · have := congrArg Prod.fst he; simp at this; omega
            · have := congrArg Prod.fst he; simp at this; omega)
      · exact kingScanDown_nil_of_no_king 11 (bk.1 + 1)
          (fun rr hr0 hr9 p hp hk => by
            rcases hnk (rr, bk.2) p hp hk with he | he
            · have h2 := congrArg Prod.snd he; simp at h2; exact hcol h2.symm
            · have := congrArg Prod.fst he; simp at this; omega)

/-- Witness for C3 on `c1Board` (kings facing on column 4, nothing
between). -/
theorem C3_flying_general_witness :
    calculateMovesForKing c1Board (9, 4)
      = kingStepMoves c1Board (9, 4) ++ [getWxfMovement c1Board (9, 4) (0, 4) true]
    ∧ calculateMovesForKing c1Board (0, 4)
      = kingStepMoves c1Board (0, 4) ++ [getWxfMovement c1Board (0, 4) (9, 4) false] :=
  (C3_flying_general c1Board (9, 4) (0, 4) (by decide) (by decide) (by decide)
    (by decide)).1 ⟨rfl, by decide⟩

/-- One unfolding step of the direction scan, valid for any limit
policy. -/
theorem findDestsAux_succ (b : Board) (py px : Int) (red : Bool) (dy dx : Int)
    (limit : Option Nat) (capture : Option Bool) (kind : Char) (i fuel : Nat) :
    findDestsAux b py px red dy dx limit capture kind i (fuel + 1)
    = if px + dx * (i : Int) < 0 ∨ py + dy * (i : Int) < 0
        ∨ px + dx * (i : Int) > 8 ∨ py + dy * (i : Int) > 9 then []
      else
        match cell b (py + dy * (i : Int)) (px + dx * (i : Int)) with
        | some contents =>
          (if kind = 'c' then cannonFire b py px red dy dx (i + 1) fuel else [])
            ++ (if contents.is_red ≠ red ∧ capture ≠ some false
              then [(py + dy * (i : Int), px + dx * (i : Int))] else [])
        | none =>
          (py + dy * (i : Int), px + dx * (i : Int))
            :: (if limitReached limit (i + 1) then []
              else findDestsAux b py px red dy dx limit capture kind (i + 1) fuel) := by
  cases limit with
  | none =>
    rw [findDestsAux.eq_3]
    split
    · rfl
    · rcases hc : cell b (py + dy * (i : Int)) (px + dx * (i : Int)) with _ | c
      · simp [hc, limitReached]
      · simp [hc]
  | some l =>
    rw [findDestsAux.eq_2]
    split
    · rfl
    · rcases hc : cell b (py + dy * (i : Int)) (px + dx * (i : Int)) with _ | c
      · simp [hc, limitReached]
      · simp [hc]

/-- Every square returned by the direction scan (any kind, limit and
capture policy) lies on the scan's ray, strictly after the origin, and on
the board. -/
theorem findDestsAux_ray {b : Board} {py px dy dx : Int} {red : Bool}
    {limit : Option Nat} {capture : Option Bool} {kind : Char} :
    ∀ {fuel i : Nat} {d : Int × Int},
    d ∈ findDestsAux b py px red dy dx limit capture kind i fuel →
    ∃ k, i ≤ k ∧ d = rayStep py px dy dx k
      ∧ 0 ≤ d.2 ∧ d.2 ≤ 8 ∧ 0 ≤ d.1 ∧ d.1 ≤ 9 := by
  intro fuel
  induction fuel with
  | zero => intro i d h; simp [findDestsAux] at h
  | succ n ih =>
    intro i d h
    rw [findDestsAux_succ] at h
    split at h
    · simp at h
    · rename_i hbnd
      split at h
      · rename_i p hcell
        rcases List.mem_append.mp h with hfire | hcap
        · split at hfire
          · obtain ⟨k, hk, hd, -, q, hq, -⟩ := cannonFire_sound hfire
            have hb := cell_isSome_bounds hq
            exact ⟨k, by omega, hd, by omega, by omega, by omega, by omega⟩
          · simp at hfire
        · split at hcap
          · simp only [List.mem_singleton] at hcap
            subst hcap
            exact ⟨i, le_refl i, rfl, by omega, by omega, by omega, by omega⟩
          · simp at hcap
      · rename_i hcell
        rcases List.mem_cons.mp h with rfl | htail
        · exact ⟨i, le_refl i, rfl, by omega, by omega, by omega, by omega⟩
        · have htail' : d ∈ findDestsAux b py px red dy dx limit capture kind (i + 1) n := by
            split at htail
            · simp at htail
            · exact htail
          obtain ⟨k, hk, hrest⟩ := ih htail'
          exact ⟨k, by omega, hrest⟩

/-- With `limit=1` and a non-cannon kind, the direction scan returns at
most the single first step of its ray. -/
theorem findDestsAux_limit_one {b : Board} {py px dy dx : Int} {red : Bool}
    {capture : Option Bool} {kind : Char} (hkc : kind ≠ 'c') :
    ∀ {fuel : Nat} {d : Int × Int},
    d ∈ findDestsAux b py px red dy dx (some 1) capture kind 1 fuel →
    d = rayStep py px dy dx 1
      ∧ 0 ≤ d.2 ∧ d.2 ≤ 8 ∧ 0 ≤ d.1 ∧ d.1 ≤ 9 := by
  intro fuel d h
  obtain ⟨k, hk, hd, hb⟩ := findDestsAux_ray h
  rcases fuel with _ | n
  · simp [findDestsAux] at h
  · rw [findDestsAux_succ] at h
    split at h
    · simp at h
    · rcases hcc : cell b (py + dy * ((1 : Nat) : Int)) (px + dx * ((1 : Nat) : Int))
        with _ | c
      · simp only [hcc] at h
        rcases List.mem_cons.mp h with rfl | htail
        · exact ⟨rfl, by omega, by omega, by omega, by omega⟩
        · rw [if_pos (by simp [limitReached] : limitReached (some 1) (1 + 1) = true)] at htail
          simp at htail
      · simp only [hcc, if_neg hkc, List.nil_append] at h
        split at h
        · simp only [List.mem_singleton] at h
          subst h
          exact ⟨rfl, by omega, by omega, by omega, by omega⟩
        · simp at h

/-- Every square returned by the upward king-confrontation scan lies in
the scanned column, at or below the scan start and on the board. -/
theorem kingScanUp_ray {b : Board} {x : Int} :
    ∀ {fuel : Nat} {r : Int} {d : Int × Int}, d ∈ kingScanUp b x r fuel →
    ∃ rr : Int, 0 ≤ rr ∧ rr ≤ r ∧ d = (rr, x) := by
  intro fuel
  induction fuel with
  | zero => intro r d h; simp [kingScanUp] at h
  | succ n ih =>
    intro r d h
    rw [kingScanUp] at h
    split at h
    · rename_i h0
      split at h
      · rename_i p hcell
        split at h
        · rcases List.mem_cons.mp h with rfl | htail
          · exact ⟨r, h0, le_refl r, rfl⟩
          · obtain ⟨rr, h1, h2, hd⟩ := ih htail
            exact ⟨rr, h1, by omega, hd⟩
        · simp at h
      · obtain ⟨rr, h1, h2, hd⟩ := ih h
        exact ⟨rr, h1, by omega, hd⟩
    · simp at h

/-- Downward analogue of `kingScanUp_ray`. -/
theorem kingScanDown_ray {b : Board} {x : Int} :
    ∀ {fuel : Nat} {r : Int} {d : Int × Int}, d ∈ kingScanDown b x r fuel →
    ∃ rr : Int, r ≤ rr ∧ rr ≤ 9 ∧ d = (rr, x) := by
  intro fuel
  induction fuel with
  | zero => intro r d h; simp [kingScanDown] at h
  | succ n ih =>
    intro r d h
    rw [kingScanDown] at h
    split at h
    · rename_i h0
      split at h
      · rename_i p hcell
        split at h
        · rcases List.mem_cons.mp h with rfl | htail
          · exact ⟨r, le_refl r, h0, rfl⟩
          · obtain ⟨rr, h1, h2, hd⟩ := ih htail
            exact ⟨rr, by omega, h2, hd⟩
        · simp at h
      · obtain ⟨rr, h1, h2, hd⟩ := ih h
        exact ⟨rr, by omega, h2, hd⟩
    · simp at h

/-- `str` of a number up to 9 is one digit character, and `int` of that
character recovers the number. -/
theorem natStr_digitVal {n : Nat} (h : n ≤ 9) :
    ∃ c, natStr n = [c] ∧ digitVal c = n := by
  interval_cases n <;> exact ⟨_, rfl, rfl⟩

/-- `indexOf` of a member is below the length (for any lawful `BEq`). -/
theorem indexOf_lt_length_of_mem {α : Type} [BEq α] [LawfulBEq α] {a : α} {l : List α}
    (h : a ∈ l) : List.indexOf a l < l.length := by
  induction l with
  | nil => simp at h
  | cons x xs ih =>
    rw [List.indexOf_cons]
    rcases hax : x == a with _ | _
    · rcases List.mem_cons.mp h with rfl | hmem
      · simp at hax
      · simpa [hax] using Nat.succ_lt_succ (ih hmem)
    · simp [hax]

/-- `_index_to_wxf` produces a two-character piece token whenever the cell
holds an own piece and its column carries at most nine pieces of that
kind. -/
theorem indexToWxf_pair {b : Board} {pos : Int × Int} {p : Piece} {red : Bool}
    (hc : cell b pos.1 pos.2 = some p) (hr : p.is_red = red)
    (hcnt : (colPieces b pos.2 ⟨p.kind, red⟩).length ≤ 9) :
    ∃ c0 c1, indexToWxf b pos red = [c0, c1] := by
  have hb := cell_isSome_bounds hc
  have hmem : pos ∈ colPieces b pos.2 ⟨p.kind, red⟩ := by
    rw [mem_colPieces]
    refine ⟨rfl, ?_⟩
    rw [hc, show p = ⟨p.kind, red⟩ from by rcases p with ⟨pk, pr⟩; simp_all]
  have hidx : List.indexOf pos (colPieces b pos.2 ⟨p.kind, red⟩)
      < (colPieces b pos.2 ⟨p.kind, red⟩).length :=
    indexOf_lt_length_of_mem hmem
  simp only [indexToWxf, hc]
  rw [if_neg (by rw [hr]; exact fun h => h rfl)]
  by_cases h1 : (colPieces b pos.2 ⟨p.kind, red⟩).length = 1
  · rw [if_pos h1]
    rcases red with _ | _
    · obtain ⟨c, hcn, -⟩ := natStr_digitVal (n := (pos.2 + 1).toNat) (by omega)
      exact ⟨p.kind, c, by rw [if_neg (by simp), hcn]⟩
    · obtain ⟨c, hcn, -⟩ := natStr_digitVal (n := (9 - pos.2).toNat) (by omega)
      exact ⟨p.kind, c, by rw [if_pos rfl, hcn]⟩
  · rw [if_neg h1]
    by_cases h2 : (colPieces b pos.2 ⟨p.kind, red⟩).length = 2
    · rw [if_pos h2]
      split
      · exact ⟨p.kind, '-', rfl⟩
      · exact ⟨p.kind, '+', rfl⟩
    · rw [if_neg h2]
      rcases red with _ | _
      · obtain ⟨c, hcn, -⟩ := natStr_digitVal
          (n := (colPieces b pos.2 ⟨p.kind, false⟩).length
            - List.indexOf pos (colPieces b pos.2 ⟨p.kind, false⟩)) (by omega)
        obtain ⟨c', hcn', -⟩ := natStr_digitVal (n := (pos.2 + 1).toNat) (by omega)
        exact ⟨c, c', by rw [if_neg (by simp), hcn, hcn']; rfl⟩
      · obtain ⟨c, hcn, -⟩ := natStr_digitVal
          (n := List.indexOf pos (colPieces b pos.2 ⟨p.kind, true⟩) + 1) (by omega)
        obtain ⟨c', hcn', -⟩ := natStr_digitVal (n := (9 - pos.2).toNat) (by omega)
        exact ⟨c, c', by rw [if_pos rfl, hcn, hcn']; rfl⟩

/-- Decoding inverts encoding: for a piece of any of the seven kinds whose
piece token resolves back to its own square, `_get_index_movement` applied
to the `_get_wxf_movement` string of a geometrically shaped move returns
the move's destination. -/
theorem decode_encode {b : Board} {py px ey ex : Int} {p : Piece} {red : Bool}
    (hc : cell b py px = some p) (hr : p.is_red = red)
    (hkind : p.kind = 'r' ∨ p.kind = 'h' ∨ p.kind = 'e' ∨ p.kind = 'a' ∨ p.kind = 'k'
      ∨ p.kind = 'c' ∨ p.kind = 'p')
    {c0 c1 : Char} (htok : indexToWxf b (py, px) red = [c0, c1])
    (hres2 : wxfToIndex b [c0, c1] red = some (py, px))
    (hbd : 0 ≤ ey ∧ ey ≤ 9 ∧ 0 ≤ ex ∧ ex ≤ 8)
    (hshape : pieceShape p.kind (py, px) (ey, ex)) :
    getIndexMovement b (getWxfMovement b (py, px) (ey, ex) red) red = some (ey, ex) := by
  have hbp := cell_isSome_bounds hc
  by_cases hrow : py = ey
  · -- horizontal slide (or the degenerate equal-squares case)
    rcases red with _ | _
    · obtain ⟨dch, hd1, hd2⟩ := natStr_digitVal (n := (ex + 1).toNat) (by omega)
      have henc : getWxfMovement b (py, px) (ey, ex) false = [c0, c1, '.', dch] := by
        simp only [getWxfMovement]
        rw [if_pos hrow, htok, if_neg (by simp), hd1]
        rfl
      rw [henc]
      simp only [getIndexMovement, hres2, hd2]
      rw [if_neg (by simp), if_pos (by simp)]
      rw [Option.some.injEq, Prod.mk.injEq]
      exact ⟨hrow, by omega⟩
    · obtain ⟨dch, hd1, hd2⟩ := natStr_digitVal (n := (9 - ex).toNat) (by omega)
      have henc : getWxfMovement b (py, px) (ey, ex) true = [c0, c1, '.', dch] := by
        simp only [getWxfMovement]
        rw [if_pos hrow, htok, if_pos trivial, hd1]
        rfl
      rw [henc]
      simp only [getIndexMovement, hres2, hd2]
      rw [if_pos (by simp)]
      rw [Option.some.injEq, Prod.mk.injEq]
      exact ⟨hrow, by omega⟩
  · by_cases hcol : px = ex
    · -- vertical slide: only the orthogonal movers produce it
      have hk4 : p.kind = 'r' ∨ p.kind = 'k' ∨ p.kind = 'c' ∨ p.kind = 'p' := by
        rcases hkind with h | h | h | h | h | h | h
        · exact Or.inl h
        · exfalso
          have hsh := hshape
          simp [pieceShape, h] at hsh
          omega
        · exfalso
          have hsh := hshape
          simp [pieceShape, h] at hsh
          omega
        · exfalso
          have hsh := hshape
          simp [pieceShape, h] at hsh
          omega
        · exact Or.inr (Or.inl h)
        · exact Or.inr (Or.inr (Or.inl h))
        · exact Or.inr (Or.inr (Or.inr h))
      obtain ⟨dch, hd1, hd2⟩ := natStr_digitVal (n := (ey - py).natAbs) (by omega)
      rcases red with _ | _
      · by_cases hlt : py < ey
        · have henc : getWxfMovement b (py, px) (ey, ex) false = [c0, c1, '+', dch] := by
            simp only [getWxfMovement]
            rw [if_neg hrow, if_pos hcol, if_pos (Or.inr ⟨trivial, hlt⟩), htok, hd1]
            rfl
          rw [henc]
          simp only [getIndexMovement, hres2, hd2]
          rw [if_neg (by simp), if_neg (by simp)]
          simp only [hc]
          rw [if_pos hk4, if_neg (by simp)]
          rw [Option.some.injEq, Prod.mk.injEq]
          exact ⟨by omega, hcol⟩
        · have henc : getWxfMovement b (py, px) (ey, ex) false = [c0, c1, '-', dch] := by
            simp only [getWxfMovement]
            rw [if_neg hrow, if_pos hcol, if_neg (by simp; omega), htok, hd1]
            rfl
          rw [henc]
          simp only [getIndexMovement, hres2, hd2]
          rw [if_neg (by simp), if_neg (by simp)]
          simp only [hc]
          rw [if_pos hk4, if_pos (by simp)]
          rw [Option.some.injEq, Prod.mk.injEq]
          exact ⟨by omega, hcol⟩
      · by_cases hlt : ey < py
        · have henc : getWxfMovement b (py, px) (ey, ex) true = [c0, c1, '+', dch] := by
            simp only [getWxfMovement]
            rw [if_neg hrow, if_pos hcol, if_pos (Or.inl ⟨trivial, hlt⟩), htok, hd1]
            rfl
          rw [henc]
          simp only [getIndexMovement, hres2, hd2]
          rw [if_neg (by simp), if_neg (by simp)]
          simp only [hc]
          rw [if_pos hk4, if_pos (by simp)]
          rw [Option.some.injEq, Prod.mk.injEq]
          exact ⟨by omega, hcol⟩
        · have henc : getWxfMovement b (py, px) (ey, ex) true = [c0, c1, '-', dch] := by
            simp only [getWxfMovement]
            rw [if_neg hrow, if_pos hcol, if_neg (by simp; omega), htok, hd1]
            rfl
          rw [henc]
          simp only [getIndexMovement, hres2, hd2]
          rw [if_neg (by simp), if_neg (by simp)]
          simp only [hc]
          rw [if_pos hk4, if_neg (by simp)]
          rw [Option.some.injEq, Prod.mk.injEq]
          exact ⟨by omega, hcol⟩
    · -- diagonal step: only horse, elephant or advisor produce it
      have horth : ¬ sameOrthLine (py, px) (ey, ex) := by
        intro hs
        rcases hs with ⟨-, h1 | h2⟩
        · exact hrow h1
        · exact hcol h2
      have hk3 : p.kind = 'h' ∨ (p.kind = 'e' ∨ p.kind = 'a') := by
        rcases hkind with h | h | h | h | h | h | h
        · exact absurd (by simpa [pieceShape, h] using hshape) horth
        · exact Or.inl h
        · exact Or.inr (Or.inl h)
        · exact Or.inr (Or.inr h)
        · exact absurd (by simpa [pieceShape, h] using hshape) horth
        · exact absurd (by simpa [pieceShape, h] using hshape) horth
        · exact absurd (by simpa [pieceShape, h] using hshape) horth
      rcases hk3 with hkh | hkea
      · -- horse
        have hsh := hshape
        simp [pieceShape, hkh] at hsh
        rcases red with _ | _
        · obtain ⟨dch, hd1, hd2⟩ := natStr_digitVal (n := (ex + 1).toNat) (by omega)
          by_cases hlt : py < ey
          · have henc : getWxfMovement b (py, px) (ey, ex) false = [c0, c1, '+', dch] := by
              simp only [getWxfMovement]
              rw [if_neg hrow, if_neg hcol, if_pos (Or.inr ⟨trivial, hlt⟩), htok,
                if_neg (by simp), hd1]
              rfl
            rw [henc]
            simp only [getIndexMovement, hres2, hd2]
            rw [if_neg (by simp), if_neg (by simp)]
            simp only [hc]
            rw [if_neg (by simp [hkh]), if_neg (by simp), if_pos (by simp [hkh]), if_pos (by simp)]
            rw [Option.some.injEq, Prod.mk.injEq]
            constructor <;> omega
          · have henc : getWxfMovement b (py, px) (ey, ex) false = [c0, c1, '-', dch] := by
              simp only [getWxfMovement]
              rw [if_neg hrow, if_neg hcol, if_neg (by simp; omega), htok,
                if_neg (by simp), hd1]
              rfl
            rw [henc]
            simp only [getIndexMovement, hres2, hd2]
            rw [if_neg (by simp), if_neg (by simp)]
            simp only [hc]
            rw [if_neg (by simp [hkh]), if_neg (by simp), if_pos (by simp [hkh]), if_neg (by simp)]
            rw [Option.some.injEq, Prod.mk.injEq]
            constructor <;> omega
        · obtain ⟨dch, hd1, hd2⟩ := natStr_digitVal (n := (9 - ex).toNat) (by omega)
          by_cases hlt : ey < py
          · have henc : getWxfMovement b (py, px) (ey, ex) true = [c0, c1, '+', dch] := by
              simp only [getWxfMovement]
              rw [if_neg hrow, if_neg hcol, if_pos (Or.inl ⟨trivial, hlt⟩), htok,
                if_pos trivial, hd1]
              rfl
            rw [henc]
            simp only [getIndexMovement, hres2, hd2]
            rw [if_neg (by simp), if_neg (by simp)]
            simp only [hc]
            rw [if_neg (by simp [hkh]), if_pos (by simp [hkh]), if_pos (by simp)]
            rw [Option.some.injEq, Prod.mk.injEq]
            constructor <;> omega
          · have henc : getWxfMovement b (py, px) (ey, ex) true = [c0, c1, '-', dch] := by
              simp only [getWxfMovement]
              rw [if_neg hrow, if_neg hcol, if_neg (by simp; omega), htok,
                if_pos trivial, hd1]
              rfl
            rw [henc]
            simp only [getIndexMovement, hres2, hd2]
            rw [if_neg (by simp), if_neg (by simp)]
            simp only [hc]
            rw [if_neg (by simp [hkh]), if_pos (by simp [hkh]), if_neg (by simp)]
            rw [Option.some.injEq, Prod.mk.injEq]
            constructor <;> omega
      · -- elephant or advisor: the vertical offset is the if-selected constant
        have hknh : p.kind ≠ 'h' := by rcases hkea with h | h <;> simp [h]
        have hnk4 : ¬ (p.kind = 'r' ∨ p.kind = 'k' ∨ p.kind = 'c' ∨ p.kind = 'p') := by
          rcases hkea with h | h <;> simp [h]
        have hvert : (if p.kind = 'e' then (2 : Int) else 1) = ((ey - py).natAbs : Int)
            ∧ (ex - px).natAbs = (ey - py).natAbs := by
          rcases hkea with h | h
          · have hsh := hshape
            simp [pieceShape, h] at hsh
            rw [if_pos h]
            omega
          · have hsh := hshape
            simp [pieceShape, h] at hsh
            rw [if_neg (by simp [h])]
            omega
        rcases red with _ | _
        · obtain ⟨dch, hd1, hd2⟩ := natStr_digitVal (n := (ex + 1).toNat) (by omega)
          by_cases hlt : py < ey
          · have henc : getWxfMovement b (py, px) (ey, ex) false = [c0, c1, '+', dch] := by
              simp only [getWxfMovement]
              rw [if_neg hrow, if_neg hcol, if_pos (Or.inr ⟨trivial, hlt⟩), htok,
                if_neg (by simp), hd1]
              rfl
            rw [henc]
            simp only [getIndexMovement, hres2, hd2]
            rw [if_neg (by simp), if_neg (by simp)]
            simp only [hc]
            rw [if_neg hnk4, if_neg (by simp), if_neg (by simp [hknh]), hvert.1,
              if_neg (by simp), if_neg (by simp), if_pos (by simp)]
            rw [Option.some.injEq, Prod.mk.injEq]
            have hv2 := hvert.2
            constructor <;> omega
          · have henc : getWxfMovement b (py, px) (ey, ex) false = [c0, c1, '-', dch] := by
              simp only [getWxfMovement]
              rw [if_neg hrow, if_neg hcol, if_neg (by simp; omega), htok,
                if_neg (by simp), hd1]
              rfl
            rw [henc]
            simp only [getIndexMovement, hres2, hd2]
            rw [if_neg (by simp), if_neg (by simp)]
            simp only [hc]
            rw [if_neg hnk4, if_neg (by simp), if_neg (by simp [hknh]), hvert.1,
              if_neg (by simp), if_neg (by simp), if_neg (by simp)]
            rw [Option.some.injEq, Prod.mk.injEq]
            have hv2 := hvert.2
            constructor <;> omega
        · obtain ⟨dch, hd1, hd2⟩ := natStr_digitVal (n := (9 - ex).toNat) (by omega)
          by_cases hlt : ey < py
          · have henc : getWxfMovement b (py, px) (ey, ex) true = [c0, c1, '+', dch] := by
              simp only [getWxfMovement]
              rw [if_neg hrow, if_neg hcol, if_pos (Or.inl ⟨trivial, hlt⟩), htok,
                if_pos trivial, hd1]
              rfl
            rw [henc]
            simp only [getIndexMovement, hres2, hd2]
            rw [if_neg (by simp), if_neg (by simp)]
            simp only [hc]
            rw [if_neg hnk4, if_neg (by simp [hknh]), if_neg (by simp [hknh]), hvert.1,
              if_pos (by simp)]
            rw [Option.some.injEq, Prod.mk.injEq]
            have hv2 := hvert.2
            constructor <;> omega
          · have henc : getWxfMovement b (py, px) (ey, ex) true = [c0, c1, '-', dch] := by
              simp only [getWxfMovement]
              rw [if_neg hrow, if_neg hcol, if_neg (by simp; omega), htok,
                if_pos trivial, hd1]
              rfl
            rw [henc]
            simp only [getIndexMovement, hres2, hd2]
            rw [if_neg (by simp), if_neg (by simp)]
            simp only [hc]
            rw [if_neg hnk4, if_neg (by simp [hknh]), if_neg (by simp [hknh]), hvert.1,
              if_neg (by simp), if_pos (by simp)]
            rw [Option.some.injEq, Prod.mk.injEq]
            have hv2 := hvert.2
            constructor <;> omega

/-- Membership in an `if c then l else []` implies membership in `l`. -/
theorem mem_of_mem_ite_nil {α : Type} {c : Prop} [Decidable c] {l : List α} {a : α}
    (h : a ∈ if c then l else []) : a ∈ l := by
  split at h
  · exact h
  · simp at h

/-- A point one or more steps along a unit orthogonal direction lies on the
same row or column and differs from the origin. -/
theorem sameOrthLine_of_ray {pos d : Int × Int} {dy dx : Int} {k : Nat}
    (hk : 1 ≤ k) (hd : d = rayStep pos.1 pos.2 dy dx k)
    (hdir : (dy = 0 ∧ (dx = 1 ∨ dx = -1)) ∨ (dx = 0 ∧ (dy = 1 ∨ dy = -1))) :
    sameOrthLine pos d := by
  have hd1 : d.1 = pos.1 + dy * (k : Int) := by rw [hd]; rfl
  have hd2 : d.2 = pos.2 + dx * (k : Int) := by rw [hd]; rfl
  refine ⟨fun he => ?_, ?_⟩
  · have h1 : pos.1 = d.1 := by rw [he]
    have h2 : pos.2 = d.2 := by rw [he]
    rcases hdir with ⟨ha, hb⟩ | ⟨ha, hb⟩
    · rw [ha] at hd1
      rcases hb with hb | hb <;> rw [hb] at hd2 <;> omega
    · rw [ha] at hd2
      rcases hb with hb | hb <;> rw [hb] at hd1 <;> omega
  · rcases hdir with ⟨ha, -⟩ | ⟨ha, -⟩
    · left
      rw [ha] at hd1
      omega
    · right
      rw [ha] at hd2
      omega

/-- Every square returned by a direction scan lies on the scan ray at a
positive step count and on the board. -/
theorem mem_destsInDirection {b : Board} {pos : Int × Int} {red : Bool} {dir : Int × Int}
    {limit : Option Nat} {capture : Option Bool} {d : Int × Int}
    (h : d ∈ destsInDirection b pos red dir limit capture) :
    ∃ k : Nat, 1 ≤ k ∧ d = rayStep pos.1 pos.2 dir.1 dir.2 k
      ∧ 0 ≤ d.2 ∧ d.2 ≤ 8 ∧ 0 ≤ d.1 ∧ d.1 ≤ 9 :=
  findDestsAux_ray h

/-- A direction scan with `limit = 1` for a non-cannon piece only ever
returns the single square one step away. -/
theorem mem_destsInDirection_one {b : Board} {pos : Int × Int} {red : Bool} {dir : Int × Int}
    {capture : Option Bool} {d : Int × Int}
    (hkc : (pieceAt b pos).kind ≠ 'c')
    (h : d ∈ destsInDirection b pos red dir (some 1) capture) :
    d = rayStep pos.1 pos.2 dir.1 dir.2 1
      ∧ 0 ≤ d.2 ∧ d.2 ≤ 8 ∧ 0 ≤ d.1 ∧ d.1 ≤ 9 :=
  findDestsAux_limit_one hkc h

/-- Chariot destinations lie on the chariot's row or column, on the
board. -/
theorem chariotDests_shape {b : Board} {pos d : Int × Int} (h : d ∈ chariotDests b pos) :
    sameOrthLine pos d ∧ 0 ≤ d.1 ∧ d.1 ≤ 9 ∧ 0 ≤ d.2 ∧ d.2 ≤ 8 := by
  simp only [chariotDests, List.mem_append] at h
  rcases h with ((h | h) | h) | h
  all_goals
    obtain ⟨k, hk1, hd, hx0, hx8, hy0, hy9⟩ := mem_destsInDirection h
    exact ⟨sameOrthLine_of_ray hk1 hd (by simp), hy0, hy9, hx0, hx8⟩

/-- Horse destinations are a (±2,±1) or (±1,±2) step, on the board. -/
theorem horseDests_shape {b : Board} {pos d : Int × Int}
    (hkc : (pieceAt b pos).kind ≠ 'c') (h : d ∈ horseDests b pos) :
    (((d.1 - pos.1).natAbs = 2 ∧ (d.2 - pos.2).natAbs = 1)
        ∨ ((d.1 - pos.1).natAbs = 1 ∧ (d.2 - pos.2).natAbs = 2))
      ∧ 0 ≤ d.1 ∧ d.1 ≤ 9 ∧ 0 ≤ d.2 ∧ d.2 ≤ 8 := by
  simp only [horseDests, List.mem_append] at h
  rcases h with ((h | h) | h) | h
  all_goals
    have h2 := mem_of_mem_ite_nil h
    rw [List.mem_append] at h2
    rcases h2 with h3 | h3
    all_goals
      obtain ⟨hd, hx0, hx8, hy0, hy9⟩ := mem_destsInDirection_one hkc h3
      subst hd
      simp only [rayStep] at hx0 hx8 hy0 hy9 ⊢
      omega

/-- Elephant destinations are a (±2,±2) step, on the board. -/
theorem elephantDests_shape {b : Board} {pos d : Int × Int}
    (hkc : (pieceAt b pos).kind ≠ 'c') (h : d ∈ elephantDests b pos) :
    ((d.1 - pos.1).natAbs = 2 ∧ (d.2 - pos.2).natAbs = 2)
      ∧ 0 ≤ d.1 ∧ d.1 ≤ 9 ∧ 0 ≤ d.2 ∧ d.2 ≤ 8 := by
  simp only [elephantDests, List.mem_append] at h
  rcases h with h | h
  all_goals
    have h2 := mem_of_mem_ite_nil h
    rw [List.mem_append] at h2
    rcases h2 with h3 | h3
    all_goals
      have h4 := mem_of_mem_ite_nil h3
      obtain ⟨hd, hx0, hx8, hy0, hy9⟩ := mem_destsInDirection_one hkc h4
      subst hd
      simp only [rayStep] at hx0 hx8 hy0 hy9 ⊢
      omega

/-- Advisor destinations are a (±1,±1) step, on the board. -/
theorem assistantDests_shape {b : Board} {pos d : Int × Int}
    (hkc : (pieceAt b pos).kind ≠ 'c') (h : d ∈ assistantDests b pos) :
    ((d.1 - pos.1).natAbs = 1 ∧ (d.2 - pos.2).natAbs = 1)
      ∧ 0 ≤ d.1 ∧ d.1 ≤ 9 ∧ 0 ≤ d.2 ∧ d.2 ≤ 8 := by
  simp only [assistantDests, List.mem_append] at h
  rcases h with h | h
  all_goals
    have h2 := mem_of_mem_ite_nil h
    rw [List.mem_append] at h2
    rcases h2 with h3 | h3
    all_goals
      have h4 := mem_of_mem_ite_nil h3
      obtain ⟨hd, hx0, hx8, hy0, hy9⟩ := mem_destsInDirection_one hkc h4
      subst hd
      simp only [rayStep] at hx0 hx8 hy0 hy9 ⊢
      omega

/-- King palace-step destinations lie on the king's row or column, on the
board. -/
theorem kingStepDests_shape {b : Board} {pos d : Int × Int}
    (hkc : (pieceAt b pos).kind ≠ 'c') (h : d ∈ kingStepDests b pos) :
    sameOrthLine pos d ∧ 0 ≤ d.1 ∧ d.1 ≤ 9 ∧ 0 ≤ d.2 ∧ d.2 ≤ 8 := by
  simp only [kingStepDests, List.mem_append] at h
  rcases h with ((h | h) | h) | h
  all_goals
    have h2 := mem_of_mem_ite_nil h
    obtain ⟨hd, hx0, hx8, hy0, hy9⟩ := mem_destsInDirection_one hkc h2
    exact ⟨sameOrthLine_of_ray le_rfl hd (by simp), hy0, hy9, hx0, hx8⟩

/-- Flying-general destinations lie on the king's own column, strictly on
the far side, on the board. -/
theorem kingConfrontDests_shape {b : Board} {pos d : Int × Int}
    (hp : 0 ≤ pos.1 ∧ pos.1 < 10 ∧ 0 ≤ pos.2 ∧ pos.2 < 9)
    (h : d ∈ kingConfrontDests b pos) :
    sameOrthLine pos d ∧ 0 ≤ d.1 ∧ d.1 ≤ 9 ∧ 0 ≤ d.2 ∧ d.2 ≤ 8 := by
  simp only [kingConfrontDests] at h
  split at h
  · obtain ⟨rr, hr0, hrr, hd⟩ := kingScanUp_ray h
    subst hd
    refine ⟨⟨fun he => ?_, Or.inr rfl⟩, hr0, by omega, hp.2.2.1, by omega⟩
    have h1 : pos.1 = rr := congrArg Prod.fst he
    omega
  · obtain ⟨rr, hrr, hr9, hd⟩ := kingScanDown_ray h
    subst hd
    refine ⟨⟨fun he => ?_, Or.inr rfl⟩, by omega, hr9, hp.2.2.1, by omega⟩
    have h1 : pos.1 = rr := congrArg Prod.fst he
    omega

/-- Cannon destinations lie on the cannon's row or column, on the
board. -/
theorem cannonDests_shape {b : Board} {pos d : Int × Int} (h : d ∈ cannonDests b pos) :
    sameOrthLine pos d ∧ 0 ≤ d.1 ∧ d.1 ≤ 9 ∧ 0 ≤ d.2 ∧ d.2 ≤ 8 := by
  simp only [cannonDests, List.mem_append] at h
  rcases h with ((h | h) | h) | h
  all_goals
    obtain ⟨k, hk1, hd, hx0, hx8, hy0, hy9⟩ := mem_destsInDirection h
    exact ⟨sameOrthLine_of_ray hk1 hd (by simp), hy0, hy9, hx0, hx8⟩

/-- Pawn destinations lie on the pawn's row or column, on the board. -/
theorem pawnDests_shape {b : Board} {pos d : Int × Int}
    (hkc : (pieceAt b pos).kind ≠ 'c') (h : d ∈ pawnDests b pos) :
    sameOrthLine pos d ∧ 0 ≤ d.1 ∧ d.1 ≤ 9 ∧ 0 ≤ d.2 ∧ d.2 ≤ 8 := by
  simp only [pawnDests] at h
  split at h
  all_goals
    rw [List.mem_append] at h
    rcases h with h | h
    · obtain ⟨hd, hx0, hx8, hy0, hy9⟩ := mem_destsInDirection_one hkc h
      exact ⟨sameOrthLine_of_ray le_rfl hd (by simp), hy0, hy9, hx0, hx8⟩
    · have h2 := mem_of_mem_ite_nil h
      rw [List.mem_append] at h2
      rcases h2 with h3 | h3
      all_goals
        obtain ⟨hd, hx0, hx8, hy0, hy9⟩ := mem_destsInDirection_one hkc h3
        exact ⟨sameOrthLine_of_ray le_rfl hd (by simp), hy0, hy9, hx0, hx8⟩

/-- Every move the per-piece generator emits is the encoding of some
on-board destination whose geometry matches the piece kind. -/
theorem movesForPieceAt_shape {b : Board} {pos : Int × Int} {p : Piece} {m : List Char}
    (hc : cell b pos.1 pos.2 = some p) (hm : m ∈ movesForPieceAt b pos p) :
    ∃ dest : Int × Int, m = getWxfMovement b pos dest p.is_red
      ∧ pieceShape p.kind pos dest
      ∧ 0 ≤ dest.1 ∧ dest.1 ≤ 9 ∧ 0 ≤ dest.2 ∧ dest.2 ≤ 8 := by
  have hpa : pieceAt b pos = p := pieceAt_eq hc
  simp only [movesForPieceAt] at hm
  split at hm
  · rename_i hk
    simp only [calculateMovesForChariot, List.mem_map] at hm
    obtain ⟨d, hdm, hme⟩ := hm
    rw [hpa] at hme
    obtain ⟨hsh, hb⟩ := chariotDests_shape hdm
    refine ⟨d, hme.symm, ?_, hb⟩
    rw [hk]
    simpa [pieceShape] using hsh
  · split at hm
    · rename_i hk
      have hkc : (pieceAt b pos).kind ≠ 'c' := by rw [hpa, hk]; decide
      simp only [calculateMovesForHorse, List.mem_map] at hm
      obtain ⟨d, hdm, hme⟩ := hm
      rw [hpa] at hme
      obtain ⟨hsh, hb⟩ := horseDests_shape hkc hdm
      refine ⟨d, hme.symm, ?_, hb⟩
      rw [hk]
      simpa [pieceShape] using hsh
    · split at hm
      · rename_i hk
        have hkc : (pieceAt b pos).kind ≠ 'c' := by rw [hpa, hk]; decide
        simp only [calculateMovesForElephant, List.mem_map] at hm
        obtain ⟨d, hdm, hme⟩ := hm
        rw [hpa] at hme
        obtain ⟨hsh, hb⟩ := elephantDests_shape hkc hdm
        refine ⟨d, hme.symm, ?_, hb⟩
        rw [hk]
        simpa [pieceShape] using hsh
      · split at hm
        · rename_i hk
          have hkc : (pieceAt b pos).kind ≠ 'c' := by rw [hpa, hk]; decide
          simp only [calculateMovesForAssistant, List.mem_map] at hm
          obtain ⟨d, hdm, hme⟩ := hm
          rw [hpa] at hme
          obtain ⟨hsh, hb⟩ := assistantDests_shape hkc hdm
          refine ⟨d, hme.symm, ?_, hb⟩
          rw [hk]
          simpa [pieceShape] using hsh
        · split at hm
          · rename_i hk
            have hkc : (pieceAt b pos).kind ≠ 'c' := by rw [hpa, hk]; decide
            simp only [calculateMovesForKing, kingStepMoves, List.mem_append,
              List.mem_map] at hm
            rcases hm with ⟨d, hdm, hme⟩ | ⟨d, hdm, hme⟩
            · rw [hpa] at hme
              obtain ⟨hsh, hb⟩ := kingStepDests_shape hkc hdm
              refine ⟨d, hme.symm, ?_, hb⟩
              rw [hk]
              simpa [pieceShape] using hsh
            · rw [hpa] at hme
              obtain ⟨hsh, hb⟩ := kingConfrontDests_shape (cell_isSome_bounds hc) hdm
              refine ⟨d, hme.symm, ?_, hb⟩
              rw [hk]
              simpa [pieceShape] using hsh
          · split at hm
            · rename_i hk
              simp only [calculateMovesForCannon, List.mem_map] at hm
              obtain ⟨d, hdm, hme⟩ := hm
              rw [hpa] at hme
              obtain ⟨hsh, hb⟩ := cannonDests_shape hdm
              refine ⟨d, hme.symm, ?_, hb⟩
              rw [hk]
              simpa [pieceShape] using hsh
            · rename_i hk1 hk2 hk3 hk4 hk5 hk6
              have hkc : (pieceAt b pos).kind ≠ 'c' := by rw [hpa]; exact hk6
              simp only [calculateMovesForPawn, List.mem_map] at hm
              obtain ⟨d, hdm, hme⟩ := hm
              rw [hpa] at hme
              obtain ⟨hsh, hb⟩ := pawnDests_shape hkc hdm
              refine ⟨d, hme.symm, ?_, hb⟩
              simp only [pieceShape]
              rw [if_neg hk2, if_neg hk3, if_neg hk4]
              exact hsh

/-- Claim C1 (counterexample): on a board with three red pawns in one
column and two in another, the generated pawn move `p++1` does not survive
the decode/re-encode round trip: the ambiguous `p+` token is re-resolved to
the other column, so re-encoding yields `19+1` instead. -/
theorem C1_round_trip_counterexample :
    ['p', '+', '+', '1'] ∈ calculateMovesForBoard c1Board true
      ∧ roundTrip c1Board ['p', '+', '+', '1'] true ≠ some ['p', '+', '+', '1'] := by
  constructor
  · decide
  · decide

/-- Claim C1 (amended): for every move the generator emits for a piece
whose own piece token resolves back to the piece's square (and whose column
holds at most nine same-kind pieces), decoding the move with
`_get_index_movement` and re-encoding the (start, destination) pair with
`_get_wxf_movement` yields the move again, for every piece kind — including
the horse's `vertical = 3 - |file delta|` rule and the elephant's/advisor's
fixed vertical steps 2 and 1.  The resolution hypothesis is the amendment:
the unamended claim fails when the piece token is ambiguous. -/
theorem C1_round_trip_amended {b : Board} {pos : Int × Int} {p : Piece} {red : Bool}
    {m : List Char}
    (hc : cell b pos.1 pos.2 = some p) (hr : p.is_red = red)
    (hkind : p.kind = 'r' ∨ p.kind = 'h' ∨ p.kind = 'e' ∨ p.kind = 'a' ∨ p.kind = 'k'
      ∨ p.kind = 'c' ∨ p.kind = 'p')
    (hcnt : (colPieces b pos.2 ⟨p.kind, red⟩).length ≤ 9)
    (hres : wxfToIndex b (indexToWxf b pos red) red = some pos)
    (hm : m ∈ movesForPieceAt b pos p) :
    roundTrip b m red = some m := by
  obtain ⟨c0, c1, htok⟩ := indexToWxf_pair hc hr hcnt
  rw [htok] at hres
  obtain ⟨dest, hme, hshape, hb1, hb2, hb3, hb4⟩ := movesForPieceAt_shape hc hm
  rw [hr] at hme
  have hdec : getIndexMovement b m red = some dest := by
    rw [hme]
    exact decode_encode hc hr hkind htok hres ⟨hb1, hb2, hb3, hb4⟩ hshape
  have hsplit : ∃ s tail, getWxfMovement b pos dest red = indexToWxf b pos red ++ s :: tail := by
    simp only [getWxfMovement]
    split
    · exact ⟨_, _, rfl⟩
    · split
      · split
        · exact ⟨_, _, rfl⟩
        · exact ⟨_, _, rfl⟩
      · split
        · exact ⟨_, _, rfl⟩
        · exact ⟨_, _, rfl⟩
  obtain ⟨sc, tail, hsp⟩ := hsplit
  have hstart : wxfToIndex b (m.take 2) red = some pos := by
    rw [hme, hsp, htok]
    exact hres
  rw [roundTrip]
  rw [hstart, hdec]
  exact congrArg some hme.symm

/-- Witness for the amended claim C1: the opening-board red cannon move
`c8.5` round-trips to itself. -/
theorem C1_round_trip_amended_witness :
    roundTrip initialBoard ['c', '8', '.', '5'] true = some ['c', '8', '.', '5'] :=
  @C1_round_trip_amended initialBoard (7, 1) ⟨'c', true⟩ true ['c', '8', '.', '5']
    (by decide) rfl (by decide) (by decide) (by decide) (by decide)

/-- The seed is a lower bound of a max-fold. -/
theorem self_le_foldl_max : ∀ (xs : List ℚ) (a : ℚ), a ≤ xs.foldl max a
  | [], a => le_refl a
  | x :: xs, a => le_trans (le_max_left a x) (self_le_foldl_max xs (max a x))

/-- Every list member is a lower bound of a max-fold. -/
theorem foldl_max_le (xs : List ℚ) : ∀ (a q : ℚ), q ∈ xs → q ≤ xs.foldl max a := by
  induction xs with
  | nil =>
    intro a q h
    simp at h
  | cons x xs ih =>
    intro a q h
    rcases List.mem_cons.mp h with rfl | h
    · exact le_trans (le_max_right a q) (self_le_foldl_max xs (max a q))
    · exact ih (max a x) q h

/-- A max-fold returns its seed or a list member. -/
theorem foldl_max_mem (xs : List ℚ) : ∀ a : ℚ, xs.foldl max a = a ∨ xs.foldl max a ∈ xs := by
  induction xs with
  | nil =>
    intro a
    exact Or.inl rfl
  | cons x xs ih =>
    intro a
    rw [List.foldl_cons]
    rcases ih (max a x) with h | h
    · rcases le_total a x with hax | hxa
      · rw [h, max_eq_right hax]
        exact Or.inr (List.mem_cons_self x xs)
      · rw [h, max_eq_left hxa]
        exact Or.inl rfl
    · exact Or.inr (List.mem_cons_of_mem x h)

/-- `listMax` computes Python's `max` on a nonempty list. -/
theorem listMax_isPyMax (l : List ℚ) (hl : l ≠ []) : isPyMax (listMax l) l := by
  rcases l with _ | ⟨x, xs⟩
  · exact absurd rfl hl
  · constructor
    · rcases foldl_max_mem xs x with h | h
      · rw [listMax, h]
        exact List.mem_cons_self _ _
      · rw [listMax]
        exact List.mem_cons_of_mem _ h
    · intro q hq
      rcases List.mem_cons.mp hq with rfl | hq
      · rw [listMax]
        exact self_le_foldl_max xs q
      · rw [listMax]
        exact foldl_max_le xs x q hq

/-- The descending merge sort is a descending-sorted permutation. -/
theorem mergeSort_desc (l : List ℚ) :
    ((l.mergeSort fun a b => decide (b ≤ a)).Perm l)
      ∧ (l.mergeSort fun a b => decide (b ≤ a)).Pairwise fun a b => b ≤ a := by
  refine ⟨List.mergeSort_perm l _, ?_⟩
  have h := @List.sorted_mergeSort ℚ (fun a b => decide (b ≤ a))
    (fun a b c hab hbc => by
      simp only [decide_eq_true_eq] at hab hbc ⊢
      exact le_trans hbc hab)
    (fun a b => by rcases le_total a b with h | h <;> simp [h]) l
  exact h.imp fun hab => by simpa using hab

/-- Bounds for the top-`ceil(k * ESTIMATION)` mean of a nonempty list of
values in `[0, 1]`. -/
theorem take_sum_div_bounds (values : List ℚ) (hvne : values ≠ [])
    (hbd : ∀ q ∈ values, 0 ≤ q ∧ q ≤ 1) :
    0 ≤ ((values.mergeSort fun a b => decide (b ≤ a)).take
          ⌈(values.length : ℚ) * ESTIMATION⌉.toNat).sum
        / (⌈(values.length : ℚ) * ESTIMATION⌉.toNat : ℚ)
      ∧ ((values.mergeSort fun a b => decide (b ≤ a)).take
          ⌈(values.length : ℚ) * ESTIMATION⌉.toNat).sum
        / (⌈(values.length : ℚ) * ESTIMATION⌉.toNat : ℚ) ≤ 1 := by
  have hk1 : 1 ≤ values.length := List.length_pos.mpr hvne
  have hceil1 : (1 : ℤ) ≤ ⌈(values.length : ℚ) * ESTIMATION⌉ := by
    have hpos : (0 : ℚ) < (values.length : ℚ) * ESTIMATION := by
      have h1 : (0 : ℚ) < (values.length : ℚ) := by exact_mod_cast hk1
      have h2 : (0 : ℚ) < ESTIMATION := by norm_num [ESTIMATION]
      exact mul_pos h1 h2
    exact Int.ceil_pos.mpr hpos
  have hceilk : ⌈(values.length : ℚ) * ESTIMATION⌉ ≤ (values.length : ℤ) := by
    rw [Int.ceil_le]
    have h1 : (0 : ℚ) ≤ (values.length : ℚ) := by positivity
    rw [ESTIMATION]
    push_cast
    nlinarith
  have hn1 : 1 ≤ ⌈(values.length : ℚ) * ESTIMATION⌉.toNat := by omega
  have hnk : ⌈(values.length : ℚ) * ESTIMATION⌉.toNat ≤ values.length := by omega
  have hperm : (values.mergeSort fun a b => decide (b ≤ a)).Perm values :=
    List.mergeSort_perm values _
  have hlensorted : (values.mergeSort fun a b => decide (b ≤ a)).length = values.length :=
    hperm.length_eq
  have hmem : ∀ q ∈ (values.mergeSort fun a b => decide (b ≤ a)).take
      ⌈(values.length : ℚ) * ESTIMATION⌉.toNat, 0 ≤ q ∧ q ≤ 1 := fun q hq =>
    hbd q (hperm.mem_iff.mp (List.mem_of_mem_take hq))
  have hlen_take : ((values.mergeSort fun a b => decide (b ≤ a)).take
      ⌈(values.length : ℚ) * ESTIMATION⌉.toNat).length
        = ⌈(values.length : ℚ) * ESTIMATION⌉.toNat := by
    rw [List.length_take, hlensorted]
    omega
  have hsum0 : 0 ≤ ((values.mergeSort fun a b => decide (b ≤ a)).take
      ⌈(values.length : ℚ) * ESTIMATION⌉.toNat).sum :=
    List.sum_nonneg fun q hq => (hmem q hq).1
  have hsum1 : ((values.mergeSort fun a b => decide (b ≤ a)).take
      ⌈(values.length : ℚ) * ESTIMATION⌉.toNat).sum
        ≤ (⌈(values.length : ℚ) * ESTIMATION⌉.toNat : ℚ) := by
    have h := List.sum_le_card_nsmul ((values.mergeSort fun a b => decide (b ≤ a)).take
      ⌈(values.length : ℚ) * ESTIMATION⌉.toNat) 1 (fun q hq => (hmem q hq).2)
    rw [hlen_take] at h
    simpa using h
  have hnpos : (0 : ℚ) < (⌈(values.length : ℚ) * ESTIMATION⌉.toNat : ℚ) := by
    exact_mod_cast hn1
  constructor
  · exact div_nonneg hsum0 (le_of_lt hnpos)
  · rw [div_le_one hnpos]
    exact hsum1

/-- Claim C7: for a non-leaf node with children's probabilities in [0,1],
`_update_win_probabilities` keeps every other field, sets the mover's
probability to the maximum of the children's and the opponent's
probability to the mean of the top `ceil(k * ESTIMATION)` children's
values sorted descending (symmetrically for the two sides), leaves leaves
unchanged, and the resulting probabilities lie in [0,1]. -/
theorem C7_update_win_probabilities (t : GameTree)
    (hbr : ∀ s ∈ t.subtrees, 0 ≤ s.red_win_probability ∧ s.red_win_probability ≤ 1)
    (hbb : ∀ s ∈ t.subtrees, 0 ≤ s.black_win_probability ∧ s.black_win_probability ≤ 1) :
    (t.subtrees = [] → updateWinProbabilities t = t)
      ∧ (t.subtrees ≠ [] →
        ((updateWinProbabilities t).move = t.move
          ∧ (updateWinProbabilities t).is_red_move = t.is_red_move
          ∧ (updateWinProbabilities t).relative_points = t.relative_points
          ∧ (updateWinProbabilities t).subtrees = t.subtrees)
        ∧ (t.is_red_move = true →
            isPyMax (updateWinProbabilities t).red_win_probability
                (t.subtrees.map GameTree.red_win_probability)
              ∧ isTopMean (updateWinProbabilities t).black_win_probability
                (t.subtrees.map GameTree.black_win_probability))
        ∧ (t.is_red_move = false →
            isPyMax (updateWinProbabilities t).black_win_probability
                (t.subtrees.map GameTree.black_win_probability)
              ∧ isTopMean (updateWinProbabilities t).red_win_probability
                (t.subtrees.map GameTree.red_win_probability))
        ∧ (0 ≤ (updateWinProbabilities t).red_win_probability
          ∧ (updateWinProbabilities t).red_win_probability ≤ 1
          ∧ 0 ≤ (updateWinProbabilities t).black_win_probability
          ∧ (updateWinProbabilities t).black_win_probability ≤ 1)) := by
  rcases t with ⟨m, i, p, r, bq, subs⟩
  rcases subs with _ | ⟨s0, rest⟩
  · exact ⟨fun _ => rfl, fun h => absurd rfl h⟩
  · refine ⟨fun h => absurd h (by simp [GameTree.subtrees]), fun _ => ?_⟩
    have hne : (s0 :: rest).map GameTree.red_win_probability ≠ [] := by simp
    have hne2 : (s0 :: rest).map GameTree.black_win_probability ≠ [] := by simp
    have hbr2 : ∀ q ∈ (s0 :: rest).map GameTree.red_win_probability, 0 ≤ q ∧ q ≤ 1 := by
      intro q hq
      obtain ⟨s, hs, rfl⟩ := List.mem_map.mp hq
      exact hbr s hs
    have hbb2 : ∀ q ∈ (s0 :: rest).map GameTree.black_win_probability, 0 ≤ q ∧ q ≤ 1 := by
      intro q hq
      obtain ⟨s, hs, rfl⟩ := List.mem_map.mp hq
      exact hbb s hs
    rcases i with _ | _
    · have hupd : updateWinProbabilities (GameTree.mk m false p r bq (s0 :: rest))
          = GameTree.mk m false p
            (((((s0 :: rest).map GameTree.red_win_probability).mergeSort
                fun a b => decide (b ≤ a)).take
              ⌈(((s0 :: rest).map GameTree.red_win_probability).length : ℚ)
                * ESTIMATION⌉.toNat).sum
              / (⌈(((s0 :: rest).map GameTree.red_win_probability).length : ℚ)
                * ESTIMATION⌉.toNat : ℚ))
            (listMax ((s0 :: rest).map GameTree.black_win_probability)) (s0 :: rest) := rfl
      rw [hupd]
      refine ⟨⟨rfl, rfl, rfl, rfl⟩, ?_, ?_, ?_⟩
      · intro h
        simp [GameTree.is_red_move] at h
      · intro _
        constructor
        · exact listMax_isPyMax _ hne2
        · exact ⟨_, (mergeSort_desc _).1, (mergeSort_desc _).2, rfl⟩
      · have hdiv := take_sum_div_bounds _ hne hbr2
        obtain ⟨hmem, -⟩ := listMax_isPyMax _ hne2
        exact ⟨hdiv.1, hdiv.2, (hbb2 _ hmem).1, (hbb2 _ hmem).2⟩
    · have hupd : updateWinProbabilities (GameTree.mk m true p r bq (s0 :: rest))
          = GameTree.mk m true p
            (listMax ((s0 :: rest).map GameTree.red_win_probability))
            (((((s0 :: rest).map GameTree.black_win_probability).mergeSort
                fun a b => decide (b ≤ a)).take
              ⌈(((s0 :: rest).map GameTree.black_win_probability).length : ℚ)
                * ESTIMATION⌉.toNat).sum
              / (⌈(((s0 :: rest).map GameTree.black_win_probability).length : ℚ)
                * ESTIMATION⌉.toNat : ℚ)) (s0 :: rest) := rfl
      rw [hupd]
      refine ⟨⟨rfl, rfl, rfl, rfl⟩, ?_, ?_, ?_⟩
      · intro _
        constructor
        · exact listMax_isPyMax _ hne
        · exact ⟨_, (mergeSort_desc _).1, (mergeSort_desc _).2, rfl⟩
      · intro h
        simp [GameTree.is_red_move] at h
      · have hdiv := take_sum_div_bounds _ hne2 hbb2
        obtain ⟨hmem, -⟩ := listMax_isPyMax _ hne
        exact ⟨(hbr2 _ hmem).1, (hbr2 _ hmem).2, hdiv.1, hdiv.2⟩

/-- Witness for claim C7: a Red-to-move node with three children; the
updated red probability is the children's maximum. -/
theorem C7_update_win_probabilities_witness :
    (∀ s ∈ (GameTree.mk ['*'] true 0 0 0
        [GameTree.mk ['a'] false 0 (1/2) (1/10) [],
         GameTree.mk ['b'] false 0 (1/5) (2/5) [],
         GameTree.mk ['c'] false 0 (9/10) (3/10) []]).subtrees,
      0 ≤ s.red_win_probability ∧ s.red_win_probability ≤ 1)
    ∧ isPyMax (updateWinProbabilities (GameTree.mk ['*'] true 0 0 0
        [GameTree.mk ['a'] false 0 (1/2) (1/10) [],
         GameTree.mk ['b'] false 0 (1/5) (2/5) [],
         GameTree.mk ['c'] false 0 (9/10) (3/10) []])).red_win_probability
      ((GameTree.mk ['*'] true 0 0 0
        [GameTree.mk ['a'] false 0 (1/2) (1/10) [],
         GameTree.mk ['b'] false 0 (1/5) (2/5) [],
         GameTree.mk ['c'] false 0 (9/10) (3/10) []]).subtrees.map
          GameTree.red_win_probability) := by
  have h := C7_update_win_probabilities (GameTree.mk ['*'] true 0 0 0
    [GameTree.mk ['a'] false 0 (1/2) (1/10) [],
     GameTree.mk ['b'] false 0 (1/5) (2/5) [],
     GameTree.mk ['c'] false 0 (9/10) (3/10) []])
    (by with_unfolding_all decide) (by with_unfolding_all decide)
  exact ⟨by with_unfolding_all decide, ((h.2 (by with_unfolding_all decide)).2.1 rfl).1⟩

/-- Claim C8 (counterexample): deserialization rebuilds each node with
`add_subtree`, which re-runs `_update_win_probabilities`; a stored root
probability that disagrees with the value recomputed from the children is
overwritten, so serialize-then-deserialize is not the identity. -/
theorem C8_xml_roundtrip_counterexample :
    xmlToTree (treeToXml (GameTree.mk ['*'] true 0 (9/10) 0
        [GameTree.mk ['a'] false 0 (3/10) 0 []]))
      ≠ GameTree.mk ['*'] true 0 (9/10) 0 [GameTree.mk ['a'] false 0 (3/10) 0 []] := by
  with_unfolding_all decide

/-- `_update_win_probabilities` of an internal node does not depend on the
node's stored probabilities. -/
theorem updateWinProbabilities_ignores (m : List Char) (i : Bool) (p : Int)
    (r b r2 b2 : ℚ) (subs : List GameTree) (hne : subs ≠ []) :
    updateWinProbabilities (.mk m i p r b subs)
      = updateWinProbabilities (.mk m i p r2 b2 subs) := by
  rcases subs with _ | ⟨s0, rest⟩
  · exact absurd rfl hne
  · rfl

/-- `_update_win_probabilities` of an internal node changes only the two
probability fields. -/
theorem updateWinProbabilities_shape (m : List Char) (i : Bool) (p : Int) (r b : ℚ)
    (subs : List GameTree) (hne : subs ≠ []) :
    ∃ R B, updateWinProbabilities (.mk m i p r b subs) = .mk m i p R B subs := by
  rcases subs with _ | ⟨s0, rest⟩
  · exact absurd rfl hne
  · cases i <;> exact ⟨_, _, rfl⟩

/-- Folding `add_subtree` over a nonempty to-do list appends all the trees
and leaves the parent's probabilities as recomputed by the last call. -/
theorem foldl_addSubtree (m : List Char) (i : Bool) (p : Int) :
    ∀ (todo : List GameTree) (r b : ℚ) (done : List GameTree), todo ≠ [] →
    todo.foldl addSubtree (.mk m i p r b done)
      = updateWinProbabilities (.mk m i p r b (done ++ todo))
  | [], _, _, _, h => absurd rfl h
  | c :: cs, r, b, done, _ => by
    rw [List.foldl_cons]
    have h1 : addSubtree (.mk m i p r b done) c
        = updateWinProbabilities (.mk m i p r b (done ++ [c])) := rfl
    rcases cs with _ | ⟨c2, cs2⟩
    · simp only [List.foldl_nil]
      exact h1
    · obtain ⟨R, B, hRB⟩ :=
        updateWinProbabilities_shape m i p r b (done ++ [c]) (by simp)
      rw [h1, hRB, foldl_addSubtree m i p (c2 :: cs2) R B (done ++ [c]) (by simp)]
      rw [updateWinProbabilities_ignores m i p R B r b ((done ++ [c]) ++ c2 :: cs2) (by simp)]
      rw [List.append_assoc]
      rfl

mutual

/-- Deserializing the serialization of a probability-consistent tree
rebuilds the tree itself. -/
theorem xmlToTree_treeToXml : ∀ t : GameTree, probsConsistent t = true →
    xmlToTree (treeToXml t) = t
  | .mk m i p r b subs, h => by
    simp only [probsConsistent, Bool.and_eq_true, beq_iff_eq] at h
    have hbs : buildSubtrees (treesToElems subs) = subs :=
      buildSubtrees_treesToElems subs h.2
    rw [treeToXml, xmlToTree, hbs]
    rcases subs with _ | ⟨s0, rest⟩
    · rfl
    · rw [foldl_addSubtree m i p (s0 :: rest) r b [] (by simp)]
      simpa using h.1

/-- `xmlToTree_treeToXml` for every tree of a list. -/
theorem buildSubtrees_treesToElems : ∀ l : List GameTree, probsAllConsistent l = true →
    buildSubtrees (treesToElems l) = l
  | [], _ => rfl
  | t :: ts, h => by
    simp only [probsAllConsistent, Bool.and_eq_true] at h
    rw [treesToElems, buildSubtrees, xmlToTree_treeToXml t h.1,
      buildSubtrees_treesToElems ts h.2]

end

/-- Claim C8 (amended): for every game tree whose stored win probabilities
are consistent with the values `_update_win_probabilities` recomputes,
serializing with `tree_to_xml` and deserializing with `xml_to_tree`
reproduces the tree exactly (same structure and scalar fields at every
node).  Consistency is the amendment: deserialization recomputes every
internal node's probabilities, so inconsistent stored values are not
reproduced. -/
theorem C8_xml_roundtrip_amended (t : GameTree) (h : probsConsistent t = true) :
    xmlToTree (treeToXml t) = t :=
  xmlToTree_treeToXml t h

/-- Witness for the amended claim C8: a consistent two-node tree
round-trips to itself. -/
theorem C8_xml_roundtrip_amended_witness :
    probsConsistent (GameTree.mk ['*'] true 0 1 0 [GameTree.mk ['a'] false 5 1 0 []]) = true
    ∧ xmlToTree (treeToXml (GameTree.mk ['*'] true 0 1 0
        [GameTree.mk ['a'] false 5 1 0 []]))
      = GameTree.mk ['*'] true 0 1 0 [GameTree.mk ['a'] false 5 1 0 []] :=
  ⟨by with_unfolding_all decide,
   C8_xml_roundtrip_amended (GameTree.mk ['*'] true 0 1 0
     [GameTree.mk ['a'] false 5 1 0 []]) (by with_unfolding_all decide)⟩

/-- Claim C9 (counterexample): merging a childless root with a tree whose
three children carry the same move leaves two duplicate children (the
stale pre-loop move list admits all three, and the purge loop's
remove-while-iterating skips one), and a second identical merge changes
the tree again. -/
theorem C9_merge_counterexample :
    (mergeWith 20 (GameTree.mk ['*'] true 0 0 0 [])
        (GameTree.mk ['*'] true 0 0 0
          [GameTree.mk ['a'] false 1 1 0 [], GameTree.mk ['a'] false 1 1 0 [],
           GameTree.mk ['a'] false 1 1 0 []])).map (fun r => r.subtrees.map GameTree.move)
      = some [['a'], ['a']]
    ∧ (mergeWith 20 (GameTree.mk ['*'] true 0 0 0 [])
        (GameTree.mk ['*'] true 0 0 0
          [GameTree.mk ['a'] false 1 1 0 [], GameTree.mk ['a'] false 1 1 0 [],
           GameTree.mk ['a'] false 1 1 0 []])).bind
        (fun r => mergeWith 20 r (GameTree.mk ['*'] true 0 0 0
          [GameTree.mk ['a'] false 1 1 0 [], GameTree.mk ['a'] false 1 1 0 [],
           GameTree.mk ['a'] false 1 1 0 []]))
      ≠ mergeWith 20 (GameTree.mk ['*'] true 0 0 0 [])
        (GameTree.mk ['*'] true 0 0 0
          [GameTree.mk ['a'] false 1 1 0 [], GameTree.mk ['a'] false 1 1 0 [],
           GameTree.mk ['a'] false 1 1 0 []]) := by
  with_unfolding_all decide

/-- `_update_win_probabilities` keeps the move, the mover flag and the
subtree list. -/
theorem updateWinProbabilities_fields (t : GameTree) :
    (updateWinProbabilities t).move = t.move
      ∧ (updateWinProbabilities t).is_red_move = t.is_red_move
      ∧ (updateWinProbabilities t).subtrees = t.subtrees := by
  rcases t with ⟨m, i, p, r, b, subs⟩
  rcases subs with _ | ⟨s0, rest⟩
  · exact ⟨rfl, rfl, rfl⟩
  · cases i <;> exact ⟨rfl, rfl, rfl⟩

/-- `nodupForest` is `nodupTree` on every member. -/
theorem nodupForest_iff : ∀ subs : List GameTree,
    nodupForest subs = true ↔ ∀ c ∈ subs, nodupTree c = true
  | [] => by simp [nodupForest]
  | t :: ts => by
    rw [nodupForest, Bool.and_eq_true, nodupForest_iff ts]
    simp

/-- Unfolding of `nodupTree` at a node. -/
theorem nodupTree_parts {t : GameTree} (h : nodupTree t = true) :
    (t.subtrees.map GameTree.move).Nodup ∧ ∀ c ∈ t.subtrees, nodupTree c = true := by
  rcases t with ⟨m, i, p, r, b, subs⟩
  rw [nodupTree, Bool.and_eq_true, decide_eq_true_eq, nodupForest_iff] at h
  exact h

/-- Reassembling of `nodupTree` at a node. -/
theorem nodupTree_build {t : GameTree}
    (h1 : (t.subtrees.map GameTree.move).Nodup)
    (h2 : ∀ c ∈ t.subtrees, nodupTree c = true) : nodupTree t = true := by
  rcases t with ⟨m, i, p, r, b, subs⟩
  rw [nodupTree, Bool.and_eq_true, decide_eq_true_eq, nodupForest_iff]
  exact ⟨h1, h2⟩

/-- `_update_win_probabilities` preserves duplicate-freeness. -/
theorem nodupTree_update (t : GameTree) :
    nodupTree (updateWinProbabilities t) = nodupTree t := by
  rcases t with ⟨m, i, p, r, b, subs⟩
  rcases subs with _ | ⟨s0, rest⟩
  · rfl
  · cases i <;> rfl

/-- The per-child reevaluation step keeps the move and
duplicate-freeness. -/
theorem revalNode_fields (c : GameTree) :
    (revalNode c).move = c.move ∧ nodupTree (revalNode c) = nodupTree c := by
  rcases c with ⟨m, i, p, r, b, subs⟩
  rcases subs with _ | ⟨s0, rest⟩
  · exact ⟨rfl, rfl⟩
  · cases i <;> exact ⟨rfl, rfl⟩

/-- `add_subtree` appends the child and keeps the move. -/
theorem addSubtree_fields (t o : GameTree) :
    (addSubtree t o).move = t.move ∧ (addSubtree t o).subtrees = t.subtrees ++ [o] := by
  rcases t with ⟨m, i, p, r, b, subs⟩
  rw [addSubtree]
  have h := updateWinProbabilities_fields (.mk m i p r b (subs ++ [o]))
  exact ⟨h.1, h.2.2⟩

/-- `withSubtrees` with the tree's own subtrees is the tree. -/
theorem withSubtrees_self (t : GameTree) : t.withSubtrees t.subtrees = t := by
  rcases t with ⟨m, i, p, r, b, subs⟩
  rfl

/-- Fields of `withSubtrees`. -/
theorem withSubtrees_fields (t : GameTree) (subs : List GameTree) :
    (t.withSubtrees subs).move = t.move ∧ (t.withSubtrees subs).subtrees = subs := by
  rcases t with ⟨m, i, p, r, b, s⟩
  exact ⟨rfl, rfl⟩

/-- Setting an index to its current value leaves a list unchanged. -/
theorem set_getElem_self {α : Type} : ∀ (l : List α) (i : Nat) (a : α),
    l[i]? = some a → l.set i a = l
  | [], i, a, h => by simp at h
  | x :: xs, 0, a, h => by
    simp at h
    rw [h]
    rfl
  | x :: xs, i + 1, a, h => by
    simp at h
    rw [List.set_cons_succ, set_getElem_self xs i a h]

/-- Members of `l.set i a` are `a` or members of `l`. -/
theorem mem_of_mem_set {α : Type} : ∀ {l : List α} {i : Nat} {a x : α},
    x ∈ l.set i a → x = a ∨ x ∈ l := by
  intro l
  induction l with
  | nil =>
    intro i a x h
    simp at h
  | cons y ys ih =>
    intro i a x h
    rcases i with _ | j
    · rcases List.mem_cons.mp h with rfl | h
      · exact Or.inl rfl
      · exact Or.inr (List.mem_cons_of_mem y h)
    · rcases List.mem_cons.mp h with rfl | h
      · exact Or.inr (List.mem_cons_self _ _)
      · rcases ih h with h | h
        · exact Or.inl h
        · exact Or.inr (List.mem_cons_of_mem y h)

/-- In a duplicate-free list the element at index `i` does not occur
before index `i`. -/
theorem nodup_take_not_mem {α : Type} : ∀ (l : List α) (i : Nat) (a : α),
    l.Nodup → l[i]? = some a → a ∉ l.take i
  | [], i, a, _, ha => by simp at ha
  | x :: xs, 0, a, _, _ => by simp
  | x :: xs, i + 1, a, hnd, ha => by
    simp only [List.getElem?_cons_succ] at ha
    rw [List.take_succ_cons]
    intro hmem
    rcases List.mem_cons.mp hmem with rfl | hmem
    · exact (List.nodup_cons.mp hnd).1 (List.getElem?_mem ha)
    · exact nodup_take_not_mem xs i a (List.nodup_cons.mp hnd).2 ha hmem

/-- The merge/reevaluate/purge cluster preserves duplicate-freeness and
the root move (fuel-indexed soundness invariant over all six mutually
recursive loops). -/
theorem mergeInv : ∀ fuel : Nat,
    (∀ t o r, mergeWith fuel t o = some r → nodupTree t = true → nodupTree o = true →
      nodupTree r = true ∧ r.move = t.move)
    ∧ (∀ moves os t r, mergeLoop fuel moves os t = some r →
        nodupTree t = true → (∀ x ∈ os, nodupTree x = true) →
        (os.map GameTree.move).Nodup →
        (∀ x ∈ os, x.move ∉ moves → x.move ∉ t.subtrees.map GameTree.move) →
        nodupTree r = true ∧ r.move = t.move)
    ∧ (∀ t r, reevaluate fuel t = some r → nodupTree t = true →
        nodupTree r = true ∧ r.move = t.move)
    ∧ (∀ cs rs, revalChildren fuel cs = some rs → (∀ c ∈ cs, nodupTree c = true) →
        rs.map GameTree.move = cs.map GameTree.move ∧ ∀ c ∈ rs, nodupTree c = true)
    ∧ (∀ t r, purge fuel t = some r → nodupTree t = true → r = t)
    ∧ (∀ i acc subs r, purgeLoop fuel i acc subs = some r →
        (subs.map GameTree.move).Nodup → acc = (subs.take i).map GameTree.move →
        r = subs) := by
  intro fuel
  induction fuel with
  | zero =>
    refine ⟨fun t o r h => ?_, fun moves os t r h => ?_, fun t r h => ?_,
      fun cs rs h => ?_, fun t r h => ?_, fun i acc subs r h => ?_⟩
    · simp [mergeWith] at h
    · simp [mergeLoop] at h
    · simp [reevaluate] at h
    · simp [revalChildren] at h
    · simp [purge] at h
    · simp [purgeLoop] at h
  | succ n ih =>
    obtain ⟨ihM, ihL, ihR, ihC, ihP, ihPL⟩ := ih
    refine ⟨?_, ?_, ?_, ?_, ?_, ?_⟩
    · -- mergeWith
      intro t o r h hnt hno
      rw [mergeWith] at h
      split at h
      · rename_i hmv
        rcases hml : mergeLoop n (t.subtrees.map GameTree.move) o.subtrees t with _ | t1
        · simp only [hml] at h
          exact Option.noConfusion h
        · simp only [hml] at h
          obtain ⟨hpo, hpm⟩ := nodupTree_parts hno
          obtain ⟨hn1, hm1⟩ := ihL _ _ _ _ hml hnt hpm hpo (fun x _ hx => hx)
          obtain ⟨hn2, hm2⟩ := ihR _ _ h hn1
          exact ⟨hn2, hm2.trans hm1⟩
      · exact absurd h (by simp)
    · -- mergeLoop
      intro moves os t r h hnt hos hosnd hH
      rcases os with _ | ⟨o, rest⟩
      · simp only [mergeLoop] at h
        injection h with h2
        subst h2
        exact ⟨hnt, rfl⟩
      · simp only [mergeLoop] at h
        simp only [List.map_cons] at hosnd
        split at h
        · rename_i hmem
          rcases hidx : t.subtrees[moves.indexOf o.move]? with _ | child
          · simp only [hidx] at h
            exact Option.noConfusion h
          · simp only [hidx] at h
            rcases hmw : mergeWith n child o with _ | merged
            · simp only [hmw] at h
              exact Option.noConfusion h
            · simp only [hmw] at h
              have hchild : child ∈ t.subtrees := List.getElem?_mem hidx
              obtain ⟨hndm, hcn⟩ := nodupTree_parts hnt
              obtain ⟨hmn, hmm⟩ := ihM _ _ _ hmw (hcn child hchild)
                (hos o (List.mem_cons_self o rest))
              have hset : (t.subtrees.set (moves.indexOf o.move) merged).map GameTree.move
                  = t.subtrees.map GameTree.move := by
                rw [List.map_set]
                apply set_getElem_self
                rw [List.getElem?_map, hidx]
                simp [hmm]
              have ht2f := withSubtrees_fields t (t.subtrees.set (moves.indexOf o.move) merged)
              have hnt2 : nodupTree
                  (t.withSubtrees (t.subtrees.set (moves.indexOf o.move) merged)) = true := by
                apply nodupTree_build
                · rw [ht2f.2, hset]
                  exact hndm
                · intro c hc
                  rw [ht2f.2] at hc
                  rcases mem_of_mem_set hc with rfl | hc
                  · exact hmn
                  · exact hcn c hc
              have hH2 : ∀ x ∈ rest, x.move ∉ moves →
                  x.move ∉ (t.withSubtrees
                    (t.subtrees.set (moves.indexOf o.move) merged)).subtrees.map
                      GameTree.move := by
                intro x hx hxm
                rw [ht2f.2, hset]
                exact hH x (List.mem_cons_of_mem o hx) hxm
              obtain ⟨hrn, hrm⟩ := ihL _ _ _ _ h hnt2
                (fun x hx => hos x (List.mem_cons_of_mem o hx))
                (List.nodup_cons.mp hosnd).2 hH2
              exact ⟨hrn, hrm.trans ht2f.1⟩
        · rename_i hnm
          have haf := addSubtree_fields t o
          obtain ⟨hndm, hcn⟩ := nodupTree_parts hnt
          have hnew : o.move ∉ t.subtrees.map GameTree.move :=
            hH o (List.mem_cons_self o rest) hnm
          have hna : nodupTree (addSubtree t o) = true := by
            apply nodupTree_build
            · rw [haf.2, List.map_append]
              simp only [List.map_cons, List.map_nil]
              refine List.Nodup.append hndm (by simp) ?_
              intro x hx1 hx2
              simp only [List.mem_singleton] at hx2
              subst hx2
              exact hnew hx1
            · intro c hc
              rw [haf.2] at hc
              rcases List.mem_append.mp hc with hc | hc
              · exact hcn c hc
              · simp only [List.mem_singleton] at hc
                subst hc
                exact hos _ (List.mem_cons_self _ _)
          have hH3 : ∀ x ∈ rest, x.move ∉ moves →
              x.move ∉ (addSubtree t o).subtrees.map GameTree.move := by
            intro x hx hxm
            rw [haf.2, List.map_append]
            simp only [List.map_cons, List.map_nil]
            rw [List.mem_append]
            rintro (hmem | hmem)
            · exact hH x (List.mem_cons_of_mem o hx) hxm hmem
            · simp only [List.mem_singleton] at hmem
              exact (List.nodup_cons.mp hosnd).1
                (hmem ▸ List.mem_map_of_mem GameTree.move hx)
          obtain ⟨hrn, hrm⟩ := ihL _ _ _ _ h hna
            (fun x hx => hos x (List.mem_cons_of_mem o hx))
            (List.nodup_cons.mp hosnd).2 hH3
          exact ⟨hrn, hrm.trans haf.1⟩
    · -- reevaluate
      intro t r h hnt
      rw [reevaluate] at h
      rcases hp : purge n t with _ | t1
      · simp only [hp] at h
        exact Option.noConfusion h
      · simp only [hp] at h
        rw [ihP _ _ hp hnt] at h
        rcases hls : t.subtrees with _ | ⟨c0, cs0⟩
        · simp only [hls] at h
          injection h with h2
          subst h2
          exact ⟨hnt, rfl⟩
        · simp only [hls] at h
          rcases hrc : revalChildren n (c0 :: cs0) with _ | subs2
          · simp only [hrc] at h
            exact Option.noConfusion h
          · simp only [hrc] at h
            injection h with h2
            subst h2
            obtain ⟨hndm, hcn⟩ := nodupTree_parts hnt
            have hcall := ihC _ _ hrc (by rw [hls] at hcn; exact hcn)
            have hwf := withSubtrees_fields t subs2
            refine ⟨nodupTree_build ?_ ?_, hwf.1⟩
            · rw [hwf.2, hcall.1, ← hls]
              exact hndm
            · intro c hc
              rw [hwf.2] at hc
              exact hcall.2 c hc
    · -- revalChildren
      intro cs rs h hcs
      rcases cs with _ | ⟨c, cs2⟩
      · simp only [revalChildren] at h
        injection h with h2
        subst h2
        exact ⟨rfl, by simp⟩
      · simp only [revalChildren] at h
        rcases hre : reevaluate n c with _ | c1
        · simp only [hre] at h
          exact Option.noConfusion h
        · simp only [hre] at h
          rcases hrc : revalChildren n cs2 with _ | rest2
          · simp only [hrc] at h
            exact Option.noConfusion h
          · simp only [hrc] at h
            injection h with h2
            subst h2
            obtain ⟨hc1n, hc1m⟩ := ihR _ _ hre (hcs c (List.mem_cons_self _ _))
            obtain ⟨hrm, hrn⟩ := ihC _ _ hrc (fun x hx => hcs x (List.mem_cons_of_mem c hx))
            have hrv := revalNode_fields c1
            constructor
            · simp only [List.map_cons]
              rw [hrv.1, hc1m, hrm]
            · intro x hx
              rcases List.mem_cons.mp hx with rfl | hx
              · rw [hrv.2]
                exact hc1n
              · exact hrn x hx
    · -- purge
      intro t r h hnt
      rw [purge] at h
      rcases hpl : purgeLoop n 0 [] t.subtrees with _ | subs2
      · simp only [hpl] at h
        exact Option.noConfusion h
      · simp only [hpl] at h
        injection h with h2
        subst h2
        obtain rfl : subs2 = t.subtrees :=
          ihPL _ _ _ _ hpl (nodupTree_parts hnt).1 (by simp)
        exact withSubtrees_self t
    · -- purgeLoop
      intro i acc subs r h hnd hacc
      rw [purgeLoop] at h
      rcases hsi : subs[i]? with _ | st
      · simp only [hsi] at h
        injection h with h2
        exact h2.symm
      · simp only [hsi] at h
        split at h
        · rename_i hmem
          exfalso
          have hgm : (subs.map GameTree.move)[i]? = some st.move := by
            rw [List.getElem?_map, hsi]
            rfl
          apply nodup_take_not_mem (subs.map GameTree.move) i st.move hnd hgm
          rw [← List.map_take, ← hacc]
          exact hmem
        · rename_i hnm
          apply ihPL _ _ _ _ h hnd
          rw [List.take_succ, hsi, List.map_append, ← hacc]
          rfl

/-- `revalNode` keeps the subtree list. -/
theorem revalNode_subtrees (c : GameTree) : (revalNode c).subtrees = c.subtrees := by
  rcases c with ⟨m, i, p, r, b, subs⟩
  rcases subs with _ | ⟨s0, rest⟩
  · rfl
  · cases i <;> rfl

/-- The per-child reevaluation step is idempotent: it recomputes the
probabilities and points from the (unchanged) children. -/
theorem revalNode_idem (c : GameTree) : revalNode (revalNode c) = revalNode c := by
  rcases c with ⟨m, i, p, r, b, subs⟩
  rcases subs with _ | ⟨s0, rest⟩
  · rfl
  · cases i <;> rfl

/-- `stableForest` is `stableTree`-with-fixpoint on every member. -/
theorem stableForest_iff : ∀ l : List GameTree,
    stableForest l ↔ ∀ c ∈ l, stableTree c ∧ revalNode c = c
  | [] => by simp [stableForest]
  | c :: cs => by
    rw [stableForest, stableForest_iff cs, List.forall_mem_cons]

/-- Unfolding of `stableTree` at a node. -/
theorem stableTree_iff (t : GameTree) :
    stableTree t ↔ ∀ c ∈ t.subtrees, stableTree c ∧ revalNode c = c := by
  rcases t with ⟨m, i, p, r, b, subs⟩
  rw [stableTree, stableForest_iff]
  rfl

/-- `revalNode` preserves stability (it only changes root scalars). -/
theorem stableTree_revalNode {c : GameTree} (h : stableTree c) :
    stableTree (revalNode c) := by
  rw [stableTree_iff, revalNode_subtrees]
  rw [stableTree_iff] at h
  exact h

/-- `absorbedForest` is `absorbedIn` on every member. -/
theorem absorbedForest_iff : ∀ (l : List GameTree) (t : GameTree),
    absorbedForest l t ↔ ∀ oc ∈ l, ∃ tc ∈ t.subtrees, tc.move = oc.move ∧ absorbedIn oc tc
  | [], t => by simp [absorbedForest]
  | oc :: ocs, t => by
    rw [absorbedForest, absorbedForest_iff ocs, List.forall_mem_cons]

/-- Unfolding of `absorbedIn` at a node. -/
theorem absorbedIn_iff (o t : GameTree) :
    absorbedIn o t ↔ ∀ oc ∈ o.subtrees, ∃ tc ∈ t.subtrees, tc.move = oc.move
      ∧ absorbedIn oc tc := by
  rcases o with ⟨m, i, p, r, b, osubs⟩
  rw [absorbedIn, absorbedForest_iff]
  rfl

/-- `absorbedIn` only inspects the host's subtree list. -/
theorem absorbedIn_of_subtrees_eq {o t u : GameTree} (hsub : u.subtrees = t.subtrees)
    (h : absorbedIn o t) : absorbedIn o u := by
  rw [absorbedIn_iff] at h ⊢
  rw [hsub]
  exact h

mutual

/-- A tree is absorbed into itself. -/
theorem absorbedIn_refl : ∀ t : GameTree, absorbedIn t t
  | .mk m i p r b subs =>
    (absorbedIn_iff _ _).mpr fun oc hoc =>
      ⟨oc, hoc, rfl, absorbedList_refl subs oc hoc⟩

/-- `absorbedIn_refl` for the members of a list. -/
theorem absorbedList_refl : ∀ l : List GameTree, ∀ c ∈ l, absorbedIn c c
  | [], c, h => absurd h (by simp)
  | x :: xs, c, h => by
    rcases List.mem_cons.mp h with rfl | h
    · exact absorbedIn_refl c
    · exact absorbedList_refl xs c h

end

/-- A `merge_with` call that returns passed its root-move assertion. -/
theorem mergeWith_move_guard : ∀ {fuel : Nat} {t o r : GameTree},
    mergeWith fuel t o = some r → t.move = o.move := by
  intro fuel t o r h
  rcases fuel with _ | n
  · simp [mergeWith] at h
  · rw [mergeWith] at h
    split at h
    · rename_i hmv
      exact hmv
    · exact absurd h (by simp)

/-- The value written by `set` is a member when the index is in range. -/
theorem mem_set_self {α : Type} : ∀ (l : List α) (i : Nat) (b a : α),
    l[i]? = some b → a ∈ l.set i a
  | [], i, b, a, h => by simp at h
  | x :: xs, 0, b, a, _ => by
    rw [List.set_cons_zero]
    exact List.mem_cons_self a xs
  | x :: xs, i + 1, b, a, h => by
    simp only [List.getElem?_cons_succ] at h
    rw [List.set_cons_succ]
    exact List.mem_cons_of_mem x (mem_set_self xs i b a h)

/-- A member different from the overwritten element survives a `set`. -/
theorem mem_set_of_ne {α : Type} : ∀ (l : List α) (i : Nat) (b c x : α),
    l[i]? = some b → c ∈ l → c ≠ b → c ∈ l.set i x
  | [], i, b, c, x, h, _, _ => by simp at h
  | y :: ys, 0, b, c, x, h, hc, hne => by
    simp only [List.getElem?_cons_zero, Option.some.injEq] at h
    subst h
    rw [List.set_cons_zero]
    rcases List.mem_cons.mp hc with rfl | hc
    · exact absurd rfl hne
    · exact List.mem_cons_of_mem x hc
  | y :: ys, i + 1, b, c, x, h, hc, hne => by
    simp only [List.getElem?_cons_succ] at h
    rw [List.set_cons_succ]
    rcases List.mem_cons.mp hc with rfl | hc
    · exact List.mem_cons_self c _
    · exact List.mem_cons_of_mem y (mem_set_of_ne ys i b c x h hc hne)

/-- In a list with duplicate-free images, equal images mean equal
elements. -/
theorem nodup_map_inj {α β : Type} (f : α → β) : ∀ (l : List α) (a c : α),
    (l.map f).Nodup → a ∈ l → c ∈ l → f a = f c → a = c
  | [], a, c, _, ha, _, _ => absurd ha (by simp)
  | x :: xs, a, c, hnd, ha, hc, hf => by
    simp only [List.map_cons, List.nodup_cons] at hnd
    rcases List.mem_cons.mp ha with h1 | h1
    · rcases List.mem_cons.mp hc with h2 | h2
      · rw [h1, h2]
      · exfalso
        apply hnd.1
        rw [h1] at hf
        rw [hf]
        exact List.mem_map_of_mem f h2
    · rcases List.mem_cons.mp hc with h2 | h2
      · exfalso
        apply hnd.1
        rw [h2] at hf
        rw [← hf]
        exact List.mem_map_of_mem f h1
      · exact nodup_map_inj f xs a c hnd.2 h1 h2 hf

/-- `indexOf` of a member looks the member up again. -/
theorem indexOf_getElem {α : Type} [BEq α] [LawfulBEq α] : ∀ (l : List α) (a : α),
    a ∈ l → l[l.indexOf a]? = some a
  | [], a, h => absurd h (by simp)
  | x :: xs, a, h => by
    rw [List.indexOf_cons]
    by_cases hxa : x == a
    · have : x = a := by simpa using hxa
      subst this
      simp [hxa]
    · rw [Bool.cond_eq_if, if_neg (by simpa using hxa)]
      have ha : a ∈ xs := by
        rcases List.mem_cons.mp h with rfl | h2
        · exact absurd (by simp) hxa
        · exact h2
      simpa using indexOf_getElem xs a ha

/-- Forward member extraction from a pointwise list relation. -/
theorem forall₂_mem_left {α β : Type} {R : α → β → Prop} :
    ∀ {as : List α} {bs : List β}, List.Forall₂ R as bs →
      ∀ a ∈ as, ∃ b ∈ bs, R a b := by
  intro as bs h
  induction h with
  | nil =>
    intro a ha
    exact absurd ha (by simp)
  | cons hR _ ih =>
    intro a ha
    rcases List.mem_cons.mp ha with rfl | ha
    · exact ⟨_, List.mem_cons_self _ _, hR⟩
    · obtain ⟨b, hb, hRb⟩ := ih a ha
      exact ⟨b, List.mem_cons_of_mem _ hb, hRb⟩

/-- Backward member extraction from a pointwise list relation. -/
theorem forall₂_mem_right {α β : Type} {R : α → β → Prop} :
    ∀ {as : List α} {bs : List β}, List.Forall₂ R as bs →
      ∀ b ∈ bs, ∃ a ∈ as, R a b := by
  intro as bs h
  induction h with
  | nil =>
    intro b hb
    exact absurd hb (by simp)
  | cons hR _ ih =>
    intro b hb
    rcases List.mem_cons.mp hb with rfl | hb
    · exact ⟨_, List.mem_cons_self _ _, hR⟩
    · obtain ⟨a, ha, hRa⟩ := ih b hb
      exact ⟨a, List.mem_cons_of_mem _ ha, hRa⟩

/-- After a merge, the other tree is absorbed into the result and the
result is reevaluation-stable (fuel-indexed invariant over the four loops
involved). -/
theorem mergeAbsorb : ∀ fuel : Nat,
    (∀ t o r, mergeWith fuel t o = some r → nodupTree t = true → nodupTree o = true →
      stableTree r ∧ absorbedIn o r)
    ∧ (∀ moves os t r, mergeLoop fuel moves os t = some r →
        nodupTree t = true → (∀ x ∈ os, nodupTree x = true) →
        (os.map GameTree.move).Nodup →
        (∀ x ∈ os, x.move ∉ moves → x.move ∉ t.subtrees.map GameTree.move) →
        (∀ oc ∈ os, ∃ rc ∈ r.subtrees, rc.move = oc.move ∧ absorbedIn oc rc)
          ∧ (∀ c ∈ t.subtrees, c.move ∉ os.map GameTree.move → c ∈ r.subtrees))
    ∧ (∀ t r, reevaluate fuel t = some r → nodupTree t = true →
        (∀ q, absorbedIn q t → absorbedIn q r) ∧ stableTree r)
    ∧ (∀ cs rs, revalChildren fuel cs = some rs → (∀ c ∈ cs, nodupTree c = true) →
        List.Forall₂ (fun c rc => rc.move = c.move
          ∧ (∀ q, absorbedIn q c → absorbedIn q rc)
          ∧ stableTree rc ∧ revalNode rc = rc) cs rs) := by
  intro fuel
  induction fuel with
  | zero =>
    refine ⟨fun t o r h => ?_, fun moves os t r h => ?_, fun t r h => ?_,
      fun cs rs h => ?_⟩
    · simp [mergeWith] at h
    · simp [mergeLoop] at h
    · simp [reevaluate] at h
    · simp [revalChildren] at h
  | succ n ih =>
    obtain ⟨ihM, ihL, ihR, ihC⟩ := ih
    refine ⟨?_, ?_, ?_, ?_⟩
    · -- mergeWith
      intro t o r h hnt hno
      rw [mergeWith] at h
      split at h
      · rename_i hmv
        rcases hml : mergeLoop n (t.subtrees.map GameTree.move) o.subtrees t with _ | t1
        · simp only [hml] at h
          exact Option.noConfusion h
        · simp only [hml] at h
          obtain ⟨hpo, hpm⟩ := nodupTree_parts hno
          have hnt1 : nodupTree t1 = true :=
            ((mergeInv n).2.1 _ _ _ _ hml hnt hpm hpo (fun x _ hx => hx)).1
          obtain ⟨habs1, -⟩ := ihL _ _ _ _ hml hnt hpm hpo (fun x _ hx => hx)
          obtain ⟨htrans, hst⟩ := ihR _ _ h hnt1
          exact ⟨hst, htrans o ((absorbedIn_iff o t1).mpr habs1)⟩
      · exact absurd h (by simp)
    · -- mergeLoop
      intro moves os t r h hnt hos hosnd hH
      rcases os with _ | ⟨o, rest⟩
      · simp only [mergeLoop] at h
        injection h with h2
        subst h2
        exact ⟨fun oc hoc => absurd hoc (by simp), fun c hc _ => hc⟩
      · simp only [mergeLoop] at h
        simp only [List.map_cons] at hosnd
        split at h
        · rename_i hmem
          rcases hidx : t.subtrees[moves.indexOf o.move]? with _ | child
          · simp only [hidx] at h
            exact Option.noConfusion h
          · simp only [hidx] at h
            rcases hmw : mergeWith n child o with _ | merged
            · simp only [hmw] at h
              exact Option.noConfusion h
            · simp only [hmw] at h
              have hchild : child ∈ t.subtrees := List.getElem?_mem hidx
              obtain ⟨hndm, hcn⟩ := nodupTree_parts hnt
              obtain ⟨hmn, hmm⟩ := (mergeInv n).1 _ _ _ hmw (hcn child hchild)
                (hos o (List.mem_cons_self o rest))
              have hcm : child.move = o.move := mergeWith_move_guard hmw
              have hmm2 : merged.move = o.move := hmm.trans hcm
              have hset : (t.subtrees.set (moves.indexOf o.move) merged).map GameTree.move
                  = t.subtrees.map GameTree.move := by
                rw [List.map_set]
                apply set_getElem_self
                rw [List.getElem?_map, hidx]
                simp [hmm]
              have ht2f := withSubtrees_fields t
                (t.subtrees.set (moves.indexOf o.move) merged)
              have hnt2 : nodupTree
                  (t.withSubtrees (t.subtrees.set (moves.indexOf o.move) merged)) = true := by
                apply nodupTree_build
                · rw [ht2f.2, hset]
                  exact hndm
                · intro c hc
                  rw [ht2f.2] at hc
                  rcases mem_of_mem_set hc with rfl | hc
                  · exact hmn
                  · exact hcn c hc
              have hH2 : ∀ x ∈ rest, x.move ∉ moves →
                  x.move ∉ (t.withSubtrees
                    (t.subtrees.set (moves.indexOf o.move) merged)).subtrees.map
                      GameTree.move := by
                intro x hx hxm
                rw [ht2f.2, hset]
                exact hH x (List.mem_cons_of_mem o hx) hxm
              obtain ⟨habs2, hframe2⟩ := ihL _ _ _ _ h hnt2
                (fun x hx => hos x (List.mem_cons_of_mem o hx))
                (List.nodup_cons.mp hosnd).2 hH2
              constructor
              · intro oc hoc
                rcases List.mem_cons.mp hoc with heq | hoc
                · have hmemt2 : merged ∈ (t.withSubtrees
                      (t.subtrees.set (moves.indexOf o.move) merged)).subtrees := by
                    rw [ht2f.2]
                    exact mem_set_self _ _ child merged hidx
                  have hmr : merged ∈ r.subtrees := hframe2 merged hmemt2
                    (by rw [hmm2]; exact (List.nodup_cons.mp hosnd).1)
                  refine ⟨merged, hmr, ?_, ?_⟩
                  · rw [heq]
                    exact hmm2
                  · rw [heq]
                    exact (ihM _ _ _ hmw (hcn child hchild)
                      (hos o (List.mem_cons_self o rest))).2
                · exact habs2 oc hoc
              · intro c hc hcm2
                simp only [List.map_cons, List.mem_cons, not_or] at hcm2
                have hnec : c ≠ child := by
                  intro he
                  apply hcm2.1
                  rw [he, hcm]
                have hmemt2 : c ∈ (t.withSubtrees
                    (t.subtrees.set (moves.indexOf o.move) merged)).subtrees := by
                  rw [ht2f.2]
                  exact mem_set_of_ne _ _ child c merged hidx hc hnec
                exact hframe2 c hmemt2 hcm2.2
        · rename_i hnm
          have haf := addSubtree_fields t o
          obtain ⟨hndm, hcn⟩ := nodupTree_parts hnt
          have hnew : o.move ∉ t.subtrees.map GameTree.move :=
            hH o (List.mem_cons_self o rest) hnm
          have hna : nodupTree (addSubtree t o) = true := by
            apply nodupTree_build
            · rw [haf.2, List.map_append]
              simp only [List.map_cons, List.map_nil]
              refine List.Nodup.append hndm (by simp) ?_
              intro x hx1 hx2
              simp only [List.mem_singleton] at hx2
              subst hx2
              exact hnew hx1
            · intro c hc
              rw [haf.2] at hc
              rcases List.mem_append.mp hc with hc | hc
              · exact hcn c hc
              · simp only [List.mem_singleton] at hc
                subst hc
                exact hos _ (List.mem_cons_self _ _)
          have hH3 : ∀ x ∈ rest, x.move ∉ moves →
              x.move ∉ (addSubtree t o).subtrees.map GameTree.move := by
            intro x hx hxm
            rw [haf.2, List.map_append]
            simp only [List.map_cons, List.map_nil]
            rw [List.mem_append]
            rintro (hmem2 | hmem2)
            · exact hH x (List.mem_cons_of_mem o hx) hxm hmem2
            · simp only [List.mem_singleton] at hmem2
              exact (List.nodup_cons.mp hosnd).1
                (hmem2 ▸ List.mem_map_of_mem GameTree.move hx)
          obtain ⟨habs2, hframe2⟩ := ihL _ _ _ _ h hna
            (fun x hx => hos x (List.mem_cons_of_mem o hx))
            (List.nodup_cons.mp hosnd).2 hH3
          constructor
          · intro oc hoc
            rcases List.mem_cons.mp hoc with heq | hoc
            · have hmemt2 : o ∈ (addSubtree t o).subtrees := by
                rw [haf.2]
                exact List.mem_append_right _ (List.mem_singleton.mpr rfl)
              have hmr : o ∈ r.subtrees :=
                hframe2 o hmemt2 (List.nodup_cons.mp hosnd).1
              refine ⟨o, hmr, ?_, ?_⟩
              · rw [heq]
              · rw [heq]
                exact absorbedIn_refl o
            · exact habs2 oc hoc
          · intro c hc hcm2
            simp only [List.map_cons, List.mem_cons, not_or] at hcm2
            have hmemt2 : c ∈ (addSubtree t o).subtrees := by
              rw [haf.2]
              exact List.mem_append_left _ hc
            exact hframe2 c hmemt2 hcm2.2
    · -- reevaluate
      intro t r h hnt
      rw [reevaluate] at h
      rcases hp : purge n t with _ | t1
      · simp only [hp] at h
        exact Option.noConfusion h
      · simp only [hp] at h
        rw [(mergeInv n).2.2.2.2.1 _ _ hp hnt] at h
        rcases hls : t.subtrees with _ | ⟨c0, cs0⟩
        · simp only [hls] at h
          injection h with h2
          subst h2
          refine ⟨fun q hq => hq, ?_⟩
          rw [stableTree_iff, hls]
          simp
        · simp only [hls] at h
          rcases hrc : revalChildren n (c0 :: cs0) with _ | subs2
          · simp only [hrc] at h
            exact Option.noConfusion h
          · simp only [hrc] at h
            injection h with h2
            subst h2
            obtain ⟨hndm, hcn⟩ := nodupTree_parts hnt
            have hF := ihC _ _ hrc (by rw [hls] at hcn; exact hcn)
            have hwf := withSubtrees_fields t subs2
            constructor
            · intro q hq
              rw [absorbedIn_iff] at hq ⊢
              intro oc hoc
              obtain ⟨tc, htc, htcm, htcabs⟩ := hq oc hoc
              rw [hls] at htc
              obtain ⟨rc, hrcmem, hrel⟩ := forall₂_mem_left hF tc htc
              refine ⟨rc, ?_, ?_, ?_⟩
              · rw [hwf.2]
                exact hrcmem
              · rw [hrel.1, htcm]
              · exact hrel.2.1 oc htcabs
            · rw [stableTree_iff]
              intro c hc
              rw [hwf.2] at hc
              obtain ⟨c2, hc2, hrel⟩ := forall₂_mem_right hF c hc
              exact ⟨hrel.2.2.1, hrel.2.2.2⟩
    · -- revalChildren
      intro cs rs h hcs
      rcases cs with _ | ⟨c, cs2⟩
      · simp only [revalChildren] at h
        injection h with h2
        subst h2
        exact List.Forall₂.nil
      · simp only [revalChildren] at h
        rcases hre : reevaluate n c with _ | c1
        · simp only [hre] at h
          exact Option.noConfusion h
        · simp only [hre] at h
          rcases hrc : revalChildren n cs2 with _ | rest2
          · simp only [hrc] at h
            exact Option.noConfusion h
          · simp only [hrc] at h
            injection h with h2
            subst h2
            obtain ⟨htrans, hst⟩ := ihR _ _ hre (hcs c (List.mem_cons_self _ _))
            have hm1 : c1.move = c.move :=
              ((mergeInv n).2.2.1 _ _ hre (hcs c (List.mem_cons_self _ _))).2
            refine List.Forall₂.cons ⟨?_, ?_, ?_, ?_⟩
              (ihC _ _ hrc (fun x hx => hcs x (List.mem_cons_of_mem c hx)))
            · exact (revalNode_fields c1).1.trans hm1
            · intro q hq
              exact absorbedIn_of_subtrees_eq (revalNode_subtrees c1) (htrans q hq)
            · exact stableTree_revalNode hst
            · exact revalNode_idem c1

/-- A merge whose other tree is already absorbed into a stable,
duplicate-free tree returns the tree unchanged (fuel-indexed invariant
over the four loops involved). -/
theorem mergeIdem : ∀ fuel : Nat,
    (∀ t o r, mergeWith fuel t o = some r → nodupTree t = true → stableTree t →
      absorbedIn o t → r = t)
    ∧ (∀ moves os t r, mergeLoop fuel moves os t = some r →
        moves = t.subtrees.map GameTree.move → nodupTree t = true → stableTree t →
        (∀ oc ∈ os, ∃ tc ∈ t.subtrees, tc.move = oc.move ∧ absorbedIn oc tc) →
        r = t)
    ∧ (∀ t r, reevaluate fuel t = some r → nodupTree t = true → stableTree t → r = t)
    ∧ (∀ cs rs, revalChildren fuel cs = some rs →
        (∀ c ∈ cs, nodupTree c = true ∧ stableTree c ∧ revalNode c = c) → rs = cs) := by
  intro fuel
  induction fuel with
  | zero =>
    refine ⟨fun t o r h => ?_, fun moves os t r h => ?_, fun t r h => ?_,
      fun cs rs h => ?_⟩
    · simp [mergeWith] at h
    · simp [mergeLoop] at h
    · simp [reevaluate] at h
    · simp [revalChildren] at h
  | succ n ih =>
    obtain ⟨ihM, ihL, ihR, ihC⟩ := ih
    refine ⟨?_, ?_, ?_, ?_⟩
    · -- mergeWith
      intro t o r h hnt hst habs
      rw [mergeWith] at h
      split at h
      · rename_i hmv
        rcases hml : mergeLoop n (t.subtrees.map GameTree.move) o.subtrees t with _ | t1
        · simp only [hml] at h
          exact Option.noConfusion h
        · simp only [hml] at h
          rw [ihL _ _ _ _ hml rfl hnt hst ((absorbedIn_iff o t).mp habs)] at h
          exact ihR _ _ h hnt hst
      · exact absurd h (by simp)
    · -- mergeLoop
      intro moves os t r h hmoves hnt hst habs
      rcases os with _ | ⟨o, rest⟩
      · simp only [mergeLoop] at h
        injection h with h2
        exact h2.symm
      · simp only [mergeLoop] at h
        obtain ⟨tc, htc, htcm, htcabs⟩ := habs o (List.mem_cons_self o rest)
        have hin : o.move ∈ moves := by
          rw [hmoves, ← htcm]
          exact List.mem_map_of_mem GameTree.move htc
        rw [if_pos hin] at h
        rcases hidx : t.subtrees[moves.indexOf o.move]? with _ | child
        · simp only [hidx] at h
          exact Option.noConfusion h
        · simp only [hidx] at h
          rcases hmw : mergeWith n child o with _ | merged
          · simp only [hmw] at h
            exact Option.noConfusion h
          · simp only [hmw] at h
            obtain ⟨hndm, hcn⟩ := nodupTree_parts hnt
            have hchild : child ∈ t.subtrees := List.getElem?_mem hidx
            have h1 : moves[moves.indexOf o.move]? = some o.move :=
              indexOf_getElem moves o.move hin
            have h3 : (t.subtrees.map GameTree.move)[moves.indexOf o.move]?
                = some o.move := by
              rw [← hmoves]
              exact h1
            have h4 : Option.map GameTree.move t.subtrees[moves.indexOf o.move]?
                = some o.move := by
              rw [← List.getElem?_map]
              exact h3
            rw [hidx] at h4
            have hcmov : child.move = o.move := by simpa using h4
            have hceq : child = tc := nodup_map_inj GameTree.move t.subtrees child tc hndm
              hchild htc (by rw [hcmov, htcm])
            have hchst := (stableTree_iff t).mp hst child hchild
            have hmerged : merged = child :=
              ihM _ _ _ hmw (hcn child hchild) hchst.1 (hceq ▸ htcabs)
            subst hmerged
            rw [set_getElem_self _ _ _ hidx, withSubtrees_self] at h
            exact ihL _ _ _ _ h hmoves hnt hst
              (fun oc hoc => habs oc (List.mem_cons_of_mem o hoc))
    · -- reevaluate
      intro t r h hnt hst
      rw [reevaluate] at h
      rcases hp : purge n t with _ | t1
      · simp only [hp] at h
        exact Option.noConfusion h
      · simp only [hp] at h
        rw [(mergeInv n).2.2.2.2.1 _ _ hp hnt] at h
        rcases hls : t.subtrees with _ | ⟨c0, cs0⟩
        · simp only [hls] at h
          injection h with h2
          exact h2.symm
        · simp only [hls] at h
          rcases hrc : revalChildren n (c0 :: cs0) with _ | subs2
          · simp only [hrc] at h
            exact Option.noConfusion h
          · simp only [hrc] at h
            injection h with h2
            obtain ⟨hndm, hcn⟩ := nodupTree_parts hnt
            have hsub : subs2 = c0 :: cs0 := by
              apply ihC _ _ hrc
              intro c hc
              rw [← hls] at hc
              exact ⟨hcn c hc, (stableTree_iff t).mp hst c hc⟩
            rw [← h2, hsub, ← hls, withSubtrees_self]
    · -- revalChildren
      intro cs rs h hcs
      rcases cs with _ | ⟨c, cs2⟩
      · simp only [revalChildren] at h
        injection h with h2
        exact h2.symm
      · simp only [revalChildren] at h
        rcases hre : reevaluate n c with _ | c1
        · simp only [hre] at h
          exact Option.noConfusion h
        · simp only [hre] at h
          rcases hrc : revalChildren n cs2 with _ | rest2
          · simp only [hrc] at h
            exact Option.noConfusion h
          · simp only [hrc] at h
            injection h with h2
            obtain ⟨hcnd, hcst, hcfix⟩ := hcs c (List.mem_cons_self _ _)
            have hc1 : c1 = c := ihR _ _ hre hcnd hcst
            have hrest : rest2 = cs2 :=
              ihC _ _ hrc (fun x hx => hcs x (List.mem_cons_of_mem c hx))
            rw [← h2, hc1, hcfix, hrest]

/-- Claim C9 (amended): for duplicate-free trees — no node of either input
has two children carrying the same move — applying `merge_with` twice with
the same other tree yields the same resulting tree as applying it once,
and the merged tree again has no node with two same-move children.
Duplicate-freeness is the amendment: with duplicate moves among the other
tree's children, the stale pre-loop move list of `merge_with` and the
remove-while-iterating skip of `purge` leave duplicate children and a
second identical merge changes the tree (the counterexample). -/
theorem C9_merge_idempotent_amended (f1 f2 : Nat) (t o r r2 : GameTree)
    (ht : nodupTree t = true) (ho : nodupTree o = true)
    (h1 : mergeWith f1 t o = some r) (h2 : mergeWith f2 r o = some r2) :
    r2 = r ∧ nodupTree r = true := by
  have hnr : nodupTree r = true := ((mergeInv f1).1 t o r h1 ht ho).1
  obtain ⟨hstr, habs⟩ := (mergeAbsorb f1).1 t o r h1 ht ho
  exact ⟨(mergeIdem f2).1 r o r2 h2 hnr hstr habs, hnr⟩

/-- Witness for the amended claim C9: merging two duplicate-free one-child
trees, a second identical merge returns the same tree, and the result is
duplicate-free. -/
theorem C9_merge_idempotent_amended_witness :
    nodupTree (GameTree.mk ['*'] true 0 0 0 [GameTree.mk ['a'] false 1 1 0 []]) = true
    ∧ (GameTree.mk ['*'] true 0 1 (1/2)
        [GameTree.mk ['a'] false 1 1 0 [], GameTree.mk ['b'] false 2 0 1 []]
      = GameTree.mk ['*'] true 0 1 (1/2)
        [GameTree.mk ['a'] false 1 1 0 [], GameTree.mk ['b'] false 2 0 1 []]
      ∧ nodupTree (GameTree.mk ['*'] true 0 1 (1/2)
        [GameTree.mk ['a'] false 1 1 0 [], GameTree.mk ['b'] false 2 0 1 []]) = true) :=
  ⟨by with_unfolding_all decide,
   C9_merge_idempotent_amended 20 20
     (GameTree.mk ['*'] true 0 0 0 [GameTree.mk ['a'] false 1 1 0 []])
     (GameTree.mk ['*'] true 0 0 0 [GameTree.mk ['b'] false 2 0 1 []])
     (GameTree.mk ['*'] true 0 1 (1/2)
       [GameTree.mk ['a'] false 1 1 0 [], GameTree.mk ['b'] false 2 0 1 []])
     (GameTree.mk ['*'] true 0 1 (1/2)
       [GameTree.mk ['a'] false 1 1 0 [], GameTree.mk ['b'] false 2 0 1 []])
     (by with_unfolding_all decide) (by with_unfolding_all decide)
     (by with_unfolding_all decide) (by with_unfolding_all decide)⟩

end Xiangqi